import Mathlib

/-!
# Subversion: hash dump/load, configuration store, ra_svn connection layer

A shallow embedding of `libsvn_subr/hash.c`, `libsvn_subr/config.c` and of the
contracts declared in `libsvn_ra_svn/ra_svn.h`, with the properties proved
about them.  A byte is a natural number (0..255); a C string is the list of its
bytes before the terminating NUL; a file open for reading is the list of bytes
not yet consumed.
-/

namespace Svn

/-! ## Bytes, decimal text, C library helpers -/

/-- A byte string: the bytes by value, each a natural number below 256. -/
abbrev Bytes := List Nat

/-- Error codes that the embedded functions create or pass on. -/
inductive ErrCode where
  | APR_EOF
  | APR_ENOSPC
  | SVN_ERR_MALFORMED_FILE
  | FUEL_EXHAUSTED
  deriving DecidableEq, Repr

/-- The C predicate isdigit, on a byte. -/
def isDigit (c : Nat) : Bool := decide (48 ≤ c) && decide (c ≤ 57)

/-- The C predicate isspace in the C locale: space, and tab to carriage return. -/
def isSpace (c : Nat) : Bool := c == 32 || (decide (9 ≤ c) && decide (c ≤ 13))

/-- Decimal digits of `n`, most significant first, put in front of `acc`;
`fuel` bounds the number of digits. -/
def decimalCore : Nat → Nat → Bytes → Bytes
  | 0, _, acc => acc
  | fuel + 1, n, acc =>
    if n < 10 then (48 + n) :: acc
    else decimalCore fuel (n / 10) ((48 + n % 10) :: acc)

/-- What `apr_psprintf (pool, "%" APR_SSIZE_T_FMT, n)` yields for `n ≥ 0`:
the decimal digits of `n`. -/
def apr_psprintf_d (n : Nat) : Bytes := decimalCore (n + 1) n []

/-- The digit loop of atoi: accumulate decimal digits, stop at the first byte
that is not a digit (the terminating NUL included). -/
def atoiDigits : Nat → Bytes → Nat
  | acc, [] => acc
  | acc, c :: cs => if isDigit c then atoiDigits (acc * 10 + (c - 48)) cs else acc

/-- Truncation of an integer to a 32-bit C int. -/
def toCInt (x : Int) : Int := (x + 2147483648) % 4294967296 - 2147483648

/-- Conversion of a C int to size_t (64 bits). -/
def toSizeT (x : Int) : Nat := (x % 18446744073709551616).toNat

/-- The C function atoi on the bytes of a NUL-terminated string: skip white
space, read an optional sign and the decimal digits that follow.  Overflow,
undefined in C, is truncation to 32 bits here. -/
def atoi (s : Bytes) : Int :=
  match s.dropWhile isSpace with
  | [] => 0
  | c :: cs =>
    if c = 45 then toCInt (- (atoiDigits 0 cs : Int))
    else if c = 43 then toCInt (atoiDigits 0 cs)
    else toCInt (atoiDigits 0 (c :: cs))

/-! ## Files -/

/-- A file open for reading: the bytes from the current position to the end. -/
abbrev InFile := Bytes

/-- A file open for writing: the bytes written so far, and how many more bytes
the device will take before a write fails. -/
structure OutFile where
  content : Bytes
  space : Nat
  deriving DecidableEq, Repr

/-- Modelled from the spec: `svn_io_file_write_full` (io.c) is not among the
sources; it writes all of `data` or returns an error. -/
def svn_io_file_write_full (f : OutFile) (data : Bytes) : Except ErrCode OutFile :=
  if data.length ≤ f.space then
    .ok { content := f.content ++ data, space := f.space - data.length }
  else .error .APR_ENOSPC

/-- Modelled from the spec: `svn_io_file_getc` (io.c) is not among the sources;
it reads one byte, or returns the end-of-file error. -/
def svn_io_file_getc : InFile → Except ErrCode (Nat × InFile)
  | [] => .error .APR_EOF
  | c :: rest => .ok (c, rest)

/-- Modelled from the spec: `svn_io_file_read_full` (io.c) is not among the
sources; it reads exactly `n` bytes, or returns the end-of-file error when
fewer are left. -/
def svn_io_file_read_full (n : Nat) (f : InFile) : Except ErrCode (Bytes × InFile) :=
  if f.length < n then .error .APR_EOF else .ok (f.take n, f.drop n)

/-- Modelled from the spec: `svn_io_read_length_line` (io.c) is not among the
sources; as hash.c uses it, it reads bytes up to a newline, at most `limit` of
them, and returns the line without the newline; the end of the file before a
newline is the end-of-file error, and `limit` bytes without a newline is a
malformed file. -/
def svn_io_read_length_line : Nat → InFile → Except ErrCode (Bytes × InFile)
  | 0, _ => .error .SVN_ERR_MALFORMED_FILE
  | _ + 1, [] => .error .APR_EOF
  | limit + 1, c :: rest =>
    if c = 10 then .ok ([], rest)
    else
      match svn_io_read_length_line limit rest with
      | .ok (line, rest1) => .ok (c :: line, rest1)
      | .error e => .error e

/-- The size of the line buffer of svn_hash_read (svn_hash.h). -/
def SVN_KEYLINE_MAXLEN : Nat := 100

/-! ## APR hash tables -/

/-- An APR hash table from byte-string keys to values: its entries in
iteration order, at most one entry per key. -/
abbrev apr_hash_t (V : Type) := List (Bytes × V)

/-- Lookup `apr_hash_get`: the value stored under `key`, if any. -/
def apr_hash_get {V : Type} (h : apr_hash_t V) (key : Bytes) : Option V :=
  match h with
  | [] => none
  | (k, v) :: rest => if k = key then some v else apr_hash_get rest key

/-- Store `apr_hash_set` with a non-NULL value: replace the value of an
existing entry where it stands, or add a new entry.  The APR table iterates by
bucket; here a new entry goes to the end of the list, so the place of a new
entry in the iteration order is not that of the code, while the entries and
every lookup are. -/
def apr_hash_set {V : Type} (h : apr_hash_t V) (key : Bytes) (val : V) : apr_hash_t V :=
  match h with
  | [] => [(key, val)]
  | (k, v) :: rest =>
    if k = key then (k, val) :: rest else (k, v) :: apr_hash_set rest key val

/-- The keys of a table, in iteration order. -/
def apr_hash_keys {V : Type} (h : apr_hash_t V) : List Bytes := h.map Prod.fst

/-! ## hash.c -/

/-- One pass of the loop body of `svn_hash_write`: the eight writes of an entry. -/
def svn_hash_write_entry (f : OutFile) (e : Bytes × Bytes) : Except ErrCode OutFile := do
  let f ← svn_io_file_write_full f [75, 32]
  let f ← svn_io_file_write_full f (apr_psprintf_d e.1.length)
  let f ← svn_io_file_write_full f [10]
  let f ← svn_io_file_write_full f e.1
  let f ← svn_io_file_write_full f [10]
  let f ← svn_io_file_write_full f [86, 32]
  let f ← svn_io_file_write_full f (apr_psprintf_d e.2.length)
  let f ← svn_io_file_write_full f [10]
  let f ← svn_io_file_write_full f e.2
  svn_io_file_write_full f [10]

/-- The loop of `svn_hash_write` over the entries. -/
def svn_hash_write_loop : apr_hash_t Bytes → OutFile → Except ErrCode OutFile
  | [], f => .ok f
  | e :: rest, f =>
    match svn_hash_write_entry f e with
    | .ok f1 => svn_hash_write_loop rest f1
    | .error err => .error err

/-- The function `svn_hash_write`: every entry, then the line END. -/
def svn_hash_write (hash : apr_hash_t Bytes) (destfile : OutFile) :
    Except ErrCode OutFile :=
  match svn_hash_write_loop hash destfile with
  | .ok f => svn_io_file_write_full f [69, 78, 68, 10]
  | .error err => .error err

/-- The test of `svn_hash_read` for a terminator line: END or PROPS-END. -/
def isEndLine (buf : Bytes) : Bool :=
  buf == [69, 78, 68] || buf == [80, 82, 79, 80, 83, 45, 69, 78, 68]

/-- The test `buf[0] == c && buf[1] == ' '` on a line. -/
def hasTag (c : Nat) (buf : Bytes) : Bool :=
  match buf with
  | a :: b :: _ => a == c && b == 32
  | _ => false

/-- What one pass of the loop of `svn_hash_read` does: return an error, return
SVN_NO_ERROR with the file at `srcfile`, or go round again. -/
inductive ReadStep where
  | fail (err : ErrCode)
  | stop (srcfile : InFile)
  | next (hash : apr_hash_t Bytes) (srcfile : InFile)
  deriving DecidableEq, Repr

/-- One pass of the `while (1)` loop of `svn_hash_read`. -/
def svn_hash_read_step (hash : apr_hash_t Bytes) (srcfile : InFile)
    (first_time : Bool) : ReadStep :=
  match svn_io_read_length_line SVN_KEYLINE_MAXLEN srcfile with
  | .error e =>
    if e = .APR_EOF ∧ first_time = true then .stop [] else .fail e
  | .ok (buf, f1) =>
    if isEndLine buf then .stop f1
    else if hasTag 75 buf then
      let keylen := toSizeT (atoi (buf.drop 2))
      match svn_io_file_read_full keylen f1 with
      | .error e => .fail e
      | .ok (keybuf, f2) =>
        match svn_io_file_getc f2 with
        | .error e => .fail e
        | .ok (c, f3) =>
          if c ≠ 10 then .fail .SVN_ERR_MALFORMED_FILE
          else
            match svn_io_read_length_line SVN_KEYLINE_MAXLEN f3 with
            | .error e => .fail e
            | .ok (buf2, f4) =>
              if hasTag 86 buf2 then
                let vallen := atoi (buf2.drop 2)
                match svn_io_file_read_full (toSizeT vallen) f4 with
                | .error e => .fail e
                | .ok (valbuf, f5) =>
                  match svn_io_file_getc f5 with
                  | .error e => .fail e
                  | .ok (c2, f6) =>
                    if c2 ≠ 10 then .fail .SVN_ERR_MALFORMED_FILE
                    else .next (apr_hash_set hash keybuf valbuf) f6
              else .fail .SVN_ERR_MALFORMED_FILE
    else .fail .SVN_ERR_MALFORMED_FILE

/-- The loop of `svn_hash_read`.  Every pass that goes on has consumed at least
one byte, so `fuel` above the length of the file is never used up.  The result
is the error, or the rest of the file on SVN_NO_ERROR, and the hash as the call
leaves it. -/
def svn_hash_read_loop : Nat → apr_hash_t Bytes → InFile → Bool →
    Except ErrCode InFile × apr_hash_t Bytes
  | 0, hash, _, _ => (.error .FUEL_EXHAUSTED, hash)
  | fuel + 1, hash, srcfile, first_time =>
    match svn_hash_read_step hash srcfile first_time with
    | .fail err => (.error err, hash)
    | .stop f => (.ok f, hash)
    | .next hash1 f => svn_hash_read_loop fuel hash1 f false

/-- The function `svn_hash_read`. -/
def svn_hash_read (hash : apr_hash_t Bytes) (srcfile : InFile) :
    Except ErrCode InFile × apr_hash_t Bytes :=
  svn_hash_read_loop (srcfile.length + 1) hash srcfile true

/-- The three values of `enum svn_hash_diff_key_status`. -/
inductive svn_hash_diff_key_status where
  | svn_hash_diff_key_both
  | svn_hash_diff_key_a
  | svn_hash_diff_key_b
  deriving DecidableEq, Repr

open svn_hash_diff_key_status

/-- The C test `hash && apr_hash_get (hash, key, klen)`; a NULL hash is `none`. -/
def keyInHash {V : Type} (hash : Option (apr_hash_t V)) (key : Bytes) : Bool :=
  match hash with
  | some h => (apr_hash_get h key).isSome
  | none => false

/-- The first loop of `svn_hash_diff`, over the entries of hash_a.  The baton
is the state `σ` that `diff_func` updates. -/
def svn_hash_diff_loop_a {V W σ : Type} (hash_b : Option (apr_hash_t W))
    (diff_func : Bytes → svn_hash_diff_key_status → σ → Except ErrCode σ) :
    apr_hash_t V → σ → Except ErrCode σ
  | [], baton => .ok baton
  | (key, _) :: rest, baton =>
    if keyInHash hash_b key then
      match diff_func key svn_hash_diff_key_both baton with
      | .ok baton1 => svn_hash_diff_loop_a hash_b diff_func rest baton1
      | .error err => .error err
    else
      match diff_func key svn_hash_diff_key_a baton with
      | .ok baton1 => svn_hash_diff_loop_a hash_b diff_func rest baton1
      | .error err => .error err

/-- The second loop of `svn_hash_diff`, over the entries of hash_b. -/
def svn_hash_diff_loop_b {V W σ : Type} (hash_a : Option (apr_hash_t V))
    (diff_func : Bytes → svn_hash_diff_key_status → σ → Except ErrCode σ) :
    apr_hash_t W → σ → Except ErrCode σ
  | [], baton => .ok baton
  | (key, _) :: rest, baton =>
    if ! keyInHash hash_a key then
      match diff_func key svn_hash_diff_key_b baton with
      | .ok baton1 => svn_hash_diff_loop_b hash_a diff_func rest baton1
      | .error err => .error err
    else svn_hash_diff_loop_b hash_a diff_func rest baton

/-- The function `svn_hash_diff`; a NULL hash is `none`. -/
def svn_hash_diff {V W σ : Type} (hash_a : Option (apr_hash_t V))
    (hash_b : Option (apr_hash_t W))
    (diff_func : Bytes → svn_hash_diff_key_status → σ → Except ErrCode σ)
    (diff_func_baton : σ) : Except ErrCode σ :=
  let after_a :=
    match hash_a with
    | some a => svn_hash_diff_loop_a hash_b diff_func a diff_func_baton
    | none => .ok diff_func_baton
  match after_a with
  | .error err => .error err
  | .ok baton =>
    match hash_b with
    | some b => svn_hash_diff_loop_b hash_a diff_func b baton
    | none => .ok baton

/-! ### Definitions that the statements about hash.c use -/

/-- The bytes of one entry of a dumped hash as the format comment of hash.c
gives them: K, the key length, the key, V, the value length, the value, each
on a line of its own. -/
def dumpEntry (e : Bytes × Bytes) : Bytes :=
  [75, 32] ++ apr_psprintf_d e.1.length ++ [10] ++ e.1 ++ [10]
    ++ ([86, 32] ++ apr_psprintf_d e.2.length ++ [10] ++ e.2 ++ [10])

/-- The bytes of a dumped hash as the format comment of hash.c gives them: the
entries in iteration order, then the line END. -/
def hashDump (h : apr_hash_t Bytes) : Bytes :=
  (h.map dumpEntry).flatten ++ [69, 78, 68, 10]

/-- The value of a run of decimal digits read after the value `acc`. -/
def digitsValue (acc : Nat) (l : Bytes) : Nat := l.foldl (fun a c => a * 10 + (c - 48)) acc

/-- The keys of a hash that may be NULL. -/
def hashKeys {V : Type} : Option (apr_hash_t V) → List Bytes
  | none => []
  | some h => apr_hash_keys h

/-- The calls of the first loop of `svn_hash_diff`, in order. -/
def diffCallsA (keys_a keys_b : List Bytes) : List (Bytes × svn_hash_diff_key_status) :=
  keys_a.map (fun k => (k, if k ∈ keys_b then svn_hash_diff_key_both else svn_hash_diff_key_a))

/-- The calls of the second loop of `svn_hash_diff`, in order. -/
def diffCallsB (keys_a keys_b : List Bytes) : List (Bytes × svn_hash_diff_key_status) :=
  (keys_b.filter (fun k => decide (k ∉ keys_a))).map (fun k => (k, svn_hash_diff_key_b))

/-- The second half of one pass of the loop of `svn_hash_read`, from the value
length line on, once the key `keybuf` and the newline after it are read. -/
def readValuePart (hash : apr_hash_t Bytes) (keybuf : Bytes) (f3 : InFile) : ReadStep :=
  match svn_io_read_length_line SVN_KEYLINE_MAXLEN f3 with
  | .error e => .fail e
  | .ok (buf2, f4) =>
    if hasTag 86 buf2 then
      match svn_io_file_read_full (toSizeT (atoi (buf2.drop 2))) f4 with
      | .error e => .fail e
      | .ok (valbuf, f5) =>
        match svn_io_file_getc f5 with
        | .error e => .fail e
        | .ok (c2, f6) =>
          if c2 ≠ 10 then .fail .SVN_ERR_MALFORMED_FILE
          else .next (apr_hash_set hash keybuf valbuf) f6
    else .fail .SVN_ERR_MALFORMED_FILE

/-- The first half of one pass of the loop of `svn_hash_read`, once a line
`buf` that is no terminator is read and the file stands at `f1`. -/
def readKeyPart (hash : apr_hash_t Bytes) (buf : Bytes) (f1 : InFile) : ReadStep :=
  if hasTag 75 buf then
    match svn_io_file_read_full (toSizeT (atoi (buf.drop 2))) f1 with
    | .error e => .fail e
    | .ok (keybuf, f2) =>
      match svn_io_file_getc f2 with
      | .error e => .fail e
      | .ok (c, f3) =>
        if c ≠ 10 then .fail .SVN_ERR_MALFORMED_FILE
        else readValuePart hash keybuf f3
  else .fail .SVN_ERR_MALFORMED_FILE

/-- A line of the input: no newline in it, and short enough for the line
buffer of `svn_hash_read`. -/
def isLine (buf : Bytes) : Prop := (∀ c ∈ buf, c ≠ 10) ∧ buf.length < SVN_KEYLINE_MAXLEN

/-- The bytes of a record that `svn_hash_read` takes: a key line `buf` that
starts with `K ` and gives the length of `keybuf`, a value line `buf2` that
starts with `V ` and gives the length of `valbuf`. -/
def takenRecord (buf keybuf buf2 valbuf : Bytes) : Prop :=
  isLine buf ∧ hasTag 75 buf = true ∧ keybuf.length = toSizeT (atoi (buf.drop 2))
    ∧ isLine buf2 ∧ hasTag 86 buf2 = true ∧ valbuf.length = toSizeT (atoi (buf2.drop 2))

/-- The bytes of a record in the input, each part followed by a newline. -/
def recordBytes (buf keybuf buf2 valbuf : Bytes) : Bytes :=
  buf ++ 10 :: (keybuf ++ 10 :: (buf2 ++ 10 :: (valbuf ++ [10])))

/-- The terminator line END. -/
def END_LINE : Bytes := [69, 78, 68]

/-- The terminator line PROPS-END. -/
def PROPS_END_LINE : Bytes := [80, 82, 79, 80, 83, 45, 69, 78, 68]

/-- The input stands at the start of a line: nothing is before it, or a newline is. -/
def atLineStart (pre : Bytes) : Prop := pre = [] ∨ ∃ q, pre = q ++ [10]

/-- The bytes of complete records, one after the other, without a terminator. -/
def recordsDump (rs : List (Bytes × Bytes)) : Bytes := (rs.map dumpEntry).flatten

/-- The hash after the records `rs` are stored in it one after the other. -/
def storeRecords (hash : apr_hash_t Bytes) (rs : List (Bytes × Bytes)) : apr_hash_t Bytes :=
  rs.foldl (fun h e => apr_hash_set h e.1 e.2) hash

/-- The struct `svn_string_t`: a counted string. -/
structure svn_string_t where
  data : Bytes
  len : Nat
  deriving DecidableEq, Repr

/-- The struct `cfg_option_t`; a string buffer is the list of its bytes, and
`x_value` is none for NULL. -/
structure cfg_option_t where
  name : Bytes
  hash_key : Bytes
  value : Bytes
  x_value : Option Bytes
  expanded : Bool
  deriving DecidableEq, Repr

/-- The struct `cfg_section_t`. -/
structure cfg_section_t where
  name : Bytes
  hash_key : Bytes
  options : apr_hash_t cfg_option_t
  deriving DecidableEq, Repr

/-- The struct `svn_config_t` (config_impl.h): the table of sections and the
flag that says whether any option holds an expanded value. -/
structure svn_config_t where
  sections : apr_hash_t cfg_section_t
  x_values : Bool
  deriving DecidableEq, Repr

/-- The function `apr_tolower` in the C locale. -/
def apr_tolower (c : Nat) : Nat := if 65 ≤ c ∧ c ≤ 90 then c + 32 else c

/-- The function `make_hash_key`: every byte to lower case. -/
def make_hash_key (key : Bytes) : Bytes := key.map apr_tolower

/-- The inner loop of `for_each_option`, over the options of one section: the
callback sees the baton, the section and the option, may change the baton and
the option, and stops the walk by returning true.  The two callbacks of
config.c read no more of the section than its name. -/
def for_each_option_in {β : Type}
    (callback : β → cfg_section_t → cfg_option_t → Bool × β × cfg_option_t)
    (sec : cfg_section_t) :
    apr_hash_t cfg_option_t → β → Bool × β × apr_hash_t cfg_option_t
  | [], baton => (false, baton, [])
  | (k, opt) :: rest, baton =>
    match callback baton sec opt with
    | (true, baton1, opt1) => (true, baton1, (k, opt1) :: rest)
    | (false, baton1, opt1) =>
      match for_each_option_in callback sec rest baton1 with
      | (stop, baton2, rest1) => (stop, baton2, (k, opt1) :: rest1)

/-- The outer loop of `for_each_option`, over the sections. -/
def for_each_option_loop {β : Type}
    (callback : β → cfg_section_t → cfg_option_t → Bool × β × cfg_option_t) :
    apr_hash_t cfg_section_t → β → β × apr_hash_t cfg_section_t
  | [], baton => (baton, [])
  | (k, sec) :: rest, baton =>
    match for_each_option_in callback sec sec.options baton with
    | (true, baton1, opts1) => (baton1, (k, { sec with options := opts1 }) :: rest)
    | (false, baton1, opts1) =>
      match for_each_option_loop callback rest baton1 with
      | (baton2, rest1) => (baton2, (k, { sec with options := opts1 }) :: rest1)

/-- The function `for_each_option`: the baton and the configuration as the
walk leaves them. -/
def for_each_option {β : Type} (cfg : svn_config_t) (baton : β)
    (callback : β → cfg_section_t → cfg_option_t → Bool × β × cfg_option_t) :
    β × svn_config_t :=
  match for_each_option_loop callback cfg.sections baton with
  | (baton1, sections1) => (baton1, { cfg with sections := sections1 })

/-- The function `rmex_callback`. -/
def rmex_callback (baton : Unit) (_section : cfg_section_t) (option : cfg_option_t) :
    Bool × Unit × cfg_option_t :=
  if option.expanded = true ∧ option.x_value ≠ none then
    (false, baton, { option with x_value := none, expanded := false })
  else (false, baton, option)

/-- The function `remove_expansions`. -/
def remove_expansions (cfg : svn_config_t) : svn_config_t :=
  if cfg.x_values = false then cfg
  else { (for_each_option cfg () rmex_callback).2 with x_values := false }

/-- The function `find_option`: the option and, for `sectionp`, the section;
none is NULL, also for the argument `option`. -/
def find_option (cfg : svn_config_t) (section_name : Bytes) (option : Option Bytes) :
    Option cfg_option_t × Option cfg_section_t :=
  let sec_ptr := apr_hash_get cfg.sections (make_hash_key section_name)
  match sec_ptr, option with
  | some sec, some opt_name => (apr_hash_get sec.options (make_hash_key opt_name), sec_ptr)
  | _, _ => (none, sec_ptr)

/-- The function `make_string_from_option`. -/
def make_string_from_option (opt : cfg_option_t) : svn_string_t :=
  match opt.x_value with
  | some x => { data := x, len := x.length }
  | none => { data := opt.value, len := opt.value.length }

/-- The function `svn_config_get`: what it stores in `*valuep`. -/
def svn_config_get (cfg : svn_config_t) (section_name : Bytes) (option : Option Bytes)
    (default_value : Bytes) : svn_string_t :=
  match (find_option cfg section_name option).1 with
  | some opt => make_string_from_option opt
  | none => { data := default_value, len := default_value.length }

/-- The function `svn_config_set`.  An option that exists gets the new value
where it stands; otherwise an option is made and stored under its canonical
name, in a section that is made too when it is missing. -/
def svn_config_set (cfg : svn_config_t) (section_name option value : Bytes) : svn_config_t :=
  let cfg1 := remove_expansions cfg
  match find_option cfg1 section_name (some option) with
  | (some opt, some sec) =>
    let opt1 := { opt with value := value, expanded := false }
    let sec1 := { sec with options := apr_hash_set sec.options (make_hash_key option) opt1 }
    { cfg1 with sections := apr_hash_set cfg1.sections (make_hash_key section_name) sec1 }
  | (_, sec_ptr) =>
    let opt : cfg_option_t :=
      { name := option, hash_key := make_hash_key option, value := value,
        x_value := none, expanded := false }
    match sec_ptr with
    | none =>
      let sec : cfg_section_t :=
        { name := section_name, hash_key := make_hash_key section_name, options := [] }
      let sec1 := { sec with options := apr_hash_set sec.options opt.hash_key opt }
      { cfg1 with sections := apr_hash_set cfg1.sections sec.hash_key sec1 }
    | some sec =>
      let sec1 := { sec with options := apr_hash_set sec.options opt.hash_key opt }
      { cfg1 with sections := apr_hash_set cfg1.sections (make_hash_key section_name) sec1 }

/-- The function `merge_callback`; the baton is the configuration merged into. -/
def merge_callback (baton : svn_config_t) (sec : cfg_section_t) (option : cfg_option_t) :
    Bool × svn_config_t × cfg_option_t :=
  (false, svn_config_set baton sec.name option.name option.value, option)

/-- The function `svn_config_read` on a platform other than Windows.  The
parser `svn_config__parse_file` (config_file.c) is not among the sources and is
the parameter `parse_file`: it fills the configuration it is given and returns
an error or none. -/
def svn_config_read (parse_file : svn_config_t → Bytes → Bool → Option ErrCode × svn_config_t)
    (file : Bytes) (must_exist : Bool) : Except ErrCode svn_config_t :=
  let cfg : svn_config_t := { sections := [], x_values := false }
  match parse_file cfg file must_exist with
  | (some err, _) => .error err
  | (none, cfg1) => .ok cfg1

/-- The function `svn_config_merge`: the error returned, none for
SVN_NO_ERROR, and the configuration `cfg` as the call leaves it. -/
def svn_config_merge (parse_file : svn_config_t → Bytes → Bool → Option ErrCode × svn_config_t)
    (cfg : svn_config_t) (file : Bytes) (must_exist : Bool) : Option ErrCode × svn_config_t :=
  match svn_config_read parse_file file must_exist with
  | .error err => (some err, cfg)
  | .ok merge_cfg => (none, (for_each_option merge_cfg cfg merge_callback).1)

/-- The loop of `svn_config_enumerate` over the options of the section; the
callback gets the name and the value of the option and the baton, and returns
what the C callback returns together with the baton as it leaves it. -/
def svn_config_enumerate_loop {σ : Type} (callback : Bytes → svn_string_t → σ → Bool × σ) :
    apr_hash_t cfg_option_t → Nat → σ → Nat × σ
  | [], count, baton => (count, baton)
  | (_, opt) :: rest, count, baton =>
    match callback opt.name (make_string_from_option opt) baton with
    | (false, baton1) => (count + 1, baton1)
    | (true, baton1) => svn_config_enumerate_loop callback rest (count + 1) baton1

/-- The function `svn_config_enumerate`: the count it returns and the baton. -/
def svn_config_enumerate {σ : Type} (cfg : svn_config_t) (section_name : Bytes)
    (callback : Bytes → svn_string_t → σ → Bool × σ) (baton : σ) : Nat × σ :=
  match (find_option cfg section_name none).2 with
  | none => (0, baton)
  | some sec => svn_config_enumerate_loop callback sec.options 0 baton

/-! ### Definitions that the statements about config.c use -/

/-- What `rmex_callback` leaves of an option. -/
def rmexOption (o : cfg_option_t) : cfg_option_t :=
  if o.expanded = true ∧ o.x_value ≠ none then { o with x_value := none, expanded := false }
  else o

/-- The invariant of the expansion flags: an option holds an expanded value
only when it is marked expanded and the configuration says that it holds
expanded values. -/
def cfgSound (cfg : svn_config_t) : Prop :=
  ∀ s ∈ cfg.sections, ∀ o ∈ s.2.options,
    o.2.x_value ≠ none → o.2.expanded = true ∧ cfg.x_values = true

/-- An upper-case letter of ASCII. -/
def isUpper (c : Nat) : Bool := decide (65 ≤ c) && decide (c ≤ 90)

/-- Two bytes are the same, or the same letter of ASCII in the two cases. -/
def sameLetter (a b : Nat) : Bool :=
  a == b || (isUpper a && b == a + 32) || (isUpper b && a == b + 32)

/-- Two names differ in the case of their letters at most. -/
def eqIgnoreCase : Bytes → Bytes → Bool
  | [], [] => true
  | a :: as, b :: bs => sameLetter a b && eqIgnoreCase as bs
  | _, _ => false

/-- No option of the configuration holds an expanded value; nothing in
config.c ever stores one. -/
def cfgPlain (cfg : svn_config_t) : Prop :=
  ∀ s ∈ cfg.sections, ∀ o ∈ s.2.options, o.2.x_value = none

/-- Every section and option is stored under the lower-case form of its name,
as `svn_config_set` stores them. -/
def cfgKeyed (cfg : svn_config_t) : Prop :=
  ∀ s ∈ cfg.sections, s.1 = make_hash_key s.2.name
    ∧ ∀ o ∈ s.2.options, o.1 = make_hash_key o.2.name

/-- The options of a configuration in the order of `for_each_option`: section
name, option name and value of each. -/
def allOptions (cfg : svn_config_t) : List (Bytes × Bytes × Bytes) :=
  (cfg.sections.map (fun s => s.2.options.map (fun o => (s.2.name, o.2.name, o.2.value)))).flatten

/-- The names of the sections of a configuration, each with the names of its
options, in the order of the tables. -/
def optionNames (cfg : svn_config_t) : List (Bytes × List Bytes) :=
  cfg.sections.map (fun s => (s.2.name, s.2.options.map (fun o => o.2.name)))

/-- A callback that counts its calls in the baton beside what `callback` does. -/
def countingCallback {σ : Type} (callback : Bytes → svn_string_t → σ → Bool × σ) :
    Bytes → svn_string_t → σ × Nat → Bool × (σ × Nat) :=
  fun name value baton =>
    ((callback name value baton.1).1, ((callback name value baton.1).2, baton.2 + 1))

/-- A callback that answers by `p` and records the names it is called with. -/
def recordingCallback (p : Bytes → svn_string_t → Bool) :
    Bytes → svn_string_t → List Bytes → Bool × List Bytes :=
  fun name value log => (p name value, log ++ [name])

/-- The options that `svn_config_enumerate` calls a callback on that answers by
`p`: those up to and including the first on which the answer is false. -/
def calledOptions (p : Bytes → svn_string_t → Bool) :
    apr_hash_t cfg_option_t → List cfg_option_t
  | [] => []
  | (_, opt) :: rest =>
    if p opt.name (make_string_from_option opt) then opt :: calledOptions p rest else [opt]

/-- The option that `svn_config_set` makes when there is none of that name. -/
def newOption (option value : Bytes) : cfg_option_t :=
  { name := option, hash_key := make_hash_key option, value := value,
    x_value := none, expanded := false }

/-- The option that `svn_config_set` leaves under the key of the option name:
`old` is the option found there before, none when there was none. -/
def setOption (old : Option cfg_option_t) (option value : Bytes) : cfg_option_t :=
  match old with
  | some opt =>
    { name := opt.name, hash_key := opt.hash_key, value := value,
      x_value := opt.x_value, expanded := false }
  | none => newOption option value

/-- The section that `svn_config_set` leaves under the key of the section
name: `old` is the section found there before, none when there was none. -/
def setSection (old : Option cfg_section_t) (section_name option value : Bytes) :
    cfg_section_t :=
  match old with
  | none =>
    { name := section_name, hash_key := make_hash_key section_name,
      options := [(make_hash_key option, newOption option value)] }
  | some sec =>
    { name := sec.name, hash_key := sec.hash_key,
      options := apr_hash_set sec.options (make_hash_key option)
        (setOption (apr_hash_get sec.options (make_hash_key option)) option value) }

/-- The configuration after the entries `l` (section name, option name, value)
are set in it one after the other. -/
def setAll (cfg : svn_config_t) (l : List (Bytes × Bytes × Bytes)) : svn_config_t :=
  l.foldl (fun c t => svn_config_set c t.1 t.2.1 t.2.2) cfg

/-- The entry `t` (section name, option name, value) bears the names
`section_name` and `option`, letter case ignored. -/
def mentions (section_name option : Bytes) (t : Bytes × Bytes × Bytes) : Bool :=
  eqIgnoreCase t.1 section_name && eqIgnoreCase t.2.1 option

/-- A parser for the examples: whatever the file, it holds the one line
`k = 2` in the section `s`. -/
def parseOneOption (cfg : svn_config_t) (_file : Bytes) (_must_exist : Bool) :
    Option ErrCode × svn_config_t :=
  (none, svn_config_set cfg [115] [107] [50])

/-- The names of the options of the section stored under `key`, in the order
of the table; none when there is no such section. -/
def sectionNames (cfg : svn_config_t) (key : Bytes) : Option (List Bytes) :=
  (apr_hash_get cfg.sections key).map (fun sec => sec.options.map (fun o => o.2.name))

/-- The section `sec` with `f` applied to each of its options. -/
def mapOptions (f : cfg_option_t → cfg_option_t) (sec : cfg_section_t) : cfg_section_t :=
  { sec with options := sec.options.map (fun o => (o.1, f o.2)) }

/-- The callback that records the option names it is called with and never
stops the enumeration. -/
def recordNames : Bytes → svn_string_t → List Bytes → Bool × List Bytes :=
  recordingCallback (fun _ _ => true)

/-! ## ra_svn.h: the connection

The header declares the connection and its buffers; the functions that write
to it live in marshal.c, which is not among the sources. -/

/-- The constant `SVN_RA_SVN__READBUF_SIZE`. -/
def SVN_RA_SVN__READBUF_SIZE : Nat := 4096

/-- The constant `SVN_RA_SVN__WRITEBUF_SIZE`. -/
def SVN_RA_SVN__WRITEBUF_SIZE : Nat := 4096

/-- Modelled from the spec: the byte stream under a connection, the writing
side only.  `written` are the bytes handed to it so far and `flushes` the
number of flushes of the write buffer that handed them over.  A write of at
most `room` bytes is taken at once; a longer one cannot be, and what the
connection did then is recorded: `blocked` counts the writes that blocked, and
`handled` lists the blocked-write handlers that were invoked instead, each with
its baton, in order.  Failures of the stream are left out. -/
structure svn_ra_svn__stream_st (H B : Type) where
  written : Bytes
  flushes : Nat
  room : Nat
  blocked : Nat
  handled : List (H × Option B)

/-- The struct `svn_ra_svn_conn_st`, without the session and the pool.
`write_buf` holds the bytes of the array below `write_pos`, `read_buf` the
bytes of the array, `read_ptr` and `read_end` are offsets into it, a NULL
string or handler is none; `H` and `B` are the types of handlers and batons. -/
structure svn_ra_svn_conn_st (H B : Type) where
  stream : svn_ra_svn__stream_st H B
  read_buf : Bytes
  read_ptr : Nat
  read_end : Nat
  write_buf : Bytes
  write_pos : Nat
  uuid : Option Bytes
  repos_root : Option Bytes
  block_handler : Option H
  block_baton : Option B
  capabilities : List Bytes

/-- Modelled from the spec: the flush of the write buffer, absent with
marshal.c: "a full blocking write" of the buffered bytes to the stream, after
which the cursor is zero.  When the stream cannot take the bytes at once,
"before blocking on a full flush, if a blocked-write handler is installed,
invoke it instead of blocking directly": the handler of the connection is
invoked with its baton, and with no handler the write blocks. -/
def writebuf_flush {H B : Type} (conn : svn_ra_svn_conn_st H B) : svn_ra_svn_conn_st H B :=
  let blocked :=
    if conn.write_pos ≤ conn.stream.room then conn.stream.blocked
    else
      match conn.block_handler with
      | some _ => conn.stream.blocked
      | none => conn.stream.blocked + 1
  let handled :=
    if conn.write_pos ≤ conn.stream.room then conn.stream.handled
    else
      match conn.block_handler with
      | some handler => conn.stream.handled ++ [(handler, conn.block_baton)]
      | none => conn.stream.handled
  { conn with
    stream := { written := conn.stream.written ++ conn.write_buf,
                flushes := conn.stream.flushes + 1,
                room := conn.stream.room,
                blocked := blocked,
                handled := handled },
    write_buf := [],
    write_pos := 0 }

/-- One byte of `write_raw`: the byte is appended to the write buffer, and a
buffer that is full with it is flushed. -/
def write_raw_byte {H B : Type} (conn : svn_ra_svn_conn_st H B) (b : Nat) :
    svn_ra_svn_conn_st H B :=
  if SVN_RA_SVN__WRITEBUF_SIZE ≤ conn.write_pos + 1 then
    writebuf_flush { conn with write_buf := conn.write_buf ++ [b],
                               write_pos := conn.write_pos + 1 }
  else { conn with write_buf := conn.write_buf ++ [b], write_pos := conn.write_pos + 1 }

/-- Modelled from the spec: `write_raw`, absent with marshal.c.  It "appends to
the write buffer"; when the bytes fill the buffer, the full buffer is flushed
to the stream and "the remainder" is copied in after the flush, so that "a
flush occurs before write_pos would exceed capacity" and "writing exactly
capacity bytes triggers exactly one flush". -/
def write_raw {H B : Type} (conn : svn_ra_svn_conn_st H B) :
    Bytes → svn_ra_svn_conn_st H B
  | [] => conn
  | b :: rest => write_raw (write_raw_byte conn b) rest

/-- A connection as it is created over a stream that takes `room` bytes at
once: nothing buffered, nothing sent, no handler. -/
def freshConn (H B : Type) (room : Nat) : svn_ra_svn_conn_st H B :=
  { stream := { written := [], flushes := 0, room := room, blocked := 0, handled := [] },
    read_buf := [], read_ptr := 0, read_end := 0,
    write_buf := [], write_pos := 0,
    uuid := none, repos_root := none,
    block_handler := none, block_baton := none, capabilities := [] }

/-- Modelled from the spec: `svn_ra_svn__set_block_handler`, which ra_svn.h
declares and marshal.c, not among the sources, defines.  It "installs/clears
the handler": the callback and the baton go into the two fields that the
connection has for them, and a NULL callback, here none, leaves the connection
without a handler. -/
def svn_ra_svn__set_block_handler {H B : Type} (conn : svn_ra_svn_conn_st H B)
    (callback : Option H) (baton : Option B) : svn_ra_svn_conn_st H B :=
  { conn with block_handler := callback, block_baton := baton }

/-- The number of flushes during `write_raw` of `data` that the stream cannot
take at once: all of them when the stream takes less than a full buffer, none
otherwise. -/
def blockedFlushes {H B : Type} (conn : svn_ra_svn_conn_st H B) (data : Bytes) : Nat :=
  if conn.stream.room < SVN_RA_SVN__WRITEBUF_SIZE then
    (conn.write_pos + data.length) / SVN_RA_SVN__WRITEBUF_SIZE
  else 0

/-! ## The item codec of the ra_svn protocol

The functions that read and write items live in marshal.c, which is not among
the sources; the encoding and the decoder below follow the text of the
specification. -/

/-- Modelled from the spec: the error taxonomy of the protocol layer. -/
inductive ProtoError where
  | IoError
  | MalformedProtocol
  | AuthFailed
  | RemoteOperationFailed
  | AbortedByCaller
  deriving DecidableEq, Repr

/-- Modelled from the spec: an Item of the wire protocol, a tagged value that
nests arbitrarily. -/
inductive Item where
  | number (n : Nat)
  | string (s : Bytes)
  | word (w : Bytes)
  | list (items : List Item)
  | tuple (items : List Item)

/-- Modelled from the spec: the expected shape that a caller decodes against:
the kind of the item and, for a tuple, the shape of every element; for a list
either the shape of every element, or with `listOf` one shape for all its
elements, as in `List(Word)`, with their number left to the input. -/
inductive Shape where
  | number
  | string
  | word
  | list (elts : List Shape)
  | tuple (elts : List Shape)
  | listOf (elt : Shape)

/-- Modelled from the spec: the bytes of a word are letters, digits, the
hyphen and the underscore. -/
def isWordChar (c : Nat) : Bool :=
  (decide (65 ≤ c) && decide (c ≤ 90)) || (decide (97 ≤ c) && decide (c ≤ 122))
    || isDigit c || c == 45 || c == 95

/-- The decimal digits of a number, in ASCII. -/
def decimal (n : Nat) : Bytes := decimalCore (n + 1) n []

mutual
/-- The shape of an item. -/
def shapeOf : Item → Shape
  | .number _ => .number
  | .string _ => .string
  | .word _ => .word
  | .list xs => .list (shapesOf xs)
  | .tuple xs => .tuple (shapesOf xs)
/-- The shapes of the items of a sequence. -/
def shapesOf : List Item → List Shape
  | [] => []
  | x :: xs => shapeOf x :: shapesOf xs
end

mutual
/-- Modelled from the spec: a valid Item: a number fits 64 bits, a word is a
non-empty run of word bytes, and the elements of a list or tuple are valid. -/
def validItem : Item → Bool
  | .number n => decide (n < 18446744073709551616)
  | .string _ => true
  | .word w => !w.isEmpty && w.all isWordChar
  | .list xs => validItems xs
  | .tuple xs => validItems xs
/-- Every item of the sequence is valid. -/
def validItems : List Item → Bool
  | [] => true
  | x :: xs => validItem x && validItems xs
end

mutual
/-- Modelled from the spec: the encoding of an Item.  A number is its decimal
digits and a space; a string is its decimal length, a space, the raw bytes and
a space; a word is its bytes and a space; a list or a tuple is an opening
parenthesis, a space, the items, a closing parenthesis and a space. -/
def encode : Item → Bytes
  | .number n => decimal n ++ [32]
  | .string s => decimal s.length ++ [32] ++ s ++ [32]
  | .word w => w ++ [32]
  | .list xs => [40, 32] ++ encodeAll xs ++ [41, 32]
  | .tuple xs => [40, 32] ++ encodeAll xs ++ [41, 32]
/-- The encodings of the items of a sequence, one after the other. -/
def encodeAll : List Item → Bytes
  | [] => []
  | x :: xs => encode x ++ encodeAll xs
end

/-- The longest run of bytes at the front of the input that satisfy `p`, and
the rest of the input. -/
def takeRun (p : Nat → Bool) : Bytes → Bytes × Bytes
  | [] => ([], [])
  | c :: cs =>
    if p c then ((takeRun p cs).1.cons c, (takeRun p cs).2) else ([], c :: cs)

/-- Read the one byte `c`, or fail. -/
def expectByte (c : Nat) : Bytes → Except ProtoError Bytes
  | [] => .error .MalformedProtocol
  | b :: rest => if b = c then .ok rest else .error .MalformedProtocol

/-- Modelled from the spec: read a number: decimal digits and a space, with a
value that fits 64 bits. -/
def readNumber (inp : Bytes) : Except ProtoError (Nat × Bytes) :=
  let run := takeRun isDigit inp
  if run.1.isEmpty then .error .MalformedProtocol
  else
    match expectByte 32 run.2 with
    | .error e => .error e
    | .ok rest =>
      if digitsValue 0 run.1 < 18446744073709551616 then .ok (digitsValue 0 run.1, rest)
      else .error .MalformedProtocol

/-- Modelled from the spec: read a string: the decimal length, a space, exactly
that many bytes, and a space.  The length is authoritative: fewer bytes than
declared is malformed input, and no byte beyond them is read but the space. -/
def readString (inp : Bytes) : Except ProtoError (Bytes × Bytes) :=
  let run := takeRun isDigit inp
  if run.1.isEmpty then .error .MalformedProtocol
  else
    match expectByte 32 run.2 with
    | .error e => .error e
    | .ok rest =>
      let len := digitsValue 0 run.1
      if rest.length < len then .error .MalformedProtocol
      else
        match expectByte 32 (rest.drop len) with
        | .error e => .error e
        | .ok rest1 => .ok (rest.take len, rest1)

/-- Modelled from the spec: read a word: a non-empty run of word bytes and a
space. -/
def readWord (inp : Bytes) : Except ProtoError (Bytes × Bytes) :=
  let run := takeRun isWordChar inp
  if run.1.isEmpty then .error .MalformedProtocol
  else
    match expectByte 32 run.2 with
    | .error e => .error e
    | .ok rest => .ok (run.1, rest)

/-- Modelled from the spec: decode the "space-separated items" of a list up
to its closing parenthesis, each with `decodeOne`.  Every item takes at least
one byte, so `fuel` above the length of the input is never used up. -/
def decodeMany (decodeOne : Bytes → Except ProtoError (Item × Bytes)) :
    Nat → Bytes → Except ProtoError (List Item × Bytes)
  | 0, _ => .error .MalformedProtocol
  | fuel + 1, inp =>
    if inp.head? = some 41 then .ok ([], inp)
    else
      match decodeOne inp with
      | .error e => .error e
      | .ok (x, r1) =>
        match decodeMany decodeOne fuel r1 with
        | .error e => .error e
        | .ok (xs, r2) => .ok (x :: xs, r2)

mutual
/-- Modelled from the spec: decode one item against the expected shape; the
result is the item and the input that follows it, or MalformedProtocol. -/
def decodeAs : Shape → Bytes → Except ProtoError (Item × Bytes)
  | .number, inp =>
    match readNumber inp with
    | .error e => .error e
    | .ok (n, rest) => .ok (.number n, rest)
  | .string, inp =>
    match readString inp with
    | .error e => .error e
    | .ok (s, rest) => .ok (.string s, rest)
  | .word, inp =>
    match readWord inp with
    | .error e => .error e
    | .ok (w, rest) => .ok (.word w, rest)
  | .list elts, inp =>
    match expectByte 40 inp with
    | .error e => .error e
    | .ok r1 =>
      match expectByte 32 r1 with
      | .error e => .error e
      | .ok r2 =>
        match decodeSeq elts r2 with
        | .error e => .error e
        | .ok (xs, r3) =>
          match expectByte 41 r3 with
          | .error e => .error e
          | .ok r4 =>
            match expectByte 32 r4 with
            | .error e => .error e
            | .ok r5 => .ok (.list xs, r5)
  | .tuple elts, inp =>
    match expectByte 40 inp with
    | .error e => .error e
    | .ok r1 =>
      match expectByte 32 r1 with
      | .error e => .error e
      | .ok r2 =>
        match decodeSeq elts r2 with
        | .error e => .error e
        | .ok (xs, r3) =>
          match expectByte 41 r3 with
          | .error e => .error e
          | .ok r4 =>
            match expectByte 32 r4 with
            | .error e => .error e
            | .ok r5 => .ok (.tuple xs, r5)
  | .listOf elt, inp =>
    match expectByte 40 inp with
    | .error e => .error e
    | .ok r1 =>
      match expectByte 32 r1 with
      | .error e => .error e
      | .ok r2 =>
        match decodeMany (fun i => decodeAs elt i) (r2.length + 1) r2 with
        | .error e => .error e
        | .ok (xs, r3) =>
          match expectByte 41 r3 with
          | .error e => .error e
          | .ok r4 =>
            match expectByte 32 r4 with
            | .error e => .error e
            | .ok r5 => .ok (.list xs, r5)
/-- Decode a sequence of items against the expected shapes, in order. -/
def decodeSeq : List Shape → Bytes → Except ProtoError (List Item × Bytes)
  | [], inp => .ok ([], inp)
  | s :: ss, inp =>
    match decodeAs s inp with
    | .error e => .error e
    | .ok (x, r1) =>
      match decodeSeq ss r1 with
      | .error e => .error e
      | .ok (xs, r2) => .ok (x :: xs, r2)
end

mutual
/-- The item is of the expected shape: of its kind, with elements of the
shapes expected, one by one or, for `listOf`, all of the one shape. -/
def conforms : Shape → Item → Bool
  | .number, .number _ => true
  | .string, .string _ => true
  | .word, .word _ => true
  | .list elts, .list xs => conformsAll elts xs
  | .tuple elts, .tuple xs => conformsAll elts xs
  | .listOf elt, .list xs => conformsEach elt xs
  | _, _ => false
/-- The items are of the expected shapes, one by one. -/
def conformsAll : List Shape → List Item → Bool
  | [], [] => true
  | s :: ss, x :: xs => conforms s x && conformsAll ss xs
  | _, _ => false
/-- Every item is of the one expected shape. -/
def conformsEach : Shape → List Item → Bool
  | _, [] => true
  | elt, x :: xs => conforms elt x && conformsEach elt xs
end

/-- A pointer to `svn_error_t`: NULL, which is SVN_NO_ERROR, or an error with
its code, message, file, line and child. -/
inductive svn_error_t where
  | SVN_NO_ERROR
  | error (apr_err : Nat) (message : Bytes) (file : Bytes) (line : Nat) (child : svn_error_t)
  deriving DecidableEq, Repr

/-- One error record of a failure reply: code, message, file and line. -/
structure ErrorRecord where
  code : Nat
  message : Bytes
  file : Bytes
  line : Nat
  deriving DecidableEq, Repr

/-- The item that carries an error record in a failure reply:
`( code:Number message:String file:String line:Number )`. -/
def recordItem (r : ErrorRecord) : Item :=
  .tuple [.number r.code, .string r.message, .string r.file, .number r.line]

/-- Modelled from the spec: the record that a parameter of a failure reply
holds, when it has the arity and the element kinds of an error record; a list
and a tuple have the same bracket syntax and are both taken. -/
def parseErrorRecord : Item → Except ProtoError ErrorRecord
  | .tuple [.number code, .string message, .string file, .number line] =>
    .ok { code := code, message := message, file := file, line := line }
  | .list [.number code, .string message, .string file, .number line] =>
    .ok { code := code, message := message, file := file, line := line }
  | _ => .error .MalformedProtocol

/-- Modelled from the spec: `svn_ra_svn__handle_failure_status`, declared in
ra_svn.h and defined in marshal.c, which is not among the sources: the error
chain of the records in `params`, the first record outermost; a parameter that
is not an error record is malformed. -/
def svn_ra_svn__handle_failure_status : List Item → Except ProtoError svn_error_t
  | [] => .ok .SVN_NO_ERROR
  | p :: rest =>
    match parseErrorRecord p with
    | .error e => .error e
    | .ok r =>
      match svn_ra_svn__handle_failure_status rest with
      | .error e => .error e
      | .ok child => .ok (.error r.code r.message r.file r.line child)

/-- The errors of a chain, outermost first. -/
def errorChain : svn_error_t → List ErrorRecord
  | .SVN_NO_ERROR => []
  | .error code message file line child =>
    { code := code, message := message, file := file, line := line } :: errorChain child

/-! ## CRAM-MD5

The client `svn_ra_svn__cram_client` is declared in ra_svn.h and defined in
cram.c, which is not among the sources; the digest is MD5 (RFC 1321) keyed as
HMAC (RFC 2104), which is what CRAM-MD5 (RFC 2195) uses. -/

/-- The per-round shift amounts of MD5 (RFC 1321). -/
def md5Shifts : List Nat :=
  [7, 12, 17, 22, 7, 12, 17, 22, 7, 12, 17, 22, 7, 12, 17, 22,
   5, 9, 14, 20, 5, 9, 14, 20, 5, 9, 14, 20, 5, 9, 14, 20,
   4, 11, 16, 23, 4, 11, 16, 23, 4, 11, 16, 23, 4, 11, 16, 23,
   6, 10, 15, 21, 6, 10, 15, 21, 6, 10, 15, 21, 6, 10, 15, 21]

/-- The sine table of MD5 (RFC 1321). -/
def md5Table : List Nat :=
  [0xd76aa478, 0xe8c7b756, 0x242070db, 0xc1bdceee,
   0xf57c0faf, 0x4787c62a, 0xa8304613, 0xfd469501,
   0x698098d8, 0x8b44f7af, 0xffff5bb1, 0x895cd7be,
   0x6b901122, 0xfd987193, 0xa679438e, 0x49b40821,
   0xf61e2562, 0xc040b340, 0x265e5a51, 0xe9b6c7aa,
   0xd62f105d, 0x02441453, 0xd8a1e681, 0xe7d3fbc8,
   0x21e1cde6, 0xc33707d6, 0xf4d50d87, 0x455a14ed,
   0xa9e3e905, 0xfcefa3f8, 0x676f02d9, 0x8d2a4c8a,
   0xfffa3942, 0x8771f681, 0x6d9d6122, 0xfde5380c,
   0xa4beea44, 0x4bdecfa9, 0xf6bb4b60, 0xbebfbc70,
   0x289b7ec6, 0xeaa127fa, 0xd4ef3085, 0x04881d05,
   0xd9d4d039, 0xe6db99e5, 0x1fa27cf8, 0xc4ac5665,
   0xf4292244, 0x432aff97, 0xab9423a7, 0xfc93a039,
   0x655b59c3, 0x8f0ccc92, 0xffeff47d, 0x85845dd1,
   0x6fa87e4f, 0xfe2ce6e0, 0xa3014314, 0x4e0811a1,
   0xf7537e82, 0xbd3af235, 0x2ad7d2bb, 0xeb86d391]

/-- Rotation of a 32-bit word to the left. -/
def rotl32 (x s : Nat) : Nat := ((x <<< s) ||| (x >>> (32 - s))) % 4294967296

/-- The state of MD5: the four 32-bit words A, B, C, D. -/
structure Md5State where
  a : Nat
  b : Nat
  c : Nat
  d : Nat
  deriving DecidableEq, Repr

/-- One of the 64 operations of MD5 on a block of sixteen words. -/
def md5Op (m : List Nat) (st : Md5State) (i : Nat) : Md5State :=
  let nb := 4294967295 - st.b
  let nd := 4294967295 - st.d
  let f :=
    if i < 16 then (st.b &&& st.c) ||| (nb &&& st.d)
    else if i < 32 then (st.d &&& st.b) ||| (nd &&& st.c)
    else if i < 48 then (st.b ^^^ st.c) ^^^ st.d
    else st.c ^^^ (st.b ||| nd)
  let g :=
    if i < 16 then i
    else if i < 32 then (5 * i + 1) % 16
    else if i < 48 then (3 * i + 5) % 16
    else (7 * i) % 16
  let sum := (f + st.a + md5Table.getD i 0 + m.getD g 0) % 4294967296
  { a := st.d, d := st.c, c := st.b,
    b := (st.b + rotl32 sum (md5Shifts.getD i 0)) % 4294967296 }

/-- A 32-bit word from four bytes, least significant first. -/
def wordLE : Bytes → Nat
  | [b0, b1, b2, b3] => b0 + 256 * b1 + 65536 * b2 + 16777216 * b3
  | _ => 0

/-- The sixteen words of a block of 64 bytes. -/
def blockWords (block : Bytes) : List Nat :=
  (List.range 16).map (fun j => wordLE ((block.drop (4 * j)).take 4))

/-- The compression of one block into the state. -/
def md5Block (st : Md5State) (block : Bytes) : Md5State :=
  let m := blockWords block
  let r := (List.range 64).foldl (md5Op m) st
  { a := (st.a + r.a) % 4294967296, b := (st.b + r.b) % 4294967296,
    c := (st.c + r.c) % 4294967296, d := (st.d + r.d) % 4294967296 }

/-- The bytes of `n`, least significant first, `k` of them. -/
def bytesLE : Nat → Nat → Bytes
  | 0, _ => []
  | k + 1, n => (n % 256) :: bytesLE k (n / 256)

/-- The padding of MD5: a byte 0x80, zeros up to 56 modulo 64, and the length
of the message in bits as eight bytes. -/
def md5Pad (msg : Bytes) : Bytes :=
  msg ++ [128] ++ List.replicate ((119 - msg.length % 64) % 64) 0
    ++ bytesLE 8 ((8 * msg.length) % 18446744073709551616)

/-- The blocks of a padded message; `fuel` bounds their number. -/
def md5Blocks : Nat → Md5State → Bytes → Md5State
  | 0, st, _ => st
  | fuel + 1, st, bytes =>
    if bytes.length < 64 then st
    else md5Blocks fuel (md5Block st (bytes.take 64)) (bytes.drop 64)

/-- The MD5 digest of a message: sixteen bytes. -/
def md5 (msg : Bytes) : Bytes :=
  let st := md5Blocks (msg.length / 64 + 2)
    { a := 0x67452301, b := 0xefcdab89, c := 0x98badcfe, d := 0x10325476 } (md5Pad msg)
  bytesLE 4 st.a ++ bytesLE 4 st.b ++ bytesLE 4 st.c ++ bytesLE 4 st.d

/-- Modelled from the spec: the keyed digest of the challenge under the shared
secret, HMAC-MD5 (RFC 2104). -/
def hmac_md5 (key msg : Bytes) : Bytes :=
  let k0 := if key.length > 64 then md5 key else key
  let k := k0 ++ List.replicate (64 - k0.length) 0
  md5 (k.map (fun b => b ^^^ 0x5c) ++ md5 (k.map (fun b => b ^^^ 0x36) ++ msg))

/-- A hexadecimal digit in lower case. -/
def hexDigit (n : Nat) : Nat := if n < 10 then 48 + n else 87 + n

/-- The bytes of a digest in hexadecimal. -/
def hexEncode : Bytes → Bytes
  | [] => []
  | b :: rest => hexDigit (b / 16) :: hexDigit (b % 16) :: hexEncode rest

/-- Modelled from the spec: the response that `svn_ra_svn__cram_client` sends
to a challenge: the user name, a space, and the keyed digest of the challenge
in hexadecimal. -/
def cram_client_response (user password challenge : Bytes) : Bytes :=
  user ++ [32] ++ hexEncode (hmac_md5 password challenge)

/-! ## commit-cmd.c

The functions that `svn_cl__commit` calls are not among the sources and are
parameters: each takes the state of the working copy and the repository, of
some type `W`, and returns it as it leaves it.  An error is a value of some
type `E`, and none is SVN_NO_ERROR.  The pool is left out. -/

/-- The fields of `svn_cl__opt_state_t` (cl.h) that `svn_cl__commit` reads; a
NULL string is none. -/
structure svn_cl__opt_state_t where
  message : Option svn_string_t
  filedata : Option svn_string_t
  xml_file : Option svn_string_t
  revision : Int
  deriving DecidableEq, Repr

/-- The loop of `svn_cl__commit` over the targets.  The trace editor and its
baton are one value of type `Ed`; `svn_client_commit` is taken with the
arguments of the call, after the two NULL arguments for the editor that runs
before: the trace editor, the target, the message, `xml_file` and `revision`.
The declaration of `svn_client_commit` in svn_client.h is an older one, with no
parameter for the message. -/
def svn_cl__commit_loop {W E Ed : Type}
    (svn_cl__get_trace_commit_editor : svn_string_t → W → Except E Ed × W)
    (svn_client_commit : Ed → svn_string_t → Option svn_string_t → Option svn_string_t →
      Int → W → Option E × W)
    (message : Option svn_string_t) (opt_state : svn_cl__opt_state_t) :
    List svn_string_t → W → Option E × W
  | [], w => (none, w)
  | target :: rest, w =>
    match svn_cl__get_trace_commit_editor target w with
    | (.error err, w1) => (some err, w1)
    | (.ok trace_editor, w1) =>
      match svn_client_commit trace_editor target message opt_state.xml_file
          opt_state.revision w1 with
      | (some err, w2) => (some err, w2)
      | (none, w2) =>
        svn_cl__commit_loop svn_cl__get_trace_commit_editor svn_client_commit message
          opt_state rest w2

/-- The function `svn_cl__commit`: the error returned and the state of the
working copy and the repository after the call. -/
def svn_cl__commit {Os W E Ed : Type}
    (svn_cl__args_to_target_array : Os → List svn_string_t)
    (svn_cl__push_implicit_dot_target : List svn_string_t → List svn_string_t)
    (svn_cl__get_trace_commit_editor : svn_string_t → W → Except E Ed × W)
    (svn_client_commit : Ed → svn_string_t → Option svn_string_t → Option svn_string_t →
      Int → W → Option E × W)
    (os : Os) (opt_state : svn_cl__opt_state_t) (w : W) : Option E × W :=
  let message :=
    match opt_state.filedata with
    | some filedata => some filedata
    | none => opt_state.message
  let targets := svn_cl__args_to_target_array os
  let targets := svn_cl__push_implicit_dot_target targets
  svn_cl__commit_loop svn_cl__get_trace_commit_editor svn_client_commit message opt_state
    targets w

/-! ### Definitions that the statements about commit-cmd.c use -/

/-- A call that `svn_cl__commit` makes for a target, with the arguments that
matter and the error that the call returned, none when it returned none. -/
inductive CommitCall (E : Type) where
  | get_editor (target : svn_string_t) (err : Option E)
  | commit (target : svn_string_t) (message xml_file : Option svn_string_t) (revision : Int)
      (err : Option E)

/-- The function `get_editor` made to record its calls beside the state. -/
def recordingEditor {W E Ed : Type} (get_editor : svn_string_t → W → Except E Ed × W) :
    svn_string_t → W × List (CommitCall E) → Except E Ed × (W × List (CommitCall E)) :=
  fun target s =>
    match get_editor target s.1 with
    | (.error err, w1) => (.error err, (w1, s.2 ++ [.get_editor target (some err)]))
    | (.ok ed, w1) => (.ok ed, (w1, s.2 ++ [.get_editor target none]))

/-- The function `commit` made to record its calls beside the state. -/
def recordingCommit {W E Ed : Type}
    (commit : Ed → svn_string_t → Option svn_string_t → Option svn_string_t → Int → W →
      Option E × W) :
    Ed → svn_string_t → Option svn_string_t → Option svn_string_t → Int →
      W × List (CommitCall E) → Option E × (W × List (CommitCall E)) :=
  fun ed target message xml_file revision s =>
    ((commit ed target message xml_file revision s.1).1,
     ((commit ed target message xml_file revision s.1).2,
      s.2 ++ [.commit target message xml_file revision
        (commit ed target message xml_file revision s.1).1]))

/-- The log message of the commits: `filedata` when it is not NULL, and
`message` otherwise. -/
def commitMessage (opt_state : svn_cl__opt_state_t) : Option svn_string_t :=
  if opt_state.filedata ≠ none then opt_state.filedata else opt_state.message

/-- The calls of a run in which the two calls for each of `targets` succeed. -/
def committedCalls (E : Type) (opt_state : svn_cl__opt_state_t) (targets : List svn_string_t) :
    List (CommitCall E) :=
  (targets.map (fun t =>
    [CommitCall.get_editor t none,
     CommitCall.commit t (commitMessage opt_state) opt_state.xml_file opt_state.revision
       none])).flatten

/-- A run over `targets` that returned `err` and made the calls `log` stopped
at the first failure: either there is no error and the calls are the two
successful calls for each target in order, or the calls are those for the
targets before some target, then a call for that target that failed with the
error returned, after a successful call for its editor when the commit is what
failed, and no call after it. -/
def StopsAtFirstFailure {E : Type} (opt_state : svn_cl__opt_state_t)
    (targets : List svn_string_t) (err : Option E) (log : List (CommitCall E)) : Prop :=
  (err = none ∧ log = committedCalls E opt_state targets)
    ∨ ∃ (before : List svn_string_t) (target : svn_string_t) (after : List svn_string_t)
        (e : E),
        targets = before ++ target :: after ∧ err = some e
          ∧ (log = committedCalls E opt_state before ++ [.get_editor target (some e)]
            ∨ log = committedCalls E opt_state before
                ++ [.get_editor target none,
                    .commit target (commitMessage opt_state) opt_state.xml_file
                      opt_state.revision (some e)])

/-- An editor for the examples: it fails with error 7 on the target `b`. -/
def exampleEditor (target : svn_string_t) (w : Nat) : Except Nat Unit × Nat :=
  if target.data = [98] then (.error 7, w) else (.ok (), w)

/-- A commit for the examples: it counts the commits in the state. -/
def exampleCommit (_ed : Unit) (_target : svn_string_t) (_message _xml : Option svn_string_t)
    (_revision : Int) (w : Nat) : Option Nat × Nat :=
  (none, w + 1)

/-! ## Theorems -/

/-! ### Writing a hash -/

theorem write_full_ok (f : OutFile) (data : Bytes) (h : data.length ≤ f.space) :
    svn_io_file_write_full f data
      = .ok { content := f.content ++ data, space := f.space - data.length } := by
  simp [svn_io_file_write_full, h]

theorem write_entry_ok (f : OutFile) (e : Bytes × Bytes)
    (h : (dumpEntry e).length ≤ f.space) :
    svn_hash_write_entry f e
      = .ok { content := f.content ++ dumpEntry e,
              space := f.space - (dumpEntry e).length } := by
  simp only [dumpEntry, List.length_append, List.length_cons, List.length_nil] at h
  simp only [svn_hash_write_entry, bind, Except.bind]
  rw [write_full_ok _ _ (by simp; omega)]; dsimp only
  rw [write_full_ok _ _ (by simp; omega)]; dsimp only
  rw [write_full_ok _ _ (by simp; omega)]; dsimp only
  rw [write_full_ok _ _ (by simp; omega)]; dsimp only
  rw [write_full_ok _ _ (by simp; omega)]; dsimp only
  rw [write_full_ok _ _ (by simp; omega)]; dsimp only
  rw [write_full_ok _ _ (by simp; omega)]; dsimp only
  rw [write_full_ok _ _ (by simp; omega)]; dsimp only
  rw [write_full_ok _ _ (by simp; omega)]; dsimp only
  rw [write_full_ok _ _ (by simp; omega)]
  simp only [dumpEntry, List.length_append, List.length_cons, List.length_nil,
    List.append_assoc, Except.ok.injEq, OutFile.mk.injEq, true_and]
  omega

theorem write_loop_ok (h : apr_hash_t Bytes) :
    ∀ f : OutFile, ((h.map dumpEntry).flatten).length ≤ f.space →
      svn_hash_write_loop h f
        = .ok { content := f.content ++ (h.map dumpEntry).flatten,
                space := f.space - ((h.map dumpEntry).flatten).length } := by
  induction h with
  | nil => intro f _; simp [svn_hash_write_loop]
  | cons e rest ih =>
    intro f hs
    simp only [List.map_cons, List.flatten_cons, List.length_append] at hs
    simp only [svn_hash_write_loop]
    rw [write_entry_ok f e (by omega)]
    dsimp only
    rw [ih _ (by simp only []; omega)]
    simp only [List.map_cons, List.flatten_cons, List.length_append, List.append_assoc,
      Except.ok.injEq, OutFile.mk.injEq, true_and]
    omega

theorem svn_hash_write_dump (h : apr_hash_t Bytes) (f : OutFile)
    (hs : (hashDump h).length ≤ f.space) :
    svn_hash_write h f
      = .ok { content := f.content ++ hashDump h,
              space := f.space - (hashDump h).length } := by
  simp only [hashDump, List.length_append, List.length_cons, List.length_nil] at hs
  simp only [svn_hash_write]
  rw [write_loop_ok h f (by omega)]
  dsimp only
  rw [write_full_ok _ _ (by simp only [List.length_cons, List.length_nil]; omega)]
  simp only [hashDump, List.length_append, List.length_cons, List.length_nil,
    List.append_assoc, Except.ok.injEq, OutFile.mk.injEq, true_and]
  omega

/-- C7: `svn_hash_write` appends to the file, entry by entry in iteration
order, K, the decimal key length, the key, V, the decimal value length and the
value, each followed by a newline, and then the four bytes of the line END; an
empty hash is written as exactly those four bytes. -/
theorem svn_hash_write_format (h : apr_hash_t Bytes) (f : OutFile)
    (hs : (hashDump h).length ≤ f.space) :
    svn_hash_write h f
        = .ok { content := f.content ++ hashDump h,
                space := f.space - (hashDump h).length }
      ∧ hashDump h = (h.map (fun e => [75, 32] ++ apr_psprintf_d e.1.length ++ [10] ++ e.1
            ++ [10] ++ [86, 32] ++ apr_psprintf_d e.2.length ++ [10] ++ e.2 ++ [10])).flatten
          ++ [69, 78, 68, 10]
      ∧ (h = [] → svn_hash_write h f
          = .ok { content := f.content ++ [69, 78, 68, 10], space := f.space - 4 }) := by
  have main := svn_hash_write_dump h f hs
  refine ⟨main, ?_, ?_⟩
  · simp only [hashDump]
    congr 2
    apply List.map_congr_left
    intro e _
    simp [dumpEntry, List.append_assoc]
  · intro he
    subst he
    rw [main]
    simp [hashDump]

/-- C7 at a concrete hash: two entries, one with an empty key and a value that
holds a newline. -/
theorem svn_hash_write_format_witness :
    svn_hash_write [([99], [114, 101, 100]), ([], [10])] ⟨[1], 64⟩
      = .ok ⟨[1, 75, 32, 49, 10, 99, 10, 86, 32, 51, 10, 114, 101, 100, 10,
              75, 32, 48, 10, 10, 86, 32, 49, 10, 10, 10, 69, 78, 68, 10], 35⟩ :=
  (svn_hash_write_format [([99], [114, 101, 100]), ([], [10])] ⟨[1], 64⟩ (by decide)).1.trans
    (by rfl)



/-! ### Decimal text -/

theorem decimalCore_append (fuel : Nat) : ∀ (n : Nat) (acc : Bytes),
    decimalCore fuel n acc = decimalCore fuel n [] ++ acc := by
  induction fuel with
  | zero => intro n acc; simp [decimalCore]
  | succ fuel ih =>
    intro n acc
    simp only [decimalCore]
    split
    · simp
    · rw [ih (n / 10) ((48 + n % 10) :: acc), ih (n / 10) [48 + n % 10]]
      simp

theorem decimalCore_digits (fuel : Nat) : ∀ (n : Nat),
    ∀ c ∈ decimalCore fuel n [], isDigit c = true := by
  induction fuel with
  | zero => intro n c hc; simp [decimalCore] at hc
  | succ fuel ih =>
    intro n c hc
    simp only [decimalCore] at hc
    split at hc
    · rename_i h10
      simp only [List.mem_singleton] at hc
      subst hc
      simp only [isDigit, Bool.and_eq_true, decide_eq_true_eq]
      omega
    · rw [decimalCore_append] at hc
      simp only [List.mem_append, List.mem_singleton] at hc
      rcases hc with hc | hc
      · exact ih _ c hc
      · subst hc
        simp only [isDigit, Bool.and_eq_true, decide_eq_true_eq]
        omega

theorem decimalCore_ne_nil (fuel : Nat) (n : Nat) : decimalCore (fuel + 1) n [] ≠ [] := by
  simp only [decimalCore]
  split
  · simp
  · rw [decimalCore_append]; simp

theorem decimalCore_length (fuel : Nat) : ∀ (n k : Nat), n < 10 ^ (k + 1) →
    (decimalCore fuel n []).length ≤ k + 1 := by
  induction fuel with
  | zero => intro n k _; simp [decimalCore]
  | succ fuel ih =>
    intro n k hn
    simp only [decimalCore]
    split
    · simp
    · rename_i h10
      rw [decimalCore_append]
      cases k with
      | zero => simp at hn; omega
      | succ k =>
        have : n / 10 < 10 ^ (k + 1) := by
          rw [Nat.div_lt_iff_lt_mul (by decide)]
          rw [pow_succ] at hn
          exact hn
        have := ih (n / 10) k this
        simp only [List.length_append, List.length_cons, List.length_nil]
        omega

theorem atoiDigits_append (l : Bytes) : ∀ (acc : Nat) (rest : Bytes),
    (∀ c ∈ l, isDigit c = true) → (∀ c, rest.head? = some c → isDigit c = false) →
    atoiDigits acc (l ++ rest) = digitsValue acc l := by
  induction l with
  | nil =>
    intro acc rest _ hr
    cases rest with
    | nil => simp [atoiDigits, digitsValue]
    | cons c cs =>
      have := hr c (by simp)
      simp [atoiDigits, digitsValue, this]
  | cons d ds ih =>
    intro acc rest hl hr
    have hd := hl d (by simp)
    simp only [List.cons_append, atoiDigits, hd, if_true]
    show atoiDigits (acc * 10 + (d - 48)) (ds ++ rest) = _
    rw [ih _ rest (fun c hc => hl c (by simp [hc])) hr]
    simp [digitsValue]

theorem digitsValue_decimalCore (fuel : Nat) : ∀ (n : Nat), n < fuel →
    digitsValue 0 (decimalCore fuel n []) = n := by
  induction fuel with
  | zero => intro n h; omega
  | succ fuel ih =>
    intro n hn
    simp only [decimalCore]
    split
    · simp [digitsValue]
    · rw [decimalCore_append]
      have h1 : n / 10 < fuel := by omega
      have := ih (n / 10) h1
      simp only [digitsValue, List.foldl_append, List.foldl_cons, List.foldl_nil] at this ⊢
      rw [this]
      omega

theorem apr_psprintf_d_digits (n : Nat) : ∀ c ∈ apr_psprintf_d n, isDigit c = true :=
  decimalCore_digits _ _

theorem apr_psprintf_d_length (n : Nat) (h : n < 2147483648) :
    (apr_psprintf_d n).length ≤ 10 :=
  decimalCore_length _ n 9 (by omega)

theorem apr_psprintf_d_value (n : Nat) : digitsValue 0 (apr_psprintf_d n) = n :=
  digitsValue_decimalCore _ n (by omega)

theorem toCInt_small (n : Nat) (h : n < 2147483648) : toCInt (n : Int) = n := by
  unfold toCInt; omega

theorem toSizeT_nat (n : Nat) (h : n < 2147483648) : toSizeT (n : Int) = n := by
  unfold toSizeT; omega

theorem atoi_decimal (n : Nat) (h : n < 2147483648) : atoi (apr_psprintf_d n) = n := by
  have hne : apr_psprintf_d n ≠ [] := decimalCore_ne_nil _ _
  have hdig := apr_psprintf_d_digits n
  have hval := apr_psprintf_d_value n
  generalize apr_psprintf_d n = l at hne hdig hval
  cases l with
  | nil => exact absurd rfl hne
  | cons d ds =>
    have hd := hdig d (by simp)
    have hsp : isSpace d = false := by
      simp only [isDigit, Bool.and_eq_true, decide_eq_true_eq] at hd
      simp [isSpace]; omega
    have hall : atoiDigits 0 (d :: ds) = n := by
      have := atoiDigits_append (d :: ds) 0 [] hdig (by simp)
      rw [List.append_nil] at this
      rw [this, hval]
    unfold atoi
    rw [List.dropWhile_cons_of_neg (by simp [hsp])]
    simp only [isDigit, Bool.and_eq_true, decide_eq_true_eq] at hd
    have h45 : ¬ d = 45 := by omega
    have h43 : ¬ d = 43 := by omega
    simp only [h45, h43, if_false]
    rw [hall, toCInt_small n h]

/-! ### Reading primitives -/

theorem read_length_line_ok (line : Bytes) : ∀ (limit : Nat) (rest : InFile),
    (∀ c ∈ line, c ≠ 10) → line.length < limit →
    svn_io_read_length_line limit (line ++ 10 :: rest) = .ok (line, rest) := by
  induction line with
  | nil =>
    intro limit rest _ hl
    cases limit with
    | zero => simp at hl
    | succ limit => simp [svn_io_read_length_line]
  | cons c cs ih =>
    intro limit rest hc hl
    cases limit with
    | zero => simp at hl
    | succ limit =>
      have h1 : c ≠ 10 := hc c (by simp)
      simp only [List.length_cons] at hl
      simp only [List.cons_append, svn_io_read_length_line, h1, if_false, List.append_eq]
      rw [ih limit rest (fun x hx => hc x (by simp [hx])) (by omega)]

theorem read_full_ok (data : Bytes) (rest : InFile) :
    svn_io_file_read_full data.length (data ++ rest) = .ok (data, rest) := by
  simp [svn_io_file_read_full]

theorem digit_ne_newline (c : Nat) (h : isDigit c = true) : c ≠ 10 := by
  simp only [isDigit, Bool.and_eq_true, decide_eq_true_eq] at h
  omega

theorem tag_line_ok (t : Nat) (ht : t ≠ 10) (n : Nat) (hn : n < 2147483648) (rest : InFile) :
    svn_io_read_length_line SVN_KEYLINE_MAXLEN
        ([t, 32] ++ apr_psprintf_d n ++ 10 :: rest)
      = .ok ([t, 32] ++ apr_psprintf_d n, rest) := by
  apply read_length_line_ok
  · intro c hc
    simp only [List.cons_append, List.nil_append, List.mem_cons] at hc
    rcases hc with hc | hc | hc
    · omega
    · omega
    · exact digit_ne_newline c (apr_psprintf_d_digits n c hc)
  · have := apr_psprintf_d_length n hn
    simp only [List.cons_append, List.nil_append, List.length_cons, SVN_KEYLINE_MAXLEN]
    omega

/-! ### Hash tables -/

theorem apr_hash_set_new {V : Type} (h : apr_hash_t V) (key : Bytes) (val : V)
    (hk : key ∉ apr_hash_keys h) : apr_hash_set h key val = h ++ [(key, val)] := by
  induction h with
  | nil => simp [apr_hash_set]
  | cons e rest ih =>
    obtain ⟨k, v⟩ := e
    simp only [apr_hash_keys, List.map_cons, List.mem_cons, not_or] at hk
    have h1 : ¬ k = key := fun h => hk.1 h.symm
    simp only [apr_hash_set, h1, if_false, List.cons_append]
    rw [ih hk.2]

/-! ### The round trip of a hash dump -/

theorem read_step_entry (acc : apr_hash_t Bytes) (k v : Bytes)
    (hk : k.length < 2147483648) (hv : v.length < 2147483648) (rest : InFile) (ft : Bool) :
    svn_hash_read_step acc (dumpEntry (k, v) ++ rest) ft
      = .next (apr_hash_set acc k v) rest := by
  have e1 : dumpEntry (k, v) ++ rest
      = [75, 32] ++ apr_psprintf_d k.length ++ 10 :: (k ++ 10 ::
          ([86, 32] ++ apr_psprintf_d v.length ++ 10 :: (v ++ 10 :: rest))) := by
    simp [dumpEntry, List.append_assoc]
  rw [e1]
  unfold svn_hash_read_step
  rw [tag_line_ok 75 (by decide) k.length hk]
  have hend : isEndLine ([75, 32] ++ apr_psprintf_d k.length) = false := by
    simp [isEndLine]
  have htag : hasTag 75 ([75, 32] ++ apr_psprintf_d k.length) = true := by
    simp [hasTag]
  simp only [hend, htag, if_true, Bool.false_eq_true, if_false]
  have hdrop : List.drop 2 ([75, 32] ++ apr_psprintf_d k.length) = apr_psprintf_d k.length := by
    simp
  rw [hdrop, atoi_decimal _ hk, toSizeT_nat _ hk, read_full_ok]
  simp only [svn_io_file_getc, ne_eq, not_true_eq_false, if_false]
  rw [tag_line_ok 86 (by decide) v.length hv]
  have htag2 : hasTag 86 ([86, 32] ++ apr_psprintf_d v.length) = true := by
    simp [hasTag]
  have hdrop2 : List.drop 2 ([86, 32] ++ apr_psprintf_d v.length) = apr_psprintf_d v.length := by
    simp
  simp only [htag2, if_true]
  rw [hdrop2, atoi_decimal _ hv, toSizeT_nat _ hv, read_full_ok]
  simp

theorem read_step_end (acc : apr_hash_t Bytes) (rest : InFile) (ft : Bool) :
    svn_hash_read_step acc ([69, 78, 68, 10] ++ rest) ft = .stop rest := by
  simp [svn_hash_read_step, svn_io_read_length_line, SVN_KEYLINE_MAXLEN, isEndLine]

theorem read_loop_dump (h : apr_hash_t Bytes) :
    ∀ (fuel : Nat) (acc : apr_hash_t Bytes) (rest : InFile) (ft : Bool),
      h.length < fuel →
      (apr_hash_keys (acc ++ h)).Nodup →
      (∀ e ∈ h, e.1.length < 2147483648 ∧ e.2.length < 2147483648) →
      svn_hash_read_loop fuel acc (hashDump h ++ rest) ft = (.ok rest, acc ++ h) := by
  induction h with
  | nil =>
    intro fuel acc rest ft hf _ _
    cases fuel with
    | zero => simp at hf
    | succ fuel =>
      simp only [hashDump, List.map_nil, List.flatten_nil, List.nil_append, svn_hash_read_loop]
      rw [read_step_end]
      simp
  | cons e h ih =>
    intro fuel acc rest ft hf hnd hlen
    obtain ⟨k, v⟩ := e
    cases fuel with
    | zero => simp at hf
    | succ fuel =>
      have hkv := hlen (k, v) (by simp)
      have e1 : hashDump ((k, v) :: h) ++ rest = dumpEntry (k, v) ++ (hashDump h ++ rest) := by
        simp [hashDump, List.append_assoc]
      have hknew : k ∉ apr_hash_keys acc := by
        simp only [apr_hash_keys, List.map_append, List.map_cons] at hnd
        have := (List.nodup_append.mp hnd).2.2
        intro hin
        exact this hin (by simp) 
      simp only [svn_hash_read_loop]
      rw [e1, read_step_entry acc k v hkv.1 hkv.2]
      dsimp only
      rw [apr_hash_set_new acc k v hknew]
      simp only [List.length_cons] at hf
      rw [ih fuel (acc ++ [(k, v)]) rest false (by omega) (by simpa using hnd)
        (fun e he => hlen e (by simp [he]))]
      simp

theorem dump_length_ge (h : apr_hash_t Bytes) : h.length ≤ ((h.map dumpEntry).flatten).length := by
  induction h with
  | nil => simp
  | cons e rest ih =>
    simp only [List.map_cons, List.flatten_cons, List.length_append, List.length_cons, dumpEntry,
      List.length_nil]
    omega

/-- C6: a hash whose keys and values have lengths that fit a C int is dumped by
`svn_hash_write` to an empty file with room for it, and `svn_hash_read` on the
bytes written, starting from an empty hash, returns SVN_NO_ERROR at the end of
the file with exactly the entries of the hash, whatever bytes the keys and the
values hold. -/
theorem svn_hash_write_read_roundtrip (h : apr_hash_t Bytes) (space : Nat)
    (hkeys : (apr_hash_keys h).Nodup)
    (hlen : ∀ e ∈ h, e.1.length < 2147483648 ∧ e.2.length < 2147483648)
    (hspace : (hashDump h).length ≤ space) :
    ∃ out : OutFile, svn_hash_write h { content := [], space := space } = .ok out
      ∧ svn_hash_read [] out.content = (.ok [], h) := by
  refine ⟨_, svn_hash_write_dump h ⟨[], space⟩ hspace, ?_⟩
  simp only [List.nil_append, svn_hash_read]
  have hfuel : h.length < (hashDump h).length + 1 := by
    have := dump_length_ge h
    simp only [hashDump, List.length_append]
    omega
  have := read_loop_dump h ((hashDump h).length + 1) [] [] true hfuel (by simpa using hkeys) hlen
  simpa using this

/-- C6 at a concrete hash: an empty key, a value made of the lines END and K 3,
and an entry whose value is empty. -/
theorem svn_hash_write_read_roundtrip_witness :
    ∃ out : OutFile,
      svn_hash_write [([], [69, 78, 68, 10, 75, 32, 51, 10]), ([75, 32, 51], [])]
          { content := [], space := 64 } = .ok out
      ∧ svn_hash_read [] out.content
          = (.ok [], [([], [69, 78, 68, 10, 75, 32, 51, 10]), ([75, 32, 51], [])]) :=
  svn_hash_write_read_roundtrip
    [([], [69, 78, 68, 10, 75, 32, 51, 10]), ([75, 32, 51], [])] 64
    (by decide) (by decide) (by decide)

/-! ### The loop of svn_hash_read ends before its fuel does -/

theorem read_length_line_shorter (limit : Nat) : ∀ (f : InFile) (line : Bytes) (rest : InFile),
    svn_io_read_length_line limit f = .ok (line, rest) →
      rest.length + line.length + 1 = f.length := by
  induction limit with
  | zero => intro f line rest h; simp [svn_io_read_length_line] at h
  | succ limit ih =>
    intro f line rest h
    cases f with
    | nil => simp [svn_io_read_length_line] at h
    | cons c cs =>
      simp only [svn_io_read_length_line] at h
      by_cases hc : c = 10
      · simp only [hc, if_true, Except.ok.injEq, Prod.mk.injEq] at h
        obtain ⟨h1, h2⟩ := h
        subst h1 h2
        simp
      · simp only [hc, if_false] at h
        cases hr : svn_io_read_length_line limit cs with
        | error e => rw [hr] at h; simp at h
        | ok r =>
          obtain ⟨line1, rest1⟩ := r
          rw [hr] at h
          simp only [Except.ok.injEq, Prod.mk.injEq] at h
          obtain ⟨h1, h2⟩ := h
          subst h1 h2
          have := ih cs line1 rest1 hr
          simp only [List.length_cons]
          omega

theorem read_full_shorter (n : Nat) (f : InFile) (data : Bytes) (rest : InFile)
    (h : svn_io_file_read_full n f = .ok (data, rest)) : rest.length ≤ f.length := by
  simp only [svn_io_file_read_full] at h
  split at h
  · simp at h
  · simp only [Except.ok.injEq, Prod.mk.injEq] at h
    rw [← h.2]
    simp

theorem getc_shorter (f : InFile) (c : Nat) (rest : InFile)
    (h : svn_io_file_getc f = .ok (c, rest)) : rest.length < f.length := by
  cases f with
  | nil => simp [svn_io_file_getc] at h
  | cons b bs =>
    simp only [svn_io_file_getc, Except.ok.injEq, Prod.mk.injEq] at h
    rw [← h.2]
    simp

theorem read_step_next_shorter (hash hash1 : apr_hash_t Bytes) (f f1 : InFile) (ft : Bool)
    (h : svn_hash_read_step hash f ft = .next hash1 f1) : f1.length < f.length := by
  unfold svn_hash_read_step at h
  cases h1 : svn_io_read_length_line SVN_KEYLINE_MAXLEN f with
  | error e => rw [h1] at h; dsimp only at h; split at h <;> simp at h
  | ok r1 =>
    obtain ⟨buf, g1⟩ := r1
    have l1 := read_length_line_shorter _ _ _ _ h1
    rw [h1] at h
    dsimp only at h
    split at h
    · simp at h
    · split at h
      · cases h2 : svn_io_file_read_full (toSizeT (atoi (List.drop 2 buf))) g1 with
        | error e => rw [h2] at h; simp at h
        | ok r2 =>
          obtain ⟨keybuf, g2⟩ := r2
          have l2 := read_full_shorter _ _ _ _ h2
          rw [h2] at h
          dsimp only at h
          cases h3 : svn_io_file_getc g2 with
          | error e => rw [h3] at h; simp at h
          | ok r3 =>
            obtain ⟨c, g3⟩ := r3
            have l3 := getc_shorter _ _ _ h3
            rw [h3] at h
            dsimp only at h
            split at h
            · simp at h
            · cases h4 : svn_io_read_length_line SVN_KEYLINE_MAXLEN g3 with
              | error e => rw [h4] at h; simp at h
              | ok r4 =>
                obtain ⟨buf2, g4⟩ := r4
                have l4 := read_length_line_shorter _ _ _ _ h4
                rw [h4] at h
                dsimp only at h
                split at h
                · cases h5 : svn_io_file_read_full (toSizeT (atoi (List.drop 2 buf2))) g4 with
                  | error e => rw [h5] at h; simp at h
                  | ok r5 =>
                    obtain ⟨valbuf, g5⟩ := r5
                    have l5 := read_full_shorter _ _ _ _ h5
                    rw [h5] at h
                    dsimp only at h
                    cases h6 : svn_io_file_getc g5 with
                    | error e => rw [h6] at h; simp at h
                    | ok r6 =>
                      obtain ⟨c2, g6⟩ := r6
                      have l6 := getc_shorter _ _ _ h6
                      rw [h6] at h
                      dsimp only at h
                      split at h
                      · simp at h
                      · simp only [ReadStep.next.injEq] at h
                        rw [← h.2]
                        omega
                · simp at h
      · simp at h

theorem read_loop_fuel (fuel1 : Nat) : ∀ (fuel2 : Nat) (hash : apr_hash_t Bytes) (f : InFile)
    (ft : Bool), f.length < fuel1 → f.length < fuel2 →
      svn_hash_read_loop fuel1 hash f ft = svn_hash_read_loop fuel2 hash f ft := by
  induction fuel1 with
  | zero => intro fuel2 hash f ft h1 _; omega
  | succ fuel1 ih =>
    intro fuel2 hash f ft h1 h2
    cases fuel2 with
    | zero => omega
    | succ fuel2 =>
      simp only [svn_hash_read_loop]
      cases hs : svn_hash_read_step hash f ft with
      | fail e => rfl
      | stop g => rfl
      | next hash1 g =>
        have := read_step_next_shorter hash hash1 f g ft hs
        exact ih fuel2 hash1 g false (by omega) (by omega)

theorem read_length_line_inv (limit : Nat) : ∀ (f : InFile) (line : Bytes) (rest : InFile),
    svn_io_read_length_line limit f = .ok (line, rest) →
      f = line ++ 10 :: rest ∧ (∀ c ∈ line, c ≠ 10) ∧ line.length < limit := by
  induction limit with
  | zero => intro f line rest h; simp [svn_io_read_length_line] at h
  | succ limit ih =>
    intro f line rest h
    cases f with
    | nil => simp [svn_io_read_length_line] at h
    | cons c cs =>
      simp only [svn_io_read_length_line] at h
      by_cases hc : c = 10
      · simp only [hc, if_true, Except.ok.injEq, Prod.mk.injEq] at h
        obtain ⟨h1, h2⟩ := h
        subst h1 h2 hc
        simp
      · simp only [hc, if_false] at h
        cases hr : svn_io_read_length_line limit cs with
        | error e => rw [hr] at h; simp at h
        | ok r =>
          obtain ⟨line1, rest1⟩ := r
          rw [hr] at h
          simp only [Except.ok.injEq, Prod.mk.injEq] at h
          obtain ⟨h1, h2⟩ := h
          subst h1 h2
          obtain ⟨e1, e2, e3⟩ := ih cs line1 rest1 hr
          refine ⟨by rw [e1]; simp, ?_, by simp only [List.length_cons]; omega⟩
          intro x hx
          simp only [List.mem_cons] at hx
          rcases hx with hx | hx
          · rw [hx]; exact hc
          · exact e2 x hx

theorem read_full_inv (n : Nat) (f : InFile) (data : Bytes) (rest : InFile)
    (h : svn_io_file_read_full n f = .ok (data, rest)) :
    f = data ++ rest ∧ data.length = n := by
  simp only [svn_io_file_read_full] at h
  split at h
  · simp at h
  · rename_i hlt
    simp only [Except.ok.injEq, Prod.mk.injEq] at h
    obtain ⟨h1, h2⟩ := h
    subst h1 h2
    refine ⟨(List.take_append_drop n f).symm, ?_⟩
    simp only [List.length_take]
    omega

theorem getc_inv (f : InFile) (c : Nat) (rest : InFile)
    (h : svn_io_file_getc f = .ok (c, rest)) : f = c :: rest := by
  cases f with
  | nil => simp [svn_io_file_getc] at h
  | cons b bs =>
    simp only [svn_io_file_getc, Except.ok.injEq, Prod.mk.injEq] at h
    rw [h.1, h.2]

theorem read_length_line_not_eof (limit : Nat) : ∀ (f : InFile), 10 ∈ f →
    svn_io_read_length_line limit f ≠ .error .APR_EOF := by
  induction limit with
  | zero => intro f _; simp [svn_io_read_length_line]
  | succ limit ih =>
    intro f hf
    cases f with
    | nil => simp at hf
    | cons c cs =>
      simp only [svn_io_read_length_line]
      by_cases hc : c = 10
      · simp [hc]
      · simp only [hc, if_false]
        have hcs : 10 ∈ cs := by
          simp only [List.mem_cons] at hf
          rcases hf with hf | hf
          · exact absurd hf.symm hc
          · exact hf
        have := ih cs hcs
        cases hr : svn_io_read_length_line limit cs with
        | error e =>
          rw [hr] at this
          simpa using this
        | ok r => simp

theorem read_step_parts (hash : apr_hash_t Bytes) (f : InFile) (ft : Bool) :
    svn_hash_read_step hash f ft
      = match svn_io_read_length_line SVN_KEYLINE_MAXLEN f with
        | .error e => if e = .APR_EOF ∧ ft = true then .stop [] else .fail e
        | .ok (buf, f1) => if isEndLine buf then .stop f1 else readKeyPart hash buf f1 := by
  unfold svn_hash_read_step readKeyPart readValuePart
  rfl

theorem hasTag_not_end (buf : Bytes) (h : hasTag 75 buf = true) : isEndLine buf = false := by
  cases buf with
  | nil => simp [hasTag] at h
  | cons a rest =>
    cases rest with
    | nil => simp [hasTag] at h
    | cons b rest =>
      simp only [hasTag, Bool.and_eq_true, beq_iff_eq] at h
      obtain ⟨h1, h2⟩ := h
      subst h1 h2
      simp [isEndLine]

theorem read_step_line (hash : apr_hash_t Bytes) (buf : Bytes) (hl : isLine buf)
    (rest : InFile) (ft : Bool) :
    svn_hash_read_step hash (buf ++ 10 :: rest) ft
      = if isEndLine buf then .stop rest else readKeyPart hash buf rest := by
  rw [read_step_parts, read_length_line_ok buf _ rest hl.1 hl.2]

theorem readValuePart_record (hash : apr_hash_t Bytes) (keybuf buf2 valbuf : Bytes)
    (hl : isLine buf2) (ht : hasTag 86 buf2 = true)
    (hv : valbuf.length = toSizeT (atoi (buf2.drop 2))) (rest : InFile) :
    readValuePart hash keybuf (buf2 ++ 10 :: (valbuf ++ 10 :: rest))
      = .next (apr_hash_set hash keybuf valbuf) rest := by
  unfold readValuePart
  rw [read_length_line_ok buf2 _ _ hl.1 hl.2]
  simp only [ht, if_true]
  rw [← hv, read_full_ok]
  simp [svn_io_file_getc]

theorem read_step_record (hash : apr_hash_t Bytes) (buf keybuf buf2 valbuf : Bytes)
    (h : takenRecord buf keybuf buf2 valbuf) (rest : InFile) (ft : Bool) :
    svn_hash_read_step hash (recordBytes buf keybuf buf2 valbuf ++ rest) ft
      = .next (apr_hash_set hash keybuf valbuf) rest := by
  obtain ⟨hl1, ht1, hk, hl2, ht2, hv⟩ := h
  have e : recordBytes buf keybuf buf2 valbuf ++ rest
      = buf ++ 10 :: (keybuf ++ 10 :: (buf2 ++ 10 :: (valbuf ++ 10 :: rest))) := by
    simp [recordBytes, List.append_assoc]
  rw [e, read_step_line hash buf hl1, hasTag_not_end buf ht1]
  simp only [Bool.false_eq_true, if_false]
  unfold readKeyPart
  simp only [ht1, if_true]
  rw [← hk, read_full_ok]
  simp only [svn_io_file_getc, ne_eq, not_true_eq_false, if_false]
  exact readValuePart_record hash keybuf buf2 valbuf hl2 ht2 hv rest

theorem readValuePart_next_inv (hash hash1 : apr_hash_t Bytes) (keybuf : Bytes)
    (f3 f6 : InFile) (h : readValuePart hash keybuf f3 = .next hash1 f6) :
    ∃ buf2 valbuf, f3 = buf2 ++ 10 :: (valbuf ++ 10 :: f6) ∧ isLine buf2
      ∧ hasTag 86 buf2 = true ∧ valbuf.length = toSizeT (atoi (buf2.drop 2))
      ∧ hash1 = apr_hash_set hash keybuf valbuf := by
  unfold readValuePart at h
  cases h4 : svn_io_read_length_line SVN_KEYLINE_MAXLEN f3 with
  | error e => rw [h4] at h; simp at h
  | ok r4 =>
    obtain ⟨buf2, f4⟩ := r4
    obtain ⟨e4, n4, l4⟩ := read_length_line_inv _ _ _ _ h4
    rw [h4] at h
    dsimp only at h
    split at h
    · rename_i ht
      cases h5 : svn_io_file_read_full (toSizeT (atoi (List.drop 2 buf2))) f4 with
      | error e => rw [h5] at h; simp at h
      | ok r5 =>
        obtain ⟨valbuf, f5⟩ := r5
        obtain ⟨e5, n5⟩ := read_full_inv _ _ _ _ h5
        rw [h5] at h
        dsimp only at h
        cases h6 : svn_io_file_getc f5 with
        | error e => rw [h6] at h; simp at h
        | ok r6 =>
          obtain ⟨c2, g6⟩ := r6
          have e6 := getc_inv _ _ _ h6
          rw [h6] at h
          dsimp only at h
          split at h
          · simp at h
          · rename_i hc
            simp only [ne_eq, Decidable.not_not] at hc
            simp only [ReadStep.next.injEq] at h
            obtain ⟨hh, hf⟩ := h
            subst hf hc
            refine ⟨buf2, valbuf, ?_, ⟨n4, l4⟩, ht, n5, hh.symm⟩
            rw [e4, e5, e6]
    · simp at h

theorem read_step_next_inv (hash hash1 : apr_hash_t Bytes) (f f1 : InFile) (ft : Bool)
    (h : svn_hash_read_step hash f ft = .next hash1 f1) :
    ∃ buf keybuf buf2 valbuf, f = recordBytes buf keybuf buf2 valbuf ++ f1
      ∧ takenRecord buf keybuf buf2 valbuf
      ∧ hash1 = apr_hash_set hash keybuf valbuf := by
  rw [read_step_parts] at h
  cases h1 : svn_io_read_length_line SVN_KEYLINE_MAXLEN f with
  | error e => rw [h1] at h; dsimp only at h; split at h <;> simp at h
  | ok r1 =>
    obtain ⟨buf, g1⟩ := r1
    obtain ⟨e1, n1, l1⟩ := read_length_line_inv _ _ _ _ h1
    rw [h1] at h
    dsimp only at h
    split at h
    · simp at h
    · unfold readKeyPart at h
      split at h
      · rename_i ht
        cases h2 : svn_io_file_read_full (toSizeT (atoi (List.drop 2 buf))) g1 with
        | error e => rw [h2] at h; simp at h
        | ok r2 =>
          obtain ⟨keybuf, g2⟩ := r2
          obtain ⟨e2, n2⟩ := read_full_inv _ _ _ _ h2
          rw [h2] at h
          dsimp only at h
          cases h3 : svn_io_file_getc g2 with
          | error e => rw [h3] at h; simp at h
          | ok r3 =>
            obtain ⟨c, g3⟩ := r3
            have e3 := getc_inv _ _ _ h3
            rw [h3] at h
            dsimp only at h
            split at h
            · simp at h
            · rename_i hc
              simp only [ne_eq, Decidable.not_not] at hc
              subst hc
              obtain ⟨buf2, valbuf, e4, hl2, ht2, hv, hh⟩ :=
                readValuePart_next_inv _ _ _ _ _ h
              refine ⟨buf, keybuf, buf2, valbuf, ?_, ⟨⟨n1, l1⟩, ht, n2, hl2, ht2, hv⟩, hh⟩
              rw [e1, e2, e3, e4]
              simp [recordBytes, List.append_assoc]
      · simp at h

theorem read_step_stop_inv (hash : apr_hash_t Bytes) (f g : InFile) (ft : Bool)
    (h : svn_hash_read_step hash f ft = .stop g) :
    (ft = true ∧ g = [] ∧ svn_io_read_length_line SVN_KEYLINE_MAXLEN f = .error .APR_EOF)
      ∨ ∃ line, f = line ++ 10 :: g ∧ isLine line ∧ isEndLine line = true := by
  rw [read_step_parts] at h
  cases h1 : svn_io_read_length_line SVN_KEYLINE_MAXLEN f with
  | error e =>
    rw [h1] at h
    dsimp only at h
    split at h
    · rename_i hc
      simp only [ReadStep.stop.injEq] at h
      left
      exact ⟨hc.2, h.symm, by rw [hc.1]⟩
    · simp at h
  | ok r1 =>
    obtain ⟨buf, g1⟩ := r1
    obtain ⟨e1, n1, l1⟩ := read_length_line_inv _ _ _ _ h1
    rw [h1] at h
    dsimp only at h
    split at h
    · rename_i hend
      simp only [ReadStep.stop.injEq] at h
      subst h
      right
      exact ⟨buf, e1, ⟨n1, l1⟩, hend⟩
    · exfalso
      unfold readKeyPart readValuePart at h
      repeat' split at h
      all_goals simp at h

/-! ### What a successful svn_hash_read has read -/

theorem isEndLine_iff (buf : Bytes) :
    isEndLine buf = true ↔ buf = END_LINE ∨ buf = PROPS_END_LINE := by
  simp [isEndLine, END_LINE, PROPS_END_LINE]

theorem recordBytes_ends (buf keybuf buf2 valbuf : Bytes) :
    ∃ q, recordBytes buf keybuf buf2 valbuf = q ++ [10] :=
  ⟨buf ++ 10 :: (keybuf ++ 10 :: (buf2 ++ 10 :: valbuf)), by
    simp [recordBytes, List.append_assoc]⟩

theorem atLineStart_append (c pre : Bytes) (hc : ∃ q, c = q ++ [10]) (hp : atLineStart pre) :
    atLineStart (c ++ pre) := by
  obtain ⟨q, hq⟩ := hc
  rcases hp with hp | ⟨q2, hq2⟩
  · right; exact ⟨q, by rw [hp, hq]; simp⟩
  · right; exact ⟨c ++ q2, by rw [hq2]; simp⟩

theorem read_loop_ok_inv (fuel : Nat) : ∀ (hash : apr_hash_t Bytes) (f : InFile) (ft : Bool)
    (rest : InFile) (hash1 : apr_hash_t Bytes),
    svn_hash_read_loop fuel hash f ft = (.ok rest, hash1) →
      (ft = true ∧ rest = [] ∧ hash1 = hash
          ∧ svn_io_read_length_line SVN_KEYLINE_MAXLEN f = .error .APR_EOF)
        ∨ ∃ pre line, f = pre ++ (line ++ 10 :: rest) ∧ isLine line
            ∧ isEndLine line = true ∧ atLineStart pre := by
  induction fuel with
  | zero => intro hash f ft rest hash1 h; simp [svn_hash_read_loop] at h
  | succ fuel ih =>
    intro hash f ft rest hash1 h
    simp only [svn_hash_read_loop] at h
    cases hs : svn_hash_read_step hash f ft with
    | fail e => rw [hs] at h; simp at h
    | stop g =>
      rw [hs] at h
      simp only [Prod.mk.injEq, Except.ok.injEq] at h
      obtain ⟨hg, hh⟩ := h
      subst hg hh
      rcases read_step_stop_inv hash f g ft hs with ⟨h1, h2, h3⟩ | ⟨line, h1, h2, h3⟩
      · left; exact ⟨h1, h2, rfl, h3⟩
      · right; exact ⟨[], line, by simpa using h1, h2, h3, Or.inl rfl⟩
    | next hash2 g =>
      rw [hs] at h
      dsimp only at h
      obtain ⟨buf, keybuf, buf2, valbuf, e1, _, _⟩ := read_step_next_inv hash hash2 f g ft hs
      rcases ih hash2 g false rest hash1 h with ⟨h1, _⟩ | ⟨pre, line, h1, h2, h3, h4⟩
      · simp at h1
      · right
        refine ⟨recordBytes buf keybuf buf2 valbuf ++ pre, line, ?_, h2, h3,
          atLineStart_append _ _ (recordBytes_ends buf keybuf buf2 valbuf) h4⟩
        rw [e1, h1]
        simp

theorem lineStart_end_eq (x pre line : Bytes) (hp : atLineStart pre)
    (hl : isLine line) (he : isEndLine line = true)
    (h : x ++ line = pre ++ END_LINE) : x = pre ∧ line = END_LINE := by
  rcases (isEndLine_iff line).mp he with hl1 | hl1
  · subst hl1
    exact ⟨List.append_cancel_right h, rfl⟩
  · exfalso
    subst hl1
    have h2 : (x ++ [80, 82, 79, 80, 83, 45]) ++ END_LINE = pre ++ END_LINE := by
      rw [← h]; simp [PROPS_END_LINE, END_LINE]
    have h3 := List.append_cancel_right h2
    rcases hp with hp | ⟨q, hq⟩
    · rw [hp] at h3
      simp at h3
    · rw [hq] at h3
      have h4 : (x ++ [80, 82, 79, 80, 83]) ++ [45] = q ++ [10] := by
        rw [← h3]; simp
      have h5 := (List.append_inj' h4 rfl).2
      simp at h5

theorem read_step_props_end (hash : apr_hash_t Bytes) (rest : InFile) (ft : Bool) :
    svn_hash_read_step hash (PROPS_END_LINE ++ 10 :: rest) ft = .stop rest := by
  rw [read_step_line hash PROPS_END_LINE (by simp [isLine, PROPS_END_LINE, SVN_KEYLINE_MAXLEN])]
  simp [isEndLine, PROPS_END_LINE]

theorem read_loop_props_end (fuel : Nat) : ∀ (hash : apr_hash_t Bytes) (pre rest : Bytes)
    (ft : Bool) (fuel2 : Nat), atLineStart pre →
    (svn_hash_read_loop fuel hash (pre ++ (END_LINE ++ 10 :: rest)) ft).1 = .ok rest →
    (pre ++ (PROPS_END_LINE ++ 10 :: rest)).length < fuel2 →
    svn_hash_read_loop fuel2 hash (pre ++ (PROPS_END_LINE ++ 10 :: rest)) ft
      = svn_hash_read_loop fuel hash (pre ++ (END_LINE ++ 10 :: rest)) ft := by
  induction fuel with
  | zero => intro hash pre rest ft fuel2 _ h _; simp [svn_hash_read_loop] at h
  | succ fuel ih =>
    intro hash pre rest ft fuel2 hp h hf
    cases fuel2 with
    | zero => omega
    | succ fuel2 =>
      simp only [svn_hash_read_loop] at h ⊢
      cases hs : svn_hash_read_step hash (pre ++ (END_LINE ++ 10 :: rest)) ft with
      | fail e => rw [hs] at h; simp at h
      | stop g =>
        rw [hs] at h
        simp only [Except.ok.injEq] at h
        subst h
        rcases read_step_stop_inv hash _ g ft hs with ⟨_, _, h3⟩ | ⟨line, h1, h2, h3⟩
        · exfalso
          exact read_length_line_not_eof _ _ (by simp) h3
        · have h4 : pre ++ END_LINE = line := by
            have : (pre ++ END_LINE) ++ 10 :: g = line ++ 10 :: g := by
              rw [← h1]; simp
            exact List.append_cancel_right this
          have h5 : pre = [] := by
            rcases hp with hp | ⟨q, hq⟩
            · exact hp
            · exfalso
              have : (10 : Nat) ∈ line := by rw [← h4, hq]; simp
              exact h2.1 10 this rfl
          subst h5
          simp only [List.nil_append]
          rw [read_step_props_end]
      | next hash2 g =>
        rw [hs] at h
        dsimp only at h ⊢
        obtain ⟨buf, keybuf, buf2, valbuf, e1, hrec, hh⟩ := read_step_next_inv hash hash2 _ g ft hs
        have hinv := read_loop_ok_inv fuel hash2 g false rest
          (svn_hash_read_loop fuel hash2 g false).2 (by rw [← h])
        rcases hinv with ⟨h1, _⟩ | ⟨pre2, line, h1, h2, h3, h4⟩
        · simp at h1
        · have hcat : (recordBytes buf keybuf buf2 valbuf ++ pre2) ++ line = pre ++ END_LINE := by
            have : ((recordBytes buf keybuf buf2 valbuf ++ pre2) ++ line) ++ 10 :: rest
                = (pre ++ END_LINE) ++ 10 :: rest := by
              rw [h1] at e1
              rw [List.append_assoc pre, e1]
              simp
            exact List.append_cancel_right this
          obtain ⟨hpre, hline⟩ := lineStart_end_eq _ pre line hp h2 h3 hcat
          subst hline
          have hg : g = pre2 ++ (END_LINE ++ 10 :: rest) := h1
          subst hg
          rw [← hpre, List.append_assoc, read_step_record hash buf keybuf buf2 valbuf hrec, ← hh]
          dsimp only
          apply ih hash2 pre2 rest false fuel2 h4 h
          rw [← hpre] at hf
          have hpos : 0 < (recordBytes buf keybuf buf2 valbuf).length := by
            simp [recordBytes]
          simp only [List.length_append, List.length_cons] at hf ⊢
          omega

/-! ### A dump that is cut short -/

theorem dumpEntry_record (k v : Bytes) (hk : k.length < 2147483648)
    (hv : v.length < 2147483648) :
    dumpEntry (k, v)
        = recordBytes ([75, 32] ++ apr_psprintf_d k.length) k
            ([86, 32] ++ apr_psprintf_d v.length) v
      ∧ takenRecord ([75, 32] ++ apr_psprintf_d k.length) k
          ([86, 32] ++ apr_psprintf_d v.length) v := by
  have line : ∀ (t n : Nat), t ≠ 10 → n < 2147483648 →
      isLine ([t, 32] ++ apr_psprintf_d n) := by
    intro t n ht hn
    constructor
    · intro c hc
      simp only [List.cons_append, List.nil_append, List.mem_cons] at hc
      rcases hc with hc | hc | hc
      · omega
      · omega
      · exact digit_ne_newline c (apr_psprintf_d_digits n c hc)
    · have := apr_psprintf_d_length n hn
      simp only [List.cons_append, List.nil_append, List.length_cons, SVN_KEYLINE_MAXLEN]
      omega
  refine ⟨by simp [dumpEntry, recordBytes, List.append_assoc], line 75 _ (by decide) hk,
    by simp [hasTag], ?_, line 86 _ (by decide) hv, by simp [hasTag], ?_⟩
  · have : List.drop 2 ([75, 32] ++ apr_psprintf_d k.length) = apr_psprintf_d k.length := by
      simp
    rw [this, atoi_decimal _ hk, toSizeT_nat _ hk]
  · have : List.drop 2 ([86, 32] ++ apr_psprintf_d v.length) = apr_psprintf_d v.length := by
      simp
    rw [this, atoi_decimal _ hv, toSizeT_nat _ hv]

theorem read_loop_records (rs : List (Bytes × Bytes)) :
    ∀ (fuel : Nat) (hash : apr_hash_t Bytes) (tail : Bytes) (ft : Bool),
      (∀ e ∈ rs, e.1.length < 2147483648 ∧ e.2.length < 2147483648) →
      (recordsDump rs ++ tail).length < fuel →
      ∃ fuel1 ft1, tail.length < fuel1 ∧
        svn_hash_read_loop fuel hash (recordsDump rs ++ tail) ft
          = svn_hash_read_loop fuel1 (storeRecords hash rs) tail ft1 := by
  induction rs with
  | nil =>
    intro fuel hash tail ft _ hf
    exact ⟨fuel, ft, by simpa [recordsDump] using hf, by simp [recordsDump, storeRecords]⟩
  | cons e rs ih =>
    intro fuel hash tail ft hlen hf
    obtain ⟨k, v⟩ := e
    cases fuel with
    | zero => omega
    | succ fuel =>
      have hkv := hlen (k, v) (by simp)
      have e1 : recordsDump ((k, v) :: rs) ++ tail
          = dumpEntry (k, v) ++ (recordsDump rs ++ tail) := by
        simp [recordsDump, List.append_assoc]
      rw [e1] at hf ⊢
      simp only [svn_hash_read_loop]
      rw [read_step_entry hash k v hkv.1 hkv.2]
      dsimp only
      have hf2 : (recordsDump rs ++ tail).length < fuel := by
        have hpos : 0 < (dumpEntry (k, v)).length := by simp [dumpEntry]
        simp only [List.length_append] at hf ⊢
        omega
      obtain ⟨fuel1, ft1, h1, h2⟩ := ih fuel (apr_hash_set hash k v) tail false
        (fun e he => hlen e (by simp [he])) hf2
      exact ⟨fuel1, ft1, h1, by rw [h2]; simp [storeRecords]⟩

theorem read_length_line_long (limit : Nat) : ∀ (f : InFile),
    limit ≤ f.length → (∀ c ∈ f.take limit, c ≠ 10) →
      svn_io_read_length_line limit f = .error .SVN_ERR_MALFORMED_FILE := by
  induction limit with
  | zero => intro f _ _; simp [svn_io_read_length_line]
  | succ limit ih =>
    intro f hl hc
    cases f with
    | nil => simp at hl
    | cons c cs =>
      have h1 : c ≠ 10 := hc c (by simp)
      simp only [List.length_cons] at hl
      simp only [svn_io_read_length_line, h1, if_false]
      rw [ih cs (by omega) (fun x hx => hc x (by simp [hx]))]

theorem hasTag_false (c : Nat) (buf : Bytes) (h : ∀ t, buf ≠ c :: 32 :: t) :
    hasTag c buf = false := by
  cases buf with
  | nil => rfl
  | cons a rest =>
    cases rest with
    | nil => rfl
    | cons b rest =>
      simp only [hasTag]
      by_cases ha : a = c
      · by_cases hb : b = 32
        · exact absurd (by rw [ha, hb]) (h rest)
        · simp [hb]
      · simp [ha]

theorem read_length_line_overlong (buf : Bytes) (rest : InFile) (hnl : ∀ c ∈ buf, c ≠ 10)
    (hlong : ¬ buf.length < SVN_KEYLINE_MAXLEN) :
    svn_io_read_length_line SVN_KEYLINE_MAXLEN (buf ++ 10 :: rest)
      = .error .SVN_ERR_MALFORMED_FILE := by
  apply read_length_line_long
  · simp only [List.length_append, List.length_cons]
    omega
  · intro c hc
    have h1 : List.take SVN_KEYLINE_MAXLEN (buf ++ 10 :: rest)
        = List.take SVN_KEYLINE_MAXLEN buf := by
      rw [List.take_append_of_le_length (by omega)]
    rw [h1] at hc
    exact hnl c (List.mem_of_mem_take hc)

theorem read_step_bad_key_line (hash : apr_hash_t Bytes) (buf : Bytes) (rest : InFile)
    (ft : Bool) (hnl : ∀ c ∈ buf, c ≠ 10) (h1 : buf ≠ END_LINE) (h2 : buf ≠ PROPS_END_LINE)
    (h3 : ∀ t, buf ≠ 75 :: 32 :: t) :
    svn_hash_read_step hash (buf ++ 10 :: rest) ft = .fail .SVN_ERR_MALFORMED_FILE := by
  by_cases hs : buf.length < SVN_KEYLINE_MAXLEN
  · rw [read_step_line hash buf ⟨hnl, hs⟩]
    have he : isEndLine buf = false := by
      cases hq : isEndLine buf with
      | false => rfl
      | true =>
        rcases (isEndLine_iff buf).mp hq with h | h
        · exact absurd h h1
        · exact absurd h h2
    simp [he, readKeyPart, hasTag_false 75 buf h3]
  · rw [read_step_parts, read_length_line_overlong buf rest hnl hs]
    simp

theorem readValuePart_bad_line (hash : apr_hash_t Bytes) (keybuf buf : Bytes) (rest : InFile)
    (hnl : ∀ c ∈ buf, c ≠ 10) (h3 : ∀ t, buf ≠ 86 :: 32 :: t) :
    readValuePart hash keybuf (buf ++ 10 :: rest) = .fail .SVN_ERR_MALFORMED_FILE := by
  unfold readValuePart
  by_cases hs : buf.length < SVN_KEYLINE_MAXLEN
  · rw [read_length_line_ok buf _ rest hnl hs]
    simp [hasTag_false 86 buf h3]
  · rw [read_length_line_overlong buf rest hnl hs]

theorem read_step_key (hash : apr_hash_t Bytes) (key : Bytes) (hk : key.length < 2147483648)
    (x : InFile) (ft : Bool) :
    svn_hash_read_step hash ([75, 32] ++ apr_psprintf_d key.length ++ 10 :: (key ++ x)) ft
      = match svn_io_file_getc x with
        | .error e => .fail e
        | .ok (c, f3) =>
          if c ≠ 10 then .fail .SVN_ERR_MALFORMED_FILE else readValuePart hash key f3 := by
  obtain ⟨_, hl1, ht1, hkl, _⟩ := dumpEntry_record key [] hk (by simp)
  rw [read_step_line hash _ hl1, hasTag_not_end _ ht1]
  simp only [Bool.false_eq_true, if_false]
  unfold readKeyPart
  simp only [ht1, if_true]
  rw [← hkl, read_full_ok]

theorem readValuePart_value (hash : apr_hash_t Bytes) (key val : Bytes)
    (hv : val.length < 2147483648) (x : InFile) :
    readValuePart hash key ([86, 32] ++ apr_psprintf_d val.length ++ 10 :: (val ++ x))
      = match svn_io_file_getc x with
        | .error e => .fail e
        | .ok (c2, f6) =>
          if c2 ≠ 10 then .fail .SVN_ERR_MALFORMED_FILE
          else .next (apr_hash_set hash key val) f6 := by
  obtain ⟨_, _, _, _, hl2, ht2, hvl⟩ := dumpEntry_record [] val (by simp) hv
  unfold readValuePart
  rw [read_length_line_ok _ _ _ hl2.1 hl2.2]
  simp only [ht2, if_true]
  rw [← hvl, read_full_ok]

theorem read_after_records (hash : apr_hash_t Bytes) (rs : List (Bytes × Bytes))
    (hlen : ∀ e ∈ rs, e.1.length < 2147483648 ∧ e.2.length < 2147483648)
    (tail : Bytes) (err : ErrCode)
    (hstep : ∀ ft, svn_hash_read_step (storeRecords hash rs) tail ft = .fail err) :
    svn_hash_read hash (recordsDump rs ++ tail) = (.error err, storeRecords hash rs) := by
  unfold svn_hash_read
  obtain ⟨fuel1, ft1, h1, h2⟩ := read_loop_records rs _ hash tail true hlen (Nat.lt_succ_self _)
  rw [h2]
  cases fuel1 with
  | zero => omega
  | succ fuel1 => simp only [svn_hash_read_loop, hstep]

/-! ### Success is a terminator line at a record boundary -/

/-- C15: when `svn_hash_read` ends on a line END that stands at the start of a
line, the same input with that line replaced by PROPS-END gives the same
return value, the same rest of the file and the same hash. -/
theorem svn_hash_read_props_end (hash : apr_hash_t Bytes) (pre rest : Bytes)
    (hp : pre = [] ∨ ∃ q, pre = q ++ [10])
    (hok : (svn_hash_read hash (pre ++ ([69, 78, 68] ++ 10 :: rest))).1 = .ok rest) :
    svn_hash_read hash (pre ++ ([80, 82, 79, 80, 83, 45, 69, 78, 68] ++ 10 :: rest))
      = svn_hash_read hash (pre ++ ([69, 78, 68] ++ 10 :: rest)) :=
  read_loop_props_end _ hash pre rest true _ hp hok (Nat.lt_succ_self _)

/-- C15 at a dump of one record that is followed by one more byte. -/
theorem svn_hash_read_props_end_witness :
    svn_hash_read [] ([75, 32, 49, 10, 97, 10, 86, 32, 49, 10, 98, 10]
        ++ ([80, 82, 79, 80, 83, 45, 69, 78, 68] ++ 10 :: [7]))
      = svn_hash_read [] ([75, 32, 49, 10, 97, 10, 86, 32, 49, 10, 98, 10]
        ++ ([69, 78, 68] ++ 10 :: [7])) :=
  svn_hash_read_props_end [] [75, 32, 49, 10, 97, 10, 86, 32, 49, 10, 98, 10] [7]
    (Or.inr ⟨[75, 32, 49, 10, 97, 10, 86, 32, 49, 10, 98], rfl⟩) (by rfl)

/-- C16: on an input of zero bytes `svn_hash_read` returns SVN_NO_ERROR and
leaves the hash as it was. -/
theorem svn_hash_read_zero_bytes (hash : apr_hash_t Bytes) :
    svn_hash_read hash [] = (.ok [], hash) := by
  rfl

/-- C17 fails on the code: the two bytes `EN`, a first line that the file ends
in the middle of, make `svn_hash_read` return SVN_NO_ERROR with the hash
untouched, though the input is not empty and no terminator line was read. -/
theorem svn_hash_read_partial_first_line :
    svn_hash_read [([1], [2])] [69, 78] = (.ok [], [([1], [2])])
      ∧ ([69, 78] : Bytes) ≠ [] := by
  constructor
  · rfl
  · decide

/-- An input whose value is shorter than its declared length, with a line END
in the place of the value: `K 1`, `a`, `V 9`, `END`.  The value read runs into
the end of the file. -/
theorem svn_hash_read_short_value_example :
    (svn_hash_read [] [75, 32, 49, 10, 97, 10, 86, 32, 57, 10, 69, 78, 68, 10]).1
      = .error .APR_EOF := by
  rfl

/-- C19: after any complete records, a line in the place of a key header that
is not END, not PROPS-END and does not start with `K `, and a line after the
bytes of a key that does not start with `V `, make `svn_hash_read` return
SVN_ERR_MALFORMED_FILE, with the hash holding the records read before. -/
theorem svn_hash_read_malformed_line (hash : apr_hash_t Bytes) (rs : List (Bytes × Bytes))
    (buf rest : Bytes)
    (hlen : ∀ e ∈ rs, e.1.length < 2147483648 ∧ e.2.length < 2147483648)
    (hnl : ∀ c ∈ buf, c ≠ 10) :
    (buf ≠ [69, 78, 68] → buf ≠ [80, 82, 79, 80, 83, 45, 69, 78, 68] →
        (∀ t, buf ≠ 75 :: 32 :: t) →
        svn_hash_read hash (recordsDump rs ++ (buf ++ 10 :: rest))
          = (.error .SVN_ERR_MALFORMED_FILE, storeRecords hash rs))
      ∧ ∀ key : Bytes, key.length < 2147483648 → (∀ t, buf ≠ 86 :: 32 :: t) →
          svn_hash_read hash (recordsDump rs
              ++ ([75, 32] ++ apr_psprintf_d key.length ++ 10 :: (key ++ 10 :: (buf ++ 10 :: rest))))
            = (.error .SVN_ERR_MALFORMED_FILE, storeRecords hash rs) := by
  constructor
  · intro h1 h2 h3
    apply read_after_records hash rs hlen
    intro ft
    exact read_step_bad_key_line _ buf rest ft hnl h1 h2 h3
  · intro key hk h3
    apply read_after_records hash rs hlen
    intro ft
    rw [read_step_key _ key hk]
    simp only [svn_io_file_getc, ne_eq, not_true_eq_false, if_false]
    exact readValuePart_bad_line _ key buf rest hnl h3

/-- C19 at a line `X 1` in the place of a key header, after one record. -/
theorem svn_hash_read_malformed_line_witness :
    svn_hash_read [] (recordsDump [([97], [98])] ++ ([88, 32, 49] ++ 10 :: [97, 10]))
      = (.error .SVN_ERR_MALFORMED_FILE, storeRecords [] [([97], [98])]) :=
  (svn_hash_read_malformed_line [] [([97], [98])] [88, 32, 49] [97, 10]
    (by decide) (by decide)).1 (by decide) (by decide) (by intro t; simp)

/-- C20: after any complete records, when the byte that follows the declared
number of key bytes, or of value bytes, is not a newline, `svn_hash_read`
returns SVN_ERR_MALFORMED_FILE, and the hash holds the records read before and
not the record that was being read. -/
theorem svn_hash_read_missing_newline (hash : apr_hash_t Bytes) (rs : List (Bytes × Bytes))
    (key rest : Bytes) (c : Nat)
    (hlen : ∀ e ∈ rs, e.1.length < 2147483648 ∧ e.2.length < 2147483648)
    (hk : key.length < 2147483648) (hc : c ≠ 10) :
    svn_hash_read hash (recordsDump rs
          ++ ([75, 32] ++ apr_psprintf_d key.length ++ 10 :: (key ++ c :: rest)))
        = (.error .SVN_ERR_MALFORMED_FILE, storeRecords hash rs)
      ∧ ∀ val : Bytes, val.length < 2147483648 →
          svn_hash_read hash (recordsDump rs
              ++ ([75, 32] ++ apr_psprintf_d key.length ++ 10 :: (key ++ 10 ::
                  ([86, 32] ++ apr_psprintf_d val.length ++ 10 :: (val ++ c :: rest)))))
            = (.error .SVN_ERR_MALFORMED_FILE, storeRecords hash rs) := by
  constructor
  · apply read_after_records hash rs hlen
    intro ft
    rw [read_step_key _ key hk]
    simp [svn_io_file_getc, hc]
  · intro val hv
    apply read_after_records hash rs hlen
    intro ft
    rw [read_step_key _ key hk]
    simp only [svn_io_file_getc, ne_eq, not_true_eq_false, if_false]
    rw [readValuePart_value _ key val hv]
    simp [svn_io_file_getc, hc]

/-- C20 at a value of one byte that is followed by `x` and not by a newline,
after one record. -/
theorem svn_hash_read_missing_newline_witness :
    svn_hash_read [] (recordsDump [([97], [98])]
        ++ ([75, 32] ++ apr_psprintf_d 1 ++ 10 :: ([99] ++ 10 ::
            ([86, 32] ++ apr_psprintf_d 1 ++ 10 :: ([100] ++ 120 :: [10])))))
      = (.error .SVN_ERR_MALFORMED_FILE, storeRecords [] [([97], [98])]) :=
  (svn_hash_read_missing_newline [] [([97], [98])] [99] [10] 120
    (by decide) (by decide) (by decide)).2 [100] (by decide)

/-! ### The difference of two hashes -/

theorem apr_hash_get_isSome {V : Type} (h : apr_hash_t V) (key : Bytes) :
    (apr_hash_get h key).isSome = true ↔ key ∈ apr_hash_keys h := by
  induction h with
  | nil => simp [apr_hash_get, apr_hash_keys]
  | cons e rest ih =>
    obtain ⟨k, v⟩ := e
    simp only [apr_hash_get, apr_hash_keys, List.map_cons, List.mem_cons]
    by_cases hk : k = key
    · simp [hk]
    · simp only [hk, if_false]
      rw [ih]
      simp only [apr_hash_keys]
      constructor
      · intro h1; exact Or.inr h1
      · intro h1
        rcases h1 with h1 | h1
        · exact absurd h1.symm hk
        · exact h1

theorem filter_key_map {S : Type} (f : Bytes → S) (key : Bytes) (l : List Bytes)
    (hl : l.Nodup) :
    (l.map (fun k => (k, f k))).filter (fun c => decide (c.1 = key))
      = if key ∈ l then [(key, f key)] else [] := by
  induction l with
  | nil => simp
  | cons k rest ih =>
    have hnd := List.nodup_cons.mp hl
    simp only [List.map_cons, List.filter_cons]
    by_cases hk : k = key
    · subst hk
      simp only [decide_True, if_true, List.mem_cons, true_or]
      rw [ih hnd.2]
      simp [hnd.1]
    · simp only [hk, decide_False, Bool.false_eq_true, if_false, List.mem_cons]
      rw [ih hnd.2]
      have : (key = k ∨ key ∈ rest) ↔ key ∈ rest := by
        constructor
        · intro h1
          rcases h1 with h1 | h1
          · exact absurd h1.symm hk
          · exact h1
        · intro h1; exact Or.inr h1
      simp only [this]

theorem keyInHash_eq {V : Type} (hash : Option (apr_hash_t V)) (key : Bytes) :
    keyInHash hash key = decide (key ∈ hashKeys hash) := by
  cases hash with
  | none => simp [keyInHash, hashKeys]
  | some h =>
    simp only [keyInHash, hashKeys]
    by_cases hk : key ∈ apr_hash_keys h
    · simp [hk, (apr_hash_get_isSome h key).mpr hk]
    · have : (apr_hash_get h key).isSome = false := by
        cases hq : (apr_hash_get h key).isSome with
        | false => rfl
        | true => exact absurd ((apr_hash_get_isSome h key).mp hq) hk
      simp [hk, this]

theorem diff_loop_a_total {V W σ : Type} (hash_b : Option (apr_hash_t W))
    (g : Bytes → svn_hash_diff_key_status → σ → σ) (a : apr_hash_t V) :
    ∀ s : σ, svn_hash_diff_loop_a hash_b (fun k st s => .ok (g k st s)) a s
      = .ok ((diffCallsA (apr_hash_keys a) (hashKeys hash_b)).foldl
          (fun s c => g c.1 c.2 s) s) := by
  induction a with
  | nil => intro s; simp [svn_hash_diff_loop_a, diffCallsA, apr_hash_keys]
  | cons e rest ih =>
    intro s
    obtain ⟨k, v⟩ := e
    simp only [svn_hash_diff_loop_a, keyInHash_eq]
    by_cases hk : k ∈ hashKeys hash_b
    · simp only [hk, decide_True, if_true]
      rw [ih]
      simp [diffCallsA, apr_hash_keys, hk]
    · simp only [hk, decide_False, Bool.false_eq_true, if_false]
      rw [ih]
      simp [diffCallsA, apr_hash_keys, hk]

theorem diff_loop_b_total {V W σ : Type} (hash_a : Option (apr_hash_t V))
    (g : Bytes → svn_hash_diff_key_status → σ → σ) (b : apr_hash_t W) :
    ∀ s : σ, svn_hash_diff_loop_b hash_a (fun k st s => .ok (g k st s)) b s
      = .ok ((diffCallsB (hashKeys hash_a) (apr_hash_keys b)).foldl
          (fun s c => g c.1 c.2 s) s) := by
  induction b with
  | nil => intro s; simp [svn_hash_diff_loop_b, diffCallsB, apr_hash_keys]
  | cons e rest ih =>
    intro s
    obtain ⟨k, v⟩ := e
    simp only [svn_hash_diff_loop_b, keyInHash_eq]
    by_cases hk : k ∈ hashKeys hash_a
    · simp only [hk, decide_True, Bool.not_true, Bool.false_eq_true, if_false]
      rw [ih]
      simp [diffCallsB, apr_hash_keys, hk]
    · simp only [hk, decide_False, Bool.not_false, if_true]
      rw [ih]
      simp [diffCallsB, apr_hash_keys, hk]

theorem diff_null_a {V W σ : Type} (hash_b : Option (apr_hash_t W))
    (f : Bytes → svn_hash_diff_key_status → σ → Except ErrCode σ) (s : σ) :
    svn_hash_diff (none : Option (apr_hash_t V)) hash_b f s
      = svn_hash_diff (some ([] : apr_hash_t V)) hash_b f s := by
  cases hash_b with
  | none => simp [svn_hash_diff, svn_hash_diff_loop_a]
  | some b =>
    simp only [svn_hash_diff, svn_hash_diff_loop_a]
    induction b generalizing s with
    | nil => simp [svn_hash_diff_loop_b]
    | cons e rest ih =>
      obtain ⟨k, v⟩ := e
      simp only [svn_hash_diff_loop_b, keyInHash, apr_hash_get, Option.isSome_none,
        Bool.not_false, if_true]
      cases f k svn_hash_diff_key_b s with
      | error err => rfl
      | ok s1 => exact ih s1

theorem diff_null_b {V W σ : Type} (hash_a : Option (apr_hash_t V))
    (f : Bytes → svn_hash_diff_key_status → σ → Except ErrCode σ) (s : σ) :
    svn_hash_diff hash_a (none : Option (apr_hash_t W)) f s
      = svn_hash_diff hash_a (some ([] : apr_hash_t W)) f s := by
  cases hash_a with
  | none => simp [svn_hash_diff, svn_hash_diff_loop_b]
  | some a =>
    simp only [svn_hash_diff]
    have : ∀ s, svn_hash_diff_loop_a (none : Option (apr_hash_t W)) f a s
        = svn_hash_diff_loop_a (some ([] : apr_hash_t W)) f a s := by
      induction a with
      | nil => intro s; simp [svn_hash_diff_loop_a]
      | cons e rest ih =>
        intro s
        obtain ⟨k, v⟩ := e
        simp only [svn_hash_diff_loop_a, keyInHash, apr_hash_get, Option.isSome_none,
          Bool.false_eq_true, if_false]
        cases f k svn_hash_diff_key_a s with
        | error err => rfl
        | ok s1 => exact ih s1
    rw [this]
    cases svn_hash_diff_loop_a (some ([] : apr_hash_t W)) f a s with
    | error err => rfl
    | ok s1 => simp [svn_hash_diff_loop_b]

/-- C9: with a `diff_func` that never fails, `svn_hash_diff` returns success
after a sequence of calls in which every key of hash_a or hash_b occurs exactly
once and no other key occurs, with status both, a or b according to the hashes
that hold the key; and a NULL hash gives, with any `diff_func`, what an empty
hash gives. -/
theorem svn_hash_diff_calls {V W : Type} (hash_a : Option (apr_hash_t V))
    (hash_b : Option (apr_hash_t W))
    (ha : (hashKeys hash_a).Nodup) (hb : (hashKeys hash_b).Nodup) :
    (∃ calls : List (Bytes × svn_hash_diff_key_status),
      (∀ (σ : Type) (g : Bytes → svn_hash_diff_key_status → σ → σ) (baton : σ),
        svn_hash_diff hash_a hash_b (fun k st s => .ok (g k st s)) baton
          = .ok (calls.foldl (fun s c => g c.1 c.2 s) baton))
      ∧ ∀ key : Bytes, calls.filter (fun c => decide (c.1 = key))
          = if key ∈ hashKeys hash_a ∧ key ∈ hashKeys hash_b then
              [(key, svn_hash_diff_key_both)]
            else if key ∈ hashKeys hash_a then [(key, svn_hash_diff_key_a)]
            else if key ∈ hashKeys hash_b then [(key, svn_hash_diff_key_b)]
            else [])
    ∧ (∀ (σ : Type) (f : Bytes → svn_hash_diff_key_status → σ → Except ErrCode σ) (s : σ),
        svn_hash_diff (none : Option (apr_hash_t V)) hash_b f s
          = svn_hash_diff (some ([] : apr_hash_t V)) hash_b f s)
    ∧ (∀ (σ : Type) (f : Bytes → svn_hash_diff_key_status → σ → Except ErrCode σ) (s : σ),
        svn_hash_diff hash_a (none : Option (apr_hash_t W)) f s
          = svn_hash_diff hash_a (some ([] : apr_hash_t W)) f s) := by
  refine ⟨⟨diffCallsA (hashKeys hash_a) (hashKeys hash_b)
      ++ diffCallsB (hashKeys hash_a) (hashKeys hash_b), ?_, ?_⟩,
    fun σ f s => diff_null_a hash_b f s, fun σ f s => diff_null_b hash_a f s⟩
  · intro σ g baton
    cases hash_a with
    | none =>
      cases hash_b with
      | none => simp [svn_hash_diff, diffCallsA, diffCallsB, hashKeys]
      | some b =>
        simp only [svn_hash_diff]
        rw [diff_loop_b_total]
        simp [diffCallsA, hashKeys]
    | some a =>
      cases hash_b with
      | none =>
        simp only [svn_hash_diff]
        rw [diff_loop_a_total]
        simp [diffCallsB, hashKeys]
      | some b =>
        simp only [svn_hash_diff]
        rw [diff_loop_a_total]
        dsimp only
        rw [diff_loop_b_total]
        simp [hashKeys]
  · intro key
    rw [List.filter_append]
    unfold diffCallsA diffCallsB
    rw [filter_key_map _ key _ ha, filter_key_map _ key _ (hb.filter _)]
    simp only [List.mem_filter, decide_eq_true_eq]
    by_cases h1 : key ∈ hashKeys hash_a <;> by_cases h2 : key ∈ hashKeys hash_b <;>
      simp [h1, h2]

/-- C9 at two concrete hashes that share one key. -/
theorem svn_hash_diff_calls_witness :
    (∃ calls : List (Bytes × svn_hash_diff_key_status),
      (∀ (σ : Type) (g : Bytes → svn_hash_diff_key_status → σ → σ) (baton : σ),
        svn_hash_diff (some [([1], 0), ([2], 0)]) (some [([2], 5), ([3], 5)])
            (fun k st s => .ok (g k st s)) baton
          = .ok (calls.foldl (fun s c => g c.1 c.2 s) baton))
      ∧ ∀ key : Bytes, calls.filter (fun c => decide (c.1 = key))
          = if key ∈ [[1], [2]] ∧ key ∈ [[2], [3]] then
              [(key, svn_hash_diff_key_both)]
            else if key ∈ [[1], [2]] then [(key, svn_hash_diff_key_a)]
            else if key ∈ [[2], [3]] then [(key, svn_hash_diff_key_b)]
            else []) :=
  (svn_hash_diff_calls (some [([1], 0), ([2], 0)]) (some [([2], 5), ([3], 5)])
    (by decide) (by decide)).1

/-! ### The configuration store -/

theorem apr_hash_get_set_same {V : Type} (h : apr_hash_t V) (key : Bytes) (val : V) :
    apr_hash_get (apr_hash_set h key val) key = some val := by
  induction h with
  | nil => simp [apr_hash_set, apr_hash_get]
  | cons e rest ih =>
    obtain ⟨k, v⟩ := e
    by_cases hk : k = key
    · simp [apr_hash_set, apr_hash_get, hk]
    · simp [apr_hash_set, apr_hash_get, hk, ih]

theorem apr_hash_get_mem {V : Type} (h : apr_hash_t V) (key : Bytes) (val : V)
    (hg : apr_hash_get h key = some val) : (key, val) ∈ h := by
  induction h with
  | nil => simp [apr_hash_get] at hg
  | cons e rest ih =>
    obtain ⟨k, v⟩ := e
    by_cases hk : k = key
    · simp only [apr_hash_get, hk, if_true, Option.some.injEq] at hg
      simp [hk, hg]
    · simp only [apr_hash_get, hk, if_false] at hg
      exact List.mem_cons_of_mem _ (ih hg)

theorem for_each_option_in_rmex (sec : cfg_section_t) (opts : apr_hash_t cfg_option_t) :
    for_each_option_in rmex_callback sec opts ()
      = (false, (), opts.map (fun e => (e.1, rmexOption e.2))) := by
  induction opts with
  | nil => simp [for_each_option_in]
  | cons e rest ih =>
    obtain ⟨k, o⟩ := e
    simp only [for_each_option_in, rmex_callback, List.map_cons]
    by_cases hc : o.expanded = true ∧ o.x_value ≠ none
    · simp only [hc, and_self, if_true, ne_eq, not_false_eq_true]
      rw [ih]
      simp [rmexOption, hc]
    · simp only [hc, if_false]
      rw [ih]
      simp [rmexOption, hc]

theorem for_each_option_loop_rmex (secs : apr_hash_t cfg_section_t) :
    for_each_option_loop rmex_callback secs ()
      = ((), secs.map (fun e => (e.1, { e.2 with
            options := e.2.options.map (fun o => (o.1, rmexOption o.2)) }))) := by
  induction secs with
  | nil => simp [for_each_option_loop]
  | cons e rest ih =>
    obtain ⟨k, s⟩ := e
    simp only [for_each_option_loop, for_each_option_in_rmex, List.map_cons]
    rw [ih]

theorem remove_expansions_clean (cfg : svn_config_t) (h : cfgSound cfg) :
    ∀ s ∈ (remove_expansions cfg).sections, ∀ o ∈ s.2.options, o.2.x_value = none := by
  intro s hs o ho
  unfold remove_expansions at hs
  by_cases hx : cfg.x_values = false
  · simp only [hx, if_true] at hs
    by_contra hne
    have := (h s hs o ho hne).2
    rw [hx] at this
    exact Bool.false_ne_true this
  · rw [if_neg hx] at hs
    simp only [for_each_option, for_each_option_loop_rmex] at hs
    rw [List.mem_map] at hs
    obtain ⟨s0, hs0, hs_eq⟩ := hs
    subst hs_eq
    dsimp only at ho
    rw [List.mem_map] at ho
    obtain ⟨o0, ho0, ho_eq⟩ := ho
    subst ho_eq
    have hsound := h s0 hs0 o0 ho0
    simp only [rmexOption]
    by_cases hc : o0.2.expanded = true ∧ o0.2.x_value ≠ none
    · simp [hc]
    · simp only [hc, if_false]
      by_contra hne
      exact hc ⟨(hsound hne).1, hne⟩

/-! ### The expansion flags are respected by every configuration the code builds -/

theorem apr_hash_set_mem {V : Type} (h : apr_hash_t V) (key : Bytes) (val : V)
    (e : Bytes × V) (he : e ∈ apr_hash_set h key val) : e ∈ h ∨ e = (key, val) := by
  induction h with
  | nil =>
    simp only [apr_hash_set, List.mem_singleton] at he
    exact Or.inr he
  | cons x rest ih =>
    obtain ⟨k, v⟩ := x
    by_cases hk : k = key
    · simp only [apr_hash_set, hk, if_true, List.mem_cons] at he
      rcases he with he | he
      · exact Or.inr he
      · exact Or.inl (List.mem_cons_of_mem _ he)
    · simp only [apr_hash_set, hk, if_false, List.mem_cons] at he
      rcases he with he | he
      · exact Or.inl (by simp [he])
      · rcases ih he with h1 | h1
        · exact Or.inl (List.mem_cons_of_mem _ h1)
        · exact Or.inr h1

theorem cfgSound_empty : cfgSound { sections := [], x_values := false } := by
  intro s hs
  simp at hs

theorem svn_config_set_clean (cfg : svn_config_t) (hcfg : cfgSound cfg)
    (section_name option value : Bytes) :
    ∀ s ∈ (svn_config_set cfg section_name option value).sections,
      ∀ o ∈ s.2.options, o.2.x_value = none := by
  have hclean := remove_expansions_clean cfg hcfg
  unfold svn_config_set
  generalize remove_expansions cfg = cfg1 at hclean
  simp only [find_option]
  cases hsec : apr_hash_get cfg1.sections (make_hash_key section_name) with
  | none =>
    dsimp only
    intro s hs o ho
    rcases apr_hash_set_mem _ _ _ _ hs with h1 | h1
    · exact hclean s h1 o ho
    · subst h1
      simp only [apr_hash_set, List.mem_singleton] at ho
      subst ho
      rfl
  | some sec =>
    dsimp only
    have hsecmem := apr_hash_get_mem _ _ _ hsec
    cases hopt : apr_hash_get sec.options (make_hash_key option) with
    | none =>
      dsimp only
      intro s hs o ho
      rcases apr_hash_set_mem _ _ _ _ hs with h1 | h1
      · exact hclean s h1 o ho
      · subst h1
        rcases apr_hash_set_mem _ _ _ _ ho with h2 | h2
        · exact hclean _ hsecmem o h2
        · subst h2
          rfl
    | some opt =>
      dsimp only
      have hx : opt.x_value = none := hclean _ hsecmem _ (apr_hash_get_mem _ _ _ hopt)
      intro s hs o ho
      rcases apr_hash_set_mem _ _ _ _ hs with h1 | h1
      · exact hclean s h1 o ho
      · subst h1
        rcases apr_hash_set_mem _ _ _ _ ho with h2 | h2
        · exact hclean _ hsecmem o h2
        · subst h2
          exact hx

theorem cfgSound_set (cfg : svn_config_t) (hcfg : cfgSound cfg)
    (section_name option value : Bytes) :
    cfgSound (svn_config_set cfg section_name option value) := by
  intro s hs o ho hne
  exact absurd (svn_config_set_clean cfg hcfg section_name option value s hs o ho) hne

/-- C8: on a configuration that respects the expansion flags, whatever the
section, option, value and default, `svn_config_get` after `svn_config_set`
stores the value just set, with its length, whether the option was there
before or not. -/
theorem svn_config_set_get (cfg : svn_config_t) (hcfg : cfgSound cfg)
    (section_name option value default_value : Bytes) :
    svn_config_get (svn_config_set cfg section_name option value) section_name (some option)
        default_value
      = { data := value, len := value.length } := by
  have hclean := remove_expansions_clean cfg hcfg
  unfold svn_config_set
  generalize remove_expansions cfg = cfg1 at hclean
  simp only [find_option]
  cases hsec : apr_hash_get cfg1.sections (make_hash_key section_name) with
  | none =>
    simp [svn_config_get, find_option, apr_hash_get_set_same, make_string_from_option]
  | some sec =>
    dsimp only
    cases hopt : apr_hash_get sec.options (make_hash_key option) with
    | none =>
      simp [svn_config_get, find_option, apr_hash_get_set_same, make_string_from_option]
    | some opt =>
      have hx : opt.x_value = none :=
        hclean _ (apr_hash_get_mem _ _ _ hsec) _ (apr_hash_get_mem _ _ _ hopt)
      simp [svn_config_get, find_option, apr_hash_get_set_same, make_string_from_option, hx]

/-- C8 at a configuration whose option exists under another spelling and holds
an expanded value. -/
theorem svn_config_set_get_witness :
    svn_config_get
        (svn_config_set
          { sections := [([115], { name := [83], hash_key := [115], options :=
              [([111], { name := [79], hash_key := [111], value := [120],
                         x_value := some [121], expanded := true })] })],
            x_values := true }
          [83] [111] [118, 119])
        [83] (some [111]) [100]
      = { data := [118, 119], len := 2 } :=
  svn_config_set_get _ (by simp [cfgSound]) [83] [111] [118, 119] [100]

/-- C10: when `svn_config_read` fails on the file, `svn_config_merge` returns
that error and leaves the configuration as it was, whatever the parser did to
the temporary table before it failed. -/
theorem svn_config_merge_atomic
    (parse_file : svn_config_t → Bytes → Bool → Option ErrCode × svn_config_t)
    (cfg : svn_config_t) (file : Bytes) (must_exist : Bool) (err : ErrCode)
    (h : svn_config_read parse_file file must_exist = .error err) :
    svn_config_merge parse_file cfg file must_exist = (some err, cfg) := by
  simp [svn_config_merge, h]

/-- C10 with a parser that sets an option and then fails. -/
theorem svn_config_merge_atomic_witness :
    svn_config_merge
        (fun c _ _ => (some ErrCode.SVN_ERR_MALFORMED_FILE, svn_config_set c [97] [98] [99]))
        { sections := [([97], { name := [97], hash_key := [97], options :=
            [([98], { name := [98], hash_key := [98], value := [100],
                      x_value := none, expanded := false })] })],
          x_values := false }
        [102] true
      = (some ErrCode.SVN_ERR_MALFORMED_FILE,
         { sections := [([97], { name := [97], hash_key := [97], options :=
            [([98], { name := [98], hash_key := [98], value := [100],
                      x_value := none, expanded := false })] })],
           x_values := false }) :=
  svn_config_merge_atomic _ _ [102] true ErrCode.SVN_ERR_MALFORMED_FILE (by rfl)

/-! ### Enumerating the options of a section -/

theorem enumerate_loop_counting {σ : Type} (callback : Bytes → svn_string_t → σ → Bool × σ)
    (opts : apr_hash_t cfg_option_t) :
    ∀ (count : Nat) (baton : σ) (calls : Nat),
      (svn_config_enumerate_loop (countingCallback callback) opts count (baton, calls)).1
          + calls
        = (svn_config_enumerate_loop (countingCallback callback) opts count (baton, calls)).2.2
          + count := by
  induction opts with
  | nil => intro count baton calls; simp [svn_config_enumerate_loop]; omega
  | cons e rest ih =>
    intro count baton calls
    obtain ⟨k, opt⟩ := e
    simp only [svn_config_enumerate_loop, countingCallback]
    cases hcb : (callback opt.name (make_string_from_option opt) baton).1 with
    | false => simp only []; omega
    | true =>
      simp only []
      have := ih (count + 1) (callback opt.name (make_string_from_option opt) baton).2
        (calls + 1)
      simp only [countingCallback] at this
      omega

theorem enumerate_loop_recording (p : Bytes → svn_string_t → Bool)
    (opts : apr_hash_t cfg_option_t) :
    ∀ (count : Nat) (log : List Bytes),
      svn_config_enumerate_loop (recordingCallback p) opts count log
        = (count + (calledOptions p opts).length,
           log ++ (calledOptions p opts).map (fun o => o.name)) := by
  induction opts with
  | nil => intro count log; simp [svn_config_enumerate_loop, calledOptions]
  | cons e rest ih =>
    intro count log
    obtain ⟨k, opt⟩ := e
    simp only [svn_config_enumerate_loop, recordingCallback, calledOptions]
    cases hp : p opt.name (make_string_from_option opt) with
    | false => simp
    | true =>
      simp only [if_true]
      have := ih (count + 1) (log ++ [opt.name])
      simp only [recordingCallback] at this
      rw [this]
      simp only [List.length_cons, List.map_cons, List.append_assoc, List.singleton_append,
        Prod.mk.injEq, and_true]
      omega

theorem calledOptions_all (p : Bytes → svn_string_t → Bool) (opts : apr_hash_t cfg_option_t)
    (h : ∀ o ∈ opts, p o.2.name (make_string_from_option o.2) = true) :
    calledOptions p opts = opts.map Prod.snd := by
  induction opts with
  | nil => rfl
  | cons e rest ih =>
    obtain ⟨k, opt⟩ := e
    simp only [calledOptions, h (k, opt) (by simp), if_true, List.map_cons]
    rw [ih (fun o ho => h o (by simp [ho]))]

theorem calledOptions_stop (p : Bytes → svn_string_t → Bool)
    (before after : apr_hash_t cfg_option_t) (e : Bytes × cfg_option_t)
    (h : ∀ o ∈ before, p o.2.name (make_string_from_option o.2) = true)
    (he : p e.2.name (make_string_from_option e.2) = false) :
    calledOptions p (before ++ e :: after) = before.map Prod.snd ++ [e.2] := by
  induction before with
  | nil =>
    obtain ⟨k, opt⟩ := e
    simp only [List.nil_append, calledOptions, List.map_nil]
    simp only [] at he
    simp [he]
  | cons x rest ih =>
    obtain ⟨k, opt⟩ := x
    simp only [List.cons_append, calledOptions, h (k, opt) (by simp), if_true, List.map_cons,
      List.append_eq]
    rw [ih (fun o ho => h o (by simp [ho]))]

/-- C14: `svn_config_enumerate` returns the number of calls of the callback:
with any callback the count returned is the number of calls made; it is 0,
with no call, when the section does not exist; with a callback that answers by
a test it is the number of options when the test holds of all of them, and
otherwise the calls stop right after the first option on which it fails, which
is called and counted. -/
theorem svn_config_enumerate_count (cfg : svn_config_t) (section_name : Bytes) :
    (∀ (σ : Type) (callback : Bytes → svn_string_t → σ → Bool × σ) (baton : σ),
        (svn_config_enumerate cfg section_name (countingCallback callback) (baton, 0)).1
          = (svn_config_enumerate cfg section_name (countingCallback callback) (baton, 0)).2.2)
      ∧ (apr_hash_get cfg.sections (make_hash_key section_name) = none →
          ∀ (σ : Type) (callback : Bytes → svn_string_t → σ → Bool × σ) (baton : σ),
            svn_config_enumerate cfg section_name callback baton = (0, baton))
      ∧ (∀ (sec : cfg_section_t) (p : Bytes → svn_string_t → Bool),
          apr_hash_get cfg.sections (make_hash_key section_name) = some sec →
          svn_config_enumerate cfg section_name (recordingCallback p) []
              = ((calledOptions p sec.options).length,
                 (calledOptions p sec.options).map (fun o => o.name))
            ∧ ((∀ o ∈ sec.options, p o.2.name (make_string_from_option o.2) = true) →
                calledOptions p sec.options = sec.options.map Prod.snd)
            ∧ (∀ (before after : apr_hash_t cfg_option_t) (e : Bytes × cfg_option_t),
                sec.options = before ++ e :: after →
                (∀ o ∈ before, p o.2.name (make_string_from_option o.2) = true) →
                p e.2.name (make_string_from_option e.2) = false →
                calledOptions p sec.options = before.map Prod.snd ++ [e.2])) := by
  refine ⟨?_, ?_, ?_⟩
  · intro σ callback baton
    simp only [svn_config_enumerate, find_option]
    cases hsec : apr_hash_get cfg.sections (make_hash_key section_name) with
    | none => rfl
    | some sec =>
      have := enumerate_loop_counting callback sec.options 0 baton 0
      simpa using this
  · intro hsec σ callback baton
    simp [svn_config_enumerate, find_option, hsec]
  · intro sec p hsec
    refine ⟨?_, calledOptions_all p sec.options, ?_⟩
    · simp only [svn_config_enumerate, find_option, hsec]
      rw [enumerate_loop_recording]
      simp
    · intro before after e hopts hb he
      rw [hopts]
      exact calledOptions_stop p before after e hb he

/-! ### Names without regard to case -/

theorem sameLetter_iff (a b : Nat) : sameLetter a b = true ↔ apr_tolower a = apr_tolower b := by
  simp only [sameLetter, isUpper, apr_tolower, Bool.or_eq_true, Bool.and_eq_true, beq_iff_eq,
    decide_eq_true_eq]
  constructor
  · intro h
    split <;> split <;> omega
  · intro h
    split at h <;> split at h <;> omega

theorem eqIgnoreCase_iff (a : Bytes) : ∀ b : Bytes,
    eqIgnoreCase a b = true ↔ make_hash_key a = make_hash_key b := by
  induction a with
  | nil =>
    intro b
    cases b with
    | nil => simp [eqIgnoreCase, make_hash_key]
    | cons y ys => simp [eqIgnoreCase, make_hash_key]
  | cons x xs ih =>
    intro b
    cases b with
    | nil => simp [eqIgnoreCase, make_hash_key]
    | cons y ys =>
      have := ih ys
      simp only [make_hash_key] at this
      simp only [eqIgnoreCase, make_hash_key, Bool.and_eq_true, sameLetter_iff, this,
        List.map_cons, List.cons.injEq]

theorem eqIgnoreCase_false (a b : Bytes) (h : eqIgnoreCase a b = false) :
    make_hash_key a ≠ make_hash_key b := by
  intro hk
  rw [(eqIgnoreCase_iff a b).mpr hk] at h
  exact Bool.noConfusion h

/-! ### Looking up sections and options -/

theorem apr_hash_get_set_other {V : Type} (h : apr_hash_t V) (key key1 : Bytes) (val : V)
    (hk : key1 ≠ key) : apr_hash_get (apr_hash_set h key val) key1 = apr_hash_get h key1 := by
  induction h with
  | nil =>
    simp only [apr_hash_set, apr_hash_get]
    simp [Ne.symm hk]
  | cons e rest ih =>
    obtain ⟨k, v⟩ := e
    by_cases h1 : k = key
    · subst h1
      simp [apr_hash_set, apr_hash_get, Ne.symm hk]
    · simp only [apr_hash_set, h1, if_false, apr_hash_get, ih]

theorem svn_config_get_eq (cfg : svn_config_t) (section_name option default_value : Bytes) :
    svn_config_get cfg section_name (some option) default_value
      = match apr_hash_get cfg.sections (make_hash_key section_name) with
        | none => { data := default_value, len := default_value.length }
        | some sec =>
          match apr_hash_get sec.options (make_hash_key option) with
          | none => { data := default_value, len := default_value.length }
          | some opt => make_string_from_option opt := by
  simp only [svn_config_get, find_option]
  cases apr_hash_get cfg.sections (make_hash_key section_name) with
  | none => rfl
  | some sec =>
    dsimp only
    cases apr_hash_get sec.options (make_hash_key option) with
    | none => rfl
    | some opt => rfl

/-- C13: in a configuration whose tables are keyed by the lower-case names,
when no section of the given name, compared without regard to case, holds an
option of the given name, be it that the section does not exist or that it
exists without the option, `svn_config_get` stores the default value as it is,
with its length; so it does when the option asked for is NULL. -/
theorem svn_config_get_default (cfg : svn_config_t) (section_name option default_value : Bytes)
    (hk : cfgKeyed cfg)
    (h : ∀ s ∈ cfg.sections, eqIgnoreCase s.2.name section_name = true →
      ∀ o ∈ s.2.options, eqIgnoreCase o.2.name option = false) :
    svn_config_get cfg section_name (some option) default_value
        = { data := default_value, len := default_value.length }
      ∧ svn_config_get cfg section_name none default_value
        = { data := default_value, len := default_value.length } := by
  constructor
  · rw [svn_config_get_eq]
    cases hsec : apr_hash_get cfg.sections (make_hash_key section_name) with
    | none => rfl
    | some sec =>
      dsimp only
      have hmem := apr_hash_get_mem _ _ _ hsec
      have hkey := hk _ hmem
      cases hopt : apr_hash_get sec.options (make_hash_key option) with
      | none => rfl
      | some opt =>
        exfalso
        have homem := apr_hash_get_mem _ _ _ hopt
        have h1 : eqIgnoreCase sec.name section_name = true :=
          (eqIgnoreCase_iff _ _).mpr hkey.1.symm
        have h2 := h _ hmem h1 _ homem
        exact eqIgnoreCase_false _ _ h2 (hkey.2 _ homem).symm
  · simp only [svn_config_get, find_option]
    cases apr_hash_get cfg.sections (make_hash_key section_name) with
    | none => rfl
    | some sec => rfl

/-- C13 at a configuration that has the section `s` with the option `a` only,
asked for the option `B` of the section `S`. -/
theorem svn_config_get_default_witness :
    svn_config_get
        { sections := [([115], { name := [115], hash_key := [115], options :=
            [([97], { name := [97], hash_key := [97], value := [120],
                      x_value := none, expanded := false })] })],
          x_values := false }
        [83] (some [66]) [100, 101]
      = { data := [100, 101], len := 2 } :=
  (svn_config_get_default _ [83] [66] [100, 101] (by simp [cfgKeyed, make_hash_key, apr_tolower])
    (by simp [eqIgnoreCase, sameLetter, isUpper])).1

/-! ### What svn_config_set does to the tables -/

theorem rmexOption_plain (o : cfg_option_t) (h : o.x_value = none) : rmexOption o = o := by
  simp [rmexOption, h]

theorem remove_expansions_plain (cfg : svn_config_t) (h : cfgPlain cfg) :
    (remove_expansions cfg).sections = cfg.sections := by
  unfold remove_expansions
  by_cases hx : cfg.x_values = false
  · rw [if_pos hx]
  · rw [if_neg hx]
    simp only [for_each_option, for_each_option_loop_rmex]
    have hs : ∀ e ∈ cfg.sections,
        (e.1, ({ e.2 with options := e.2.options.map (fun o => (o.1, rmexOption o.2)) }
          : cfg_section_t)) = e := by
      intro e he
      have ho : e.2.options.map (fun o => (o.1, rmexOption o.2)) = e.2.options := by
        have : ∀ o ∈ e.2.options, (o.1, rmexOption o.2) = o := by
          intro o hmem
          rw [rmexOption_plain o.2 (h e he o hmem)]
        rw [List.map_congr_left this, List.map_id']
      rw [ho]
    rw [List.map_congr_left hs, List.map_id']

theorem remove_expansions_x_values (cfg : svn_config_t) :
    (remove_expansions cfg).x_values = false := by
  unfold remove_expansions
  by_cases hx : cfg.x_values = false
  · rw [if_pos hx]; exact hx
  · rw [if_neg hx]

theorem svn_config_set_eq (cfg : svn_config_t) (section_name option value : Bytes) :
    svn_config_set cfg section_name option value
      = { sections := apr_hash_set (remove_expansions cfg).sections
            (make_hash_key section_name)
            (setSection (apr_hash_get (remove_expansions cfg).sections
              (make_hash_key section_name)) section_name option value),
          x_values := false } := by
  have hx := remove_expansions_x_values cfg
  unfold svn_config_set
  generalize remove_expansions cfg = cfg1 at hx
  obtain ⟨secs, xv⟩ := cfg1
  simp only [] at hx
  subst hx
  simp only [find_option]
  cases hsec : apr_hash_get secs (make_hash_key section_name) with
  | none => simp [setSection, newOption, apr_hash_set]
  | some sec =>
    dsimp only
    cases hopt : apr_hash_get sec.options (make_hash_key option) with
    | none => simp [setSection, setOption, newOption, hopt]
    | some opt => simp [setSection, setOption, hopt]

theorem setSection_lookup (old : Option cfg_section_t) (section_name option value : Bytes) :
    ∃ opt, apr_hash_get (setSection old section_name option value).options
          (make_hash_key option) = some opt
      ∧ opt.value = value
      ∧ ((∀ sec, old = some sec → ∀ o ∈ sec.options, o.2.x_value = none) →
          opt.x_value = none) := by
  cases old with
  | none =>
    exact ⟨newOption option value, by simp [setSection, apr_hash_get], rfl, fun _ => rfl⟩
  | some sec =>
    cases hopt : apr_hash_get sec.options (make_hash_key option) with
    | none =>
      exact ⟨newOption option value, by simp [setSection, setOption, hopt, apr_hash_get_set_same], rfl,
        fun _ => rfl⟩
    | some opt =>
      refine ⟨{ opt with value := value, expanded := false },
        by simp [setSection, setOption, hopt, apr_hash_get_set_same], rfl, ?_⟩
      intro h
      exact h sec rfl _ (apr_hash_get_mem _ _ _ hopt)

theorem setSection_lookup_other (old : Option cfg_section_t)
    (section_name option value key : Bytes) (hk : key ≠ make_hash_key option) :
    apr_hash_get (setSection old section_name option value).options key
      = match old with
        | none => none
        | some sec => apr_hash_get sec.options key := by
  cases old with
  | none => simp [setSection, apr_hash_get, Ne.symm hk]
  | some sec => simp [setSection, apr_hash_get_set_other _ _ _ _ hk]

theorem config_set_get_keys (cfg : svn_config_t) (hcfg : cfgSound cfg)
    (section_name option value s1 o1 default_value : Bytes)
    (hs : make_hash_key s1 = make_hash_key section_name)
    (ho : make_hash_key o1 = make_hash_key option) :
    svn_config_get (svn_config_set cfg section_name option value) s1 (some o1) default_value
      = { data := value, len := value.length } := by
  have hclean := remove_expansions_clean cfg hcfg
  rw [svn_config_get_eq, svn_config_set_eq, hs, ho]
  dsimp only
  rw [apr_hash_get_set_same]
  dsimp only
  obtain ⟨opt, h1, h2, h3⟩ := setSection_lookup
    (apr_hash_get (remove_expansions cfg).sections (make_hash_key section_name))
    section_name option value
  rw [h1]
  dsimp only
  have hx : opt.x_value = none := by
    apply h3
    intro sec hsec o hmem
    exact hclean _ (apr_hash_get_mem _ _ _ hsec) o hmem
  simp [make_string_from_option, hx, h2]

theorem config_set_get_other (cfg : svn_config_t) (hcfg : cfgPlain cfg)
    (section_name option value s1 o1 default_value : Bytes)
    (hne : ¬ (make_hash_key s1 = make_hash_key section_name
      ∧ make_hash_key o1 = make_hash_key option)) :
    svn_config_get (svn_config_set cfg section_name option value) s1 (some o1) default_value
      = svn_config_get cfg s1 (some o1) default_value := by
  rw [svn_config_get_eq, svn_config_get_eq, svn_config_set_eq, remove_expansions_plain cfg hcfg]
  dsimp only
  by_cases hs : make_hash_key s1 = make_hash_key section_name
  · have ho : make_hash_key o1 ≠ make_hash_key option := fun h => hne ⟨hs, h⟩
    rw [hs, apr_hash_get_set_same]
    dsimp only
    rw [setSection_lookup_other _ _ _ _ _ ho]
    cases apr_hash_get cfg.sections (make_hash_key section_name) with
    | none => rfl
    | some sec => rfl
  · rw [apr_hash_get_set_other _ _ _ _ hs]

theorem cfgPlain_sound (cfg : svn_config_t) (h : cfgPlain cfg) : cfgSound cfg := by
  intro s hs o ho hne
  exact absurd (h s hs o ho) hne

theorem cfgPlain_set (cfg : svn_config_t) (hcfg : cfgSound cfg)
    (section_name option value : Bytes) :
    cfgPlain (svn_config_set cfg section_name option value) :=
  svn_config_set_clean cfg hcfg section_name option value

theorem apr_hash_set_map_same {V S : Type} (f : V → S) (h : apr_hash_t V) (key : Bytes)
    (val old : V) (hg : apr_hash_get h key = some old) (hf : f val = f old) :
    (apr_hash_set h key val).map (fun e => f e.2) = h.map (fun e => f e.2) := by
  induction h with
  | nil => simp [apr_hash_get] at hg
  | cons e rest ih =>
    obtain ⟨k, v⟩ := e
    by_cases hk : k = key
    · simp only [apr_hash_get, hk, if_true, Option.some.injEq] at hg
      subst hg
      simp [apr_hash_set, hk, hf]
    · simp only [apr_hash_get, hk, if_false] at hg
      simp [apr_hash_set, hk, ih hg]

theorem config_set_existing_names (cfg : svn_config_t) (hcfg : cfgPlain cfg)
    (section_name option value : Bytes) (sec : cfg_section_t) (opt : cfg_option_t)
    (hsec : apr_hash_get cfg.sections (make_hash_key section_name) = some sec)
    (hopt : apr_hash_get sec.options (make_hash_key option) = some opt) :
    optionNames (svn_config_set cfg section_name option value) = optionNames cfg := by
  rw [svn_config_set_eq, remove_expansions_plain cfg hcfg, hsec]
  simp only [optionNames]
  apply apr_hash_set_map_same (fun s : cfg_section_t =>
    (s.name, s.options.map (fun o => o.2.name))) _ _ _ sec hsec
  simp only [setSection, setOption, hopt, Prod.mk.injEq, true_and]
  exact apr_hash_set_map_same (fun o : cfg_option_t => o.name) _ _ _ opt hopt rfl

theorem config_set_lookup (cfg : svn_config_t) (section_name option value : Bytes) :
    ∃ sec opt, apr_hash_get (svn_config_set cfg section_name option value).sections
          (make_hash_key section_name) = some sec
      ∧ apr_hash_get sec.options (make_hash_key option) = some opt := by
  rw [svn_config_set_eq]
  dsimp only
  rw [apr_hash_get_set_same]
  obtain ⟨opt, h1, _, _⟩ := setSection_lookup
    (apr_hash_get (remove_expansions cfg).sections (make_hash_key section_name))
    section_name option value
  exact ⟨_, opt, rfl, h1⟩

/-- C12: in a configuration that respects the expansion flags, names are taken
without regard to the case of their letters: after `svn_config_set` of a value
under a section and an option, `svn_config_get` under names that differ from
them in case only gives that value; and a further `svn_config_set` under such
names puts its value in that same option: the first names then give the new
value, and the names of the sections and of their options stay what they were,
so no second option is made. -/
theorem svn_config_names_ignore_case (cfg : svn_config_t)
    (s o s1 o1 v w default_value : Bytes) (hcfg : cfgSound cfg)
    (hs : eqIgnoreCase s s1 = true) (ho : eqIgnoreCase o o1 = true) :
    svn_config_get (svn_config_set cfg s o v) s1 (some o1) default_value
        = { data := v, len := v.length }
      ∧ svn_config_get (svn_config_set (svn_config_set cfg s o v) s1 o1 w) s (some o)
          default_value = { data := w, len := w.length }
      ∧ optionNames (svn_config_set (svn_config_set cfg s o v) s1 o1 w)
          = optionNames (svn_config_set cfg s o v) := by
  have hsk := (eqIgnoreCase_iff s s1).mp hs
  have hok := (eqIgnoreCase_iff o o1).mp ho
  have hplain := cfgPlain_set cfg hcfg s o v
  refine ⟨config_set_get_keys cfg hcfg s o v s1 o1 default_value hsk.symm hok.symm,
    config_set_get_keys _ (cfgPlain_sound _ hplain) s1 o1 w s o default_value hsk hok, ?_⟩
  obtain ⟨sec, opt, h1, h2⟩ := config_set_lookup cfg s o v
  rw [hsk] at h1
  rw [hok] at h2
  exact config_set_existing_names _ hplain s1 o1 w sec opt h1 h2

/-- C12 at an empty configuration, the names `Auth` / `Key` and `aUTH` / `kEY`. -/
theorem svn_config_names_ignore_case_witness :
    svn_config_get
        (svn_config_set { sections := [], x_values := false }
          [65, 117, 116, 104] [75, 101, 121] [49])
        [97, 85, 84, 72] (some [107, 69, 89]) [100]
      = { data := [49], len := 1 } :=
  (svn_config_names_ignore_case { sections := [], x_values := false }
    [65, 117, 116, 104] [75, 101, 121] [97, 85, 84, 72] [107, 69, 89] [49] [50] [100]
    cfgSound_empty (by decide) (by decide)).1

/-! ### Merging a file into a configuration -/

theorem for_each_option_in_merge (sec : cfg_section_t) (opts : apr_hash_t cfg_option_t)
    (baton : svn_config_t) :
    for_each_option_in merge_callback sec opts baton
      = (false, setAll baton (opts.map (fun o => (sec.name, o.2.name, o.2.value))), opts) := by
  induction opts generalizing baton with
  | nil => simp [for_each_option_in, setAll]
  | cons e rest ih =>
    obtain ⟨k, o⟩ := e
    simp only [for_each_option_in, merge_callback, List.map_cons]
    rw [ih]
    simp [setAll]

theorem for_each_option_loop_merge (secs : apr_hash_t cfg_section_t) (baton : svn_config_t) :
    (for_each_option_loop merge_callback secs baton).1
      = setAll baton
          (secs.map (fun s => s.2.options.map (fun o => (s.2.name, o.2.name, o.2.value)))).flatten
      := by
  induction secs generalizing baton with
  | nil => simp [for_each_option_loop, setAll]
  | cons e rest ih =>
    obtain ⟨k, s⟩ := e
    simp only [for_each_option_loop, for_each_option_in_merge, List.map_cons,
      List.flatten_cons]
    rw [ih]
    simp [setAll, List.foldl_append]

theorem for_each_option_merge (merge_cfg cfg : svn_config_t) :
    (for_each_option merge_cfg cfg merge_callback).1 = setAll cfg (allOptions merge_cfg) := by
  simp only [for_each_option, allOptions]
  exact for_each_option_loop_merge merge_cfg.sections cfg

theorem setAll_snoc (cfg : svn_config_t) (l : List (Bytes × Bytes × Bytes))
    (t : Bytes × Bytes × Bytes) :
    setAll cfg (l ++ [t]) = svn_config_set (setAll cfg l) t.1 t.2.1 t.2.2 := by
  simp [setAll, List.foldl_append]

theorem cfgPlain_setAll (cfg : svn_config_t) (hcfg : cfgPlain cfg)
    (l : List (Bytes × Bytes × Bytes)) : cfgPlain (setAll cfg l) := by
  induction l using List.reverseRecOn with
  | nil => exact hcfg
  | append_singleton l t ih =>
    rw [setAll_snoc]
    exact cfgPlain_set _ (cfgPlain_sound _ ih) _ _ _

theorem mentions_iff (s o : Bytes) (t : Bytes × Bytes × Bytes) :
    mentions s o t = true
      ↔ make_hash_key s = make_hash_key t.1 ∧ make_hash_key o = make_hash_key t.2.1 := by
  simp only [mentions, Bool.and_eq_true, eqIgnoreCase_iff]
  constructor
  · rintro ⟨h1, h2⟩; exact ⟨h1.symm, h2.symm⟩
  · rintro ⟨h1, h2⟩; exact ⟨h1.symm, h2.symm⟩

theorem setAll_get (cfg : svn_config_t) (hcfg : cfgPlain cfg)
    (l : List (Bytes × Bytes × Bytes)) (s o default_value : Bytes) :
    svn_config_get (setAll cfg l) s (some o) default_value
      = match l.reverse.find? (mentions s o) with
        | some t => { data := t.2.2, len := t.2.2.length }
        | none => svn_config_get cfg s (some o) default_value := by
  induction l using List.reverseRecOn with
  | nil => rfl
  | append_singleton l t ih =>
    rw [setAll_snoc, List.reverse_append, List.reverse_singleton, List.singleton_append,
      List.find?_cons]
    have hplain := cfgPlain_setAll cfg hcfg l
    cases hm : mentions s o t with
    | true =>
      dsimp only
      have h := (mentions_iff s o t).mp hm
      exact config_set_get_keys _ (cfgPlain_sound _ hplain) _ _ _ _ _ _ h.1 h.2
    | false =>
      dsimp only
      rw [config_set_get_other _ hplain, ih]
      intro h
      have := (mentions_iff s o t).mpr h
      rw [hm] at this
      exact Bool.false_ne_true this

/-- C11: let the file be read without an error into `merge_cfg`, and let no
option of `cfg` hold an expanded value.  Then `svn_config_merge` returns no error, and in the
configuration that it leaves (1) for every section, option and value that the
file holds, `svn_config_get` under those names gives that value, provided the
entries of the file under the same names, letter case ignored, all hold that
value; (2) for every section and option name that no entry of the file bears,
letter case ignored, `svn_config_get` gives what it gave before the merge. -/
theorem svn_config_merge_overrides
    (parse_file : svn_config_t → Bytes → Bool → Option ErrCode × svn_config_t)
    (cfg merge_cfg : svn_config_t) (file : Bytes) (must_exist : Bool)
    (hread : svn_config_read parse_file file must_exist = .ok merge_cfg)
    (hcfg : cfgPlain cfg) :
    (svn_config_merge parse_file cfg file must_exist).1 = none
      ∧ (∀ t ∈ allOptions merge_cfg, ∀ default_value : Bytes,
          (∀ u ∈ allOptions merge_cfg, mentions t.1 t.2.1 u = true → u.2.2 = t.2.2) →
          svn_config_get (svn_config_merge parse_file cfg file must_exist).2
              t.1 (some t.2.1) default_value
            = { data := t.2.2, len := t.2.2.length })
      ∧ (∀ section_name option default_value : Bytes,
          (∀ u ∈ allOptions merge_cfg, mentions section_name option u = false) →
          svn_config_get (svn_config_merge parse_file cfg file must_exist).2
              section_name (some option) default_value
            = svn_config_get cfg section_name (some option) default_value) := by
  have hm : svn_config_merge parse_file cfg file must_exist
      = (none, setAll cfg (allOptions merge_cfg)) := by
    simp only [svn_config_merge, hread, for_each_option_merge]
  rw [hm]
  refine ⟨rfl, ?_, ?_⟩
  · intro t ht default_value hsame
    dsimp only
    rw [setAll_get cfg hcfg]
    cases hf : (allOptions merge_cfg).reverse.find? (mentions t.1 t.2.1) with
    | none =>
      have h := List.find?_eq_none.mp hf t (List.mem_reverse.mpr ht)
      have hself : mentions t.1 t.2.1 t = true := (mentions_iff _ _ _).mpr ⟨rfl, rfl⟩
      exact absurd hself h
    | some u =>
      dsimp only
      have hu := List.mem_reverse.mp (List.mem_of_find?_eq_some hf)
      rw [hsame u hu (List.find?_some hf)]
  · intro section_name option default_value hnone
    dsimp only
    rw [setAll_get cfg hcfg]
    have hf : (allOptions merge_cfg).reverse.find? (mentions section_name option) = none := by
      apply List.find?_eq_none.mpr
      intro u hu
      rw [hnone u (List.mem_reverse.mp hu)]
      exact Bool.false_ne_true
    rw [hf]

/-- C11 where the file holds `k = 2` in the section `s` and the configuration
holds `k = 1` there: the option is 2 after the merge. -/
theorem svn_config_merge_overrides_witness :
    svn_config_get
        (svn_config_merge parseOneOption
          (svn_config_set { sections := [], x_values := false } [115] [107] [49])
          [] false).2
        [115] (some [107]) []
      = { data := [50], len := 1 } :=
  (svn_config_merge_overrides parseOneOption
    (svn_config_set { sections := [], x_values := false } [115] [107] [49])
    (svn_config_set { sections := [], x_values := false } [115] [107] [50])
    [] false rfl (cfgPlain_set _ cfgSound_empty _ _ _)).2.1
    ([115], [107], [50]) (by decide) [] (by decide)

/-! ### Setting an option that exists -/

theorem apr_hash_get_map {V S : Type} (f : V → S) (h : apr_hash_t V) (key : Bytes) :
    apr_hash_get (h.map (fun e => (e.1, f e.2))) key = (apr_hash_get h key).map f := by
  induction h with
  | nil => simp [apr_hash_get]
  | cons e rest ih =>
    obtain ⟨k, v⟩ := e
    by_cases hk : k = key
    · simp [apr_hash_get, hk]
    · simp [apr_hash_get, hk, ih]

theorem apr_hash_set_absent {V : Type} (h : apr_hash_t V) (key : Bytes) (val : V)
    (hg : apr_hash_get h key = none) : apr_hash_set h key val = h ++ [(key, val)] := by
  induction h with
  | nil => simp [apr_hash_set]
  | cons e rest ih =>
    obtain ⟨k, v⟩ := e
    by_cases hk : k = key
    · simp [apr_hash_get, hk] at hg
    · simp only [apr_hash_get, hk, if_false] at hg
      simp [apr_hash_set, hk, ih hg]

theorem rmexOption_name (o : cfg_option_t) : (rmexOption o).name = o.name := by
  unfold rmexOption
  split <;> rfl

theorem remove_expansions_sections (cfg : svn_config_t) :
    ∃ f : cfg_option_t → cfg_option_t, (∀ o, (f o).name = o.name)
      ∧ (remove_expansions cfg).sections
        = cfg.sections.map (fun e => (e.1, mapOptions f e.2)) := by
  unfold remove_expansions
  by_cases hx : cfg.x_values = false
  · rw [if_pos hx]
    refine ⟨id, fun _ => rfl, ?_⟩
    simp [mapOptions]
  · rw [if_neg hx]
    refine ⟨rmexOption, rmexOption_name, ?_⟩
    simp only [for_each_option, for_each_option_loop_rmex, mapOptions]

theorem sectionNames_set (cfg : svn_config_t) (section_name option value : Bytes) :
    sectionNames (svn_config_set cfg section_name option value) (make_hash_key section_name)
      = some (match apr_hash_get cfg.sections (make_hash_key section_name) with
        | none => [option]
        | some sec =>
          match apr_hash_get sec.options (make_hash_key option) with
          | some _ => sec.options.map (fun o => o.2.name)
          | none => sec.options.map (fun o => o.2.name) ++ [option]) := by
  obtain ⟨f, hf, hsecs⟩ := remove_expansions_sections cfg
  rw [svn_config_set_eq, sectionNames]
  dsimp only
  rw [apr_hash_get_set_same, hsecs, apr_hash_get_map]
  cases hsec : apr_hash_get cfg.sections (make_hash_key section_name) with
  | none => simp [setSection, newOption]
  | some sec =>
    simp only [Option.map_some', setSection, mapOptions, apr_hash_get_map]
    cases hopt : apr_hash_get sec.options (make_hash_key option) with
    | none =>
      simp only [Option.map_none']
      rw [apr_hash_set_absent _ _ _ (by rw [apr_hash_get_map, hopt]; rfl)]
      simp [setOption, newOption, hf]
    | some opt =>
      simp only [Option.map_some']
      have h := apr_hash_set_map_same (fun o : cfg_option_t => o.name)
        (sec.options.map (fun o => (o.1, f o.2))) (make_hash_key option)
        (setOption (some (f opt)) option value) (f opt)
        (by rw [apr_hash_get_map, hopt]; rfl) rfl
      simp only [Option.some.injEq]
      rw [h]
      simp [hf]

theorem enumerate_recordNames (cfg : svn_config_t) (section_name : Bytes) :
    svn_config_enumerate cfg section_name recordNames []
      = match sectionNames cfg (make_hash_key section_name) with
        | none => (0, [])
        | some names => (names.length, names) := by
  simp only [svn_config_enumerate, find_option, sectionNames, recordNames]
  cases hsec : apr_hash_get cfg.sections (make_hash_key section_name) with
  | none => rfl
  | some sec =>
    have hall := calledOptions_all (fun _ _ => true) sec.options (fun _ _ => rfl)
    simp only [Option.map_some']
    rw [enumerate_loop_recording, hall]
    simp

theorem find_option_some (cfg : svn_config_t) (section_name option : Bytes)
    (opt : cfg_option_t) (h : (find_option cfg section_name (some option)).1 = some opt) :
    ∃ sec, apr_hash_get cfg.sections (make_hash_key section_name) = some sec
      ∧ apr_hash_get sec.options (make_hash_key option) = some opt := by
  simp only [find_option] at h
  cases hsec : apr_hash_get cfg.sections (make_hash_key section_name) with
  | none => rw [hsec] at h; simp at h
  | some sec => rw [hsec] at h; exact ⟨sec, rfl, h⟩

theorem sectionNames_set_existing (cfg : svn_config_t) (section_name option value : Bytes)
    (sec : cfg_section_t) (opt : cfg_option_t)
    (hsec : apr_hash_get cfg.sections (make_hash_key section_name) = some sec)
    (hopt : apr_hash_get sec.options (make_hash_key option) = some opt) :
    sectionNames (svn_config_set cfg section_name option value) (make_hash_key section_name)
      = sectionNames cfg (make_hash_key section_name) := by
  rw [sectionNames_set, hsec]
  simp only [hopt, sectionNames, hsec, Option.map_some']

theorem sectionNames_set_new (cfg : svn_config_t) (section_name option value : Bytes)
    (h : (find_option cfg section_name (some option)).1 = none) :
    sectionNames (svn_config_set cfg section_name option value) (make_hash_key section_name)
      = some ((match sectionNames cfg (make_hash_key section_name) with
          | none => []
          | some names => names) ++ [option]) := by
  rw [sectionNames_set]
  simp only [find_option] at h
  simp only [sectionNames]
  cases hsec : apr_hash_get cfg.sections (make_hash_key section_name) with
  | none => simp
  | some sec =>
    rw [hsec] at h
    dsimp only at h
    simp [h]

/-- C22: let the names `s1`, `o1` differ from `s`, `o` in letter case at most.
(1) When the option `o` of the section `s` exists, `svn_config_set` under `s1`,
`o1` leaves the enumeration of the section as it was: `svn_config_enumerate`
with a callback that never stops returns the same count and passes the same
names in the same order, the name that the option had among them; and in a
configuration that respects the expansion flags the value is the new one.
(2) When the option does not exist and `svn_config_set` under `s`, `o` makes
it, the names passed are those of before together with `o` as spelled in that
call, one more in number and in whatever order, and a later `svn_config_set`
under `s1`, `o1` leaves the enumeration as the first call left it. -/
theorem svn_config_set_keeps_name (cfg : svn_config_t) (s o s1 o1 v w : Bytes)
    (hs : eqIgnoreCase s s1 = true) (ho : eqIgnoreCase o o1 = true) :
    (∀ opt : cfg_option_t, (find_option cfg s (some o)).1 = some opt →
        svn_config_enumerate (svn_config_set cfg s1 o1 w) s recordNames []
            = svn_config_enumerate cfg s recordNames []
          ∧ opt.name ∈ (svn_config_enumerate cfg s recordNames []).2
          ∧ (cfgSound cfg → ∀ default_value : Bytes,
              svn_config_get (svn_config_set cfg s1 o1 w) s (some o) default_value
                = { data := w, len := w.length }))
      ∧ ((find_option cfg s (some o)).1 = none →
          (svn_config_enumerate (svn_config_set cfg s o v) s recordNames []).1
              = (svn_config_enumerate cfg s recordNames []).1 + 1
            ∧ List.Perm (svn_config_enumerate (svn_config_set cfg s o v) s recordNames []).2
                (o :: (svn_config_enumerate cfg s recordNames []).2)
            ∧ svn_config_enumerate (svn_config_set (svn_config_set cfg s o v) s1 o1 w) s
                recordNames []
              = svn_config_enumerate (svn_config_set cfg s o v) s recordNames []) := by
  have hsk := (eqIgnoreCase_iff s s1).mp hs
  have hok := (eqIgnoreCase_iff o o1).mp ho
  constructor
  · intro opt hopt
    obtain ⟨sec, h1, h2⟩ := find_option_some cfg s o opt hopt
    refine ⟨?_, ?_, ?_⟩
    · rw [enumerate_recordNames, enumerate_recordNames, hsk,
        sectionNames_set_existing cfg s1 o1 w sec opt (hsk ▸ h1) (hok ▸ h2)]
    · rw [enumerate_recordNames]
      simp only [sectionNames, h1, Option.map_some']
      exact List.mem_map.mpr ⟨_, apr_hash_get_mem _ _ _ h2, rfl⟩
    · intro hcfg default_value
      exact config_set_get_keys cfg hcfg s1 o1 w s o default_value hsk hok
  · intro hnone
    have hnew := sectionNames_set_new cfg s o v hnone
    have hfirst : svn_config_enumerate (svn_config_set cfg s o v) s recordNames []
        = ((svn_config_enumerate cfg s recordNames []).1 + 1,
           (svn_config_enumerate cfg s recordNames []).2 ++ [o]) := by
      rw [enumerate_recordNames, enumerate_recordNames, hnew]
      cases sectionNames cfg (make_hash_key s) with
      | none => rfl
      | some names => simp
    refine ⟨by rw [hfirst], by rw [hfirst]; exact List.perm_append_singleton _ _, ?_⟩
    obtain ⟨sec, opt, h1, h2⟩ := config_set_lookup cfg s o v
    rw [enumerate_recordNames, enumerate_recordNames, hsk,
      sectionNames_set_existing _ s1 o1 w sec opt (hsk ▸ h1) (hok ▸ h2)]

/-- C22 at an empty configuration: the option made as `Key` in the section
`Auth` is enumerated as `Key` after it is set again as `kEY` in `aUTH`. -/
theorem svn_config_set_keeps_name_witness :
    svn_config_enumerate
        (svn_config_set
          (svn_config_set { sections := [], x_values := false }
            [65, 117, 116, 104] [75, 101, 121] [49])
          [97, 85, 84, 72] [107, 69, 89] [50])
        [65, 117, 116, 104] recordNames []
      = (1, [[75, 101, 121]]) :=
  ((svn_config_set_keeps_name { sections := [], x_values := false }
    [65, 117, 116, 104] [75, 101, 121] [97, 85, 84, 72] [107, 69, 89] [49] [50]
    (by decide) (by decide)).2 rfl).2.2.trans rfl

/-! ### The write buffer of a connection -/

theorem writebuf_size_pos : 0 < SVN_RA_SVN__WRITEBUF_SIZE := by decide

theorem div_mod_full (c w n : Nat) (hc : 0 < c) (hw : w + 1 = c) :
    (w + (n + 1)) / c = n / c + 1 ∧ (w + (n + 1)) % c = n % c := by
  have e : w + (n + 1) = c + n := by omega
  rw [e, Nat.add_div_left n hc, Nat.add_mod_left]
  exact ⟨rfl, rfl⟩

theorem write_raw_byte_below {H B : Type} (conn : svn_ra_svn_conn_st H B) (b : Nat)
    (h : conn.write_pos + 1 < SVN_RA_SVN__WRITEBUF_SIZE) :
    write_raw_byte conn b
      = { conn with write_buf := conn.write_buf ++ [b], write_pos := conn.write_pos + 1 } := by
  unfold write_raw_byte
  rw [if_neg (by omega)]

theorem write_raw_byte_full {H B : Type} (conn : svn_ra_svn_conn_st H B) (b : Nat)
    (h : conn.write_pos + 1 = SVN_RA_SVN__WRITEBUF_SIZE) :
    write_raw_byte conn b
      = writebuf_flush { conn with write_buf := conn.write_buf ++ [b],
                                   write_pos := conn.write_pos + 1 } := by
  unfold write_raw_byte
  rw [if_pos (by omega)]

theorem write_raw_cursor {H B : Type} (data : Bytes) :
    ∀ conn : svn_ra_svn_conn_st H B, conn.write_pos < SVN_RA_SVN__WRITEBUF_SIZE →
      (write_raw conn data).write_pos
          = (conn.write_pos + data.length) % SVN_RA_SVN__WRITEBUF_SIZE
        ∧ (write_raw conn data).stream.flushes
          = conn.stream.flushes + (conn.write_pos + data.length) / SVN_RA_SVN__WRITEBUF_SIZE
        ∧ (write_raw conn data).stream.written ++ (write_raw conn data).write_buf
          = conn.stream.written ++ conn.write_buf ++ data := by
  have hc := writebuf_size_pos
  induction data with
  | nil =>
    intro conn h
    simp only [write_raw, List.length_nil, Nat.add_zero, List.append_nil]
    exact ⟨(Nat.mod_eq_of_lt h).symm, by rw [Nat.div_eq_of_lt h]; rfl, trivial⟩
  | cons b rest ih =>
    intro conn h
    simp only [write_raw, List.length_cons]
    by_cases hfull : conn.write_pos + 1 = SVN_RA_SVN__WRITEBUF_SIZE
    · rw [write_raw_byte_full conn b hfull]
      obtain ⟨h1, h2, h3⟩ := ih (writebuf_flush { conn with
        write_buf := conn.write_buf ++ [b], write_pos := conn.write_pos + 1 })
        (by simp only [writebuf_flush]; exact hc)
      obtain ⟨e1, e2⟩ := div_mod_full _ conn.write_pos rest.length hc hfull
      rw [h1, h2, h3, e1, e2]
      simp only [writebuf_flush, Nat.zero_add, List.append_nil, List.append_assoc,
        List.singleton_append]
      refine ⟨?_, ?_, ?_⟩ <;> first | trivial | rfl | omega
    · rw [write_raw_byte_below conn b (by omega)]
      obtain ⟨h1, h2, h3⟩ := ih { conn with
        write_buf := conn.write_buf ++ [b], write_pos := conn.write_pos + 1 }
        (by simp only []; omega)
      have e : conn.write_pos + 1 + rest.length = conn.write_pos + (rest.length + 1) := by
        omega
      rw [h1, h2, h3]
      simp only [e, List.append_assoc, List.singleton_append]
      exact ⟨trivial, trivial, trivial⟩

theorem write_raw_fields {H B : Type} (data : Bytes) :
    ∀ conn : svn_ra_svn_conn_st H B,
      (write_raw conn data).block_handler = conn.block_handler
        ∧ (write_raw conn data).block_baton = conn.block_baton
        ∧ (write_raw conn data).stream.room = conn.stream.room := by
  induction data with
  | nil => intro conn; exact ⟨rfl, rfl, rfl⟩
  | cons b rest ih =>
    intro conn
    simp only [write_raw]
    obtain ⟨h1, h2, h3⟩ := ih (write_raw_byte conn b)
    rw [h1, h2, h3]
    unfold write_raw_byte
    split <;> exact ⟨rfl, rfl, rfl⟩

theorem write_raw_blocked {H B : Type} (data : Bytes) :
    ∀ conn : svn_ra_svn_conn_st H B, conn.write_pos < SVN_RA_SVN__WRITEBUF_SIZE →
      (write_raw conn data).stream.blocked
          = conn.stream.blocked
            + (match conn.block_handler with
               | some _ => 0
               | none => blockedFlushes conn data)
        ∧ (write_raw conn data).stream.handled
          = conn.stream.handled
            ++ (match conn.block_handler with
                | some handler => List.replicate (blockedFlushes conn data)
                    (handler, conn.block_baton)
                | none => []) := by
  have hc := writebuf_size_pos
  induction data with
  | nil =>
    intro conn h
    have h0 : blockedFlushes conn [] = 0 := by
      unfold blockedFlushes
      split
      · simp only [List.length_nil, Nat.add_zero]; exact Nat.div_eq_of_lt h
      · rfl
    rw [h0]
    simp only [write_raw]
    cases conn.block_handler <;> simp
  | cons b rest ih =>
    intro conn h
    simp only [write_raw]
    by_cases hfull : conn.write_pos + 1 = SVN_RA_SVN__WRITEBUF_SIZE
    · rw [write_raw_byte_full conn b hfull]
      obtain ⟨h1, h2⟩ := ih (writebuf_flush { conn with
        write_buf := conn.write_buf ++ [b], write_pos := conn.write_pos + 1 })
        (by simp only [writebuf_flush]; exact hc)
      obtain ⟨e1, _⟩ := div_mod_full _ conn.write_pos rest.length hc hfull
      rw [h1, h2]
      by_cases hroom : conn.stream.room < SVN_RA_SVN__WRITEBUF_SIZE
      · have hnot : ¬ conn.write_pos + 1 ≤ conn.stream.room := by omega
        cases hh : conn.block_handler with
        | none =>
          simp only [writebuf_flush, blockedFlushes, hh, hroom, hnot, if_true, if_false,
            List.length_cons, e1, Nat.zero_add, List.append_nil]
          exact ⟨by omega, trivial⟩
        | some handler =>
          simp only [writebuf_flush, blockedFlushes, hh, hroom, hnot, if_true, if_false,
            List.length_cons, e1, Nat.zero_add, List.replicate_succ, List.append_assoc,
            List.singleton_append, Nat.add_zero]
          exact ⟨trivial, trivial⟩
      · have hyes : conn.write_pos + 1 ≤ conn.stream.room := by omega
        cases hh : conn.block_handler with
        | none =>
          simp only [writebuf_flush, blockedFlushes, hh, hroom, hyes, if_true, if_false,
            List.append_nil, Nat.add_zero]
          exact ⟨trivial, trivial⟩
        | some handler =>
          simp only [writebuf_flush, blockedFlushes, hh, hroom, hyes, if_true, if_false,
            List.replicate_zero, List.append_nil, Nat.add_zero]
          exact ⟨trivial, trivial⟩
    · rw [write_raw_byte_below conn b (by omega)]
      obtain ⟨h1, h2⟩ := ih { conn with
        write_buf := conn.write_buf ++ [b], write_pos := conn.write_pos + 1 }
        (by simp only []; omega)
      have e : conn.write_pos + 1 + rest.length = conn.write_pos + (rest.length + 1) := by
        omega
      rw [h1, h2]
      simp only [blockedFlushes, List.length_cons, e]
      exact ⟨trivial, trivial⟩

theorem write_raw_all_below {H B : Type} (writes : List Bytes) :
    ∀ conn : svn_ra_svn_conn_st H B, conn.write_pos < SVN_RA_SVN__WRITEBUF_SIZE →
      (writes.foldl write_raw conn).write_pos < SVN_RA_SVN__WRITEBUF_SIZE := by
  induction writes with
  | nil => intro conn h; exact h
  | cons data rest ih =>
    intro conn h
    simp only [List.foldl_cons]
    apply ih
    rw [(write_raw_cursor data conn h).1]
    exact Nat.mod_lt _ writebuf_size_pos

theorem write_raw_same_bytes {H B : Type} (data : Bytes) :
    ∀ c1 c2 : svn_ra_svn_conn_st H B, c1.write_buf = c2.write_buf →
      c1.write_pos = c2.write_pos → c1.stream.written = c2.stream.written →
      c1.stream.flushes = c2.stream.flushes →
      (write_raw c1 data).write_buf = (write_raw c2 data).write_buf
        ∧ (write_raw c1 data).write_pos = (write_raw c2 data).write_pos
        ∧ (write_raw c1 data).stream.written = (write_raw c2 data).stream.written
        ∧ (write_raw c1 data).stream.flushes = (write_raw c2 data).stream.flushes := by
  induction data with
  | nil => intro c1 c2 h1 h2 h3 h4; exact ⟨h1, h2, h3, h4⟩
  | cons b rest ih =>
    intro c1 c2 h1 h2 h3 h4
    simp only [write_raw]
    apply ih
    all_goals
      unfold write_raw_byte
      rw [h2]
      split
      · simp only [writebuf_flush, h1, h3, h4]
      · simp only [h1, h2, h3, h4]

/-- C3: on the model of `write_raw`, a connection whose write cursor is below
the capacity, as it is when the connection is made, has it at most the
capacity after `write_raw`, and below the capacity after every sequence of
calls of `write_raw`; and writing exactly capacity bytes causes exactly one
flush. -/
theorem write_raw_cursor_bounded {H B : Type} (conn : svn_ra_svn_conn_st H B) (data : Bytes)
    (h : conn.write_pos < SVN_RA_SVN__WRITEBUF_SIZE) :
    (write_raw conn data).write_pos ≤ SVN_RA_SVN__WRITEBUF_SIZE
      ∧ (∀ writes : List Bytes,
          (writes.foldl write_raw conn).write_pos < SVN_RA_SVN__WRITEBUF_SIZE)
      ∧ (data.length = SVN_RA_SVN__WRITEBUF_SIZE →
          (write_raw conn data).stream.flushes = conn.stream.flushes + 1) := by
  have hc := writebuf_size_pos
  obtain ⟨h1, h2, _⟩ := write_raw_cursor data conn h
  refine ⟨?_, fun writes => write_raw_all_below writes conn h, ?_⟩
  · rw [h1]
    exact Nat.le_of_lt (Nat.mod_lt _ hc)
  · intro hl
    rw [h2, hl, Nat.add_div_right _ hc, Nat.div_eq_of_lt h]

/-- C3 at a connection just made: capacity bytes cause one flush. -/
theorem write_raw_cursor_bounded_witness :
    (write_raw (freshConn Unit Unit 0)
        (List.replicate SVN_RA_SVN__WRITEBUF_SIZE 0)).stream.flushes = 0 + 1 :=
  (write_raw_cursor_bounded (freshConn Unit Unit 0)
      (List.replicate SVN_RA_SVN__WRITEBUF_SIZE 0) (by decide)).2.2
    (List.length_replicate _ _)

/-! ### The blocked-write handler of a connection -/

/-- C21: on the model of `svn_ra_svn__set_block_handler`, after the call the
connection holds the given callback and baton; a handler installed before
leaves no trace, the result being that of the call on the connection without
it; the stream, the read buffer and its two cursors, the write buffer and its
cursor, the uuid, the repository root and the capabilities are those of
before, and `write_raw` after the call buffers and sends the bytes that it
would without the call.  The flushes of a `write_raw` that the stream cannot
take at once are all its flushes when the stream takes less than a full
buffer, and none otherwise.  After a call with a NULL callback every such flush
blocks and no handler is invoked, whatever was installed before; after a call
with a callback every such flush invokes that callback with the given baton,
and none blocks. -/
theorem svn_ra_svn__set_block_handler_frame {H B : Type} (conn : svn_ra_svn_conn_st H B)
    (callback : Option H) (baton : Option B) :
    (svn_ra_svn__set_block_handler conn callback baton).block_handler = callback
      ∧ (svn_ra_svn__set_block_handler conn callback baton).block_baton = baton
      ∧ (∀ (callback0 : Option H) (baton0 : Option B),
          svn_ra_svn__set_block_handler
              (svn_ra_svn__set_block_handler conn callback0 baton0) callback baton
            = svn_ra_svn__set_block_handler conn callback baton)
      ∧ (svn_ra_svn__set_block_handler conn callback baton).stream = conn.stream
      ∧ (svn_ra_svn__set_block_handler conn callback baton).read_buf = conn.read_buf
      ∧ (svn_ra_svn__set_block_handler conn callback baton).read_ptr = conn.read_ptr
      ∧ (svn_ra_svn__set_block_handler conn callback baton).read_end = conn.read_end
      ∧ (svn_ra_svn__set_block_handler conn callback baton).write_buf = conn.write_buf
      ∧ (svn_ra_svn__set_block_handler conn callback baton).write_pos = conn.write_pos
      ∧ (svn_ra_svn__set_block_handler conn callback baton).uuid = conn.uuid
      ∧ (svn_ra_svn__set_block_handler conn callback baton).repos_root = conn.repos_root
      ∧ (svn_ra_svn__set_block_handler conn callback baton).capabilities
          = conn.capabilities
      ∧ (∀ data : Bytes,
          (write_raw (svn_ra_svn__set_block_handler conn callback baton) data).write_buf
              = (write_raw conn data).write_buf
            ∧ (write_raw (svn_ra_svn__set_block_handler conn callback baton) data).write_pos
              = (write_raw conn data).write_pos
            ∧ (write_raw (svn_ra_svn__set_block_handler conn callback baton)
                data).stream.written = (write_raw conn data).stream.written
            ∧ (write_raw (svn_ra_svn__set_block_handler conn callback baton)
                data).stream.flushes = (write_raw conn data).stream.flushes)
      ∧ (∀ data : Bytes, conn.write_pos < SVN_RA_SVN__WRITEBUF_SIZE →
          blockedFlushes conn data
            = if conn.stream.room < SVN_RA_SVN__WRITEBUF_SIZE then
                (write_raw conn data).stream.flushes - conn.stream.flushes
              else 0)
      ∧ (∀ data : Bytes, conn.write_pos < SVN_RA_SVN__WRITEBUF_SIZE →
          (write_raw (svn_ra_svn__set_block_handler conn none baton) data).stream.blocked
              = conn.stream.blocked + blockedFlushes conn data
            ∧ (write_raw (svn_ra_svn__set_block_handler conn none baton) data).stream.handled
              = conn.stream.handled)
      ∧ (∀ (handler : H) (data : Bytes), conn.write_pos < SVN_RA_SVN__WRITEBUF_SIZE →
          (write_raw (svn_ra_svn__set_block_handler conn (some handler) baton)
              data).stream.handled
              = conn.stream.handled
                ++ List.replicate (blockedFlushes conn data) (handler, baton)
            ∧ (write_raw (svn_ra_svn__set_block_handler conn (some handler) baton)
                data).stream.blocked = conn.stream.blocked) := by
  refine ⟨rfl, rfl, fun _ _ => rfl, rfl, rfl, rfl, rfl, rfl, rfl, rfl, rfl, rfl, ?_, ?_, ?_,
    ?_⟩
  · intro data
    exact write_raw_same_bytes data _ conn rfl rfl rfl rfl
  · intro data h
    unfold blockedFlushes
    rw [(write_raw_cursor data conn h).2.1, Nat.add_sub_cancel_left]
  · intro data h
    obtain ⟨h1, h2⟩ := write_raw_blocked data
      (svn_ra_svn__set_block_handler conn none baton) h
    refine ⟨h1, ?_⟩
    rw [h2]
    simp [svn_ra_svn__set_block_handler]
  · intro handler data h
    obtain ⟨h1, h2⟩ := write_raw_blocked data
      (svn_ra_svn__set_block_handler conn (some handler) baton) h
    exact ⟨h2, h1⟩

/-- C21 at a connection over a stream that takes 100 bytes at once, with the
handler 7 installed: after handler 9 is installed with baton 1, the flush of a
full buffer invokes handler 9 with baton 1, once, and handler 7 not at all. -/
theorem svn_ra_svn__set_block_handler_frame_witness :
    (write_raw
        (svn_ra_svn__set_block_handler
          (svn_ra_svn__set_block_handler (freshConn Nat Nat 100) (some 7) (some 0))
          (some 9) (some 1))
        (List.replicate SVN_RA_SVN__WRITEBUF_SIZE 0)).stream.handled
      = [(9, some 1)] := by
  have h := ((svn_ra_svn__set_block_handler_frame
    (svn_ra_svn__set_block_handler (freshConn Nat Nat 100) (some 7) (some 0))
    (some 9) (some 1)).2.2.2.2.2.2.2.2.2.2.2.2.2.2.2 9
    (List.replicate SVN_RA_SVN__WRITEBUF_SIZE 0) (by decide)).1
  have e : blockedFlushes
      (svn_ra_svn__set_block_handler (freshConn Nat Nat 100) (some 7) (some 0))
      (List.replicate SVN_RA_SVN__WRITEBUF_SIZE 0) = 1 := by
    unfold blockedFlushes
    rw [List.length_replicate]
    decide
  rw [e] at h
  exact h

/-! ### The item codec -/

theorem takeRun_append (p : Nat → Bool) (run : Bytes) :
    ∀ rest : Bytes, (∀ c ∈ run, p c = true) → (∀ c, rest.head? = some c → p c = false) →
      takeRun p (run ++ rest) = (run, rest) := by
  induction run with
  | nil =>
    intro rest _ hr
    cases rest with
    | nil => simp [takeRun]
    | cons c cs => simp [takeRun, hr c (by simp)]
  | cons d ds ih =>
    intro rest hl hr
    have hd := hl d (by simp)
    simp only [List.cons_append, takeRun, hd, if_true, List.append_eq]
    rw [ih rest (fun c hc => hl c (by simp [hc])) hr]

theorem decimal_digits (n : Nat) : ∀ c ∈ decimal n, isDigit c = true :=
  decimalCore_digits _ _

theorem decimal_value (n : Nat) : digitsValue 0 (decimal n) = n :=
  digitsValue_decimalCore _ n (by omega)

theorem decimal_ne_nil (n : Nat) : decimal n ≠ [] := decimalCore_ne_nil _ _

theorem takeRun_decimal (n : Nat) (rest : Bytes) :
    takeRun isDigit (decimal n ++ 32 :: rest) = (decimal n, 32 :: rest) :=
  takeRun_append isDigit (decimal n) (32 :: rest) (decimal_digits n)
    (by intro c hc; simp only [List.head?_cons, Option.some.injEq] at hc; subst hc; decide)

theorem decimal_isEmpty (n : Nat) : (decimal n).isEmpty = false := by
  have := decimal_ne_nil n
  cases h : decimal n with
  | nil => exact absurd h this
  | cons c cs => rfl

theorem readNumber_encode (n : Nat) (hn : n < 18446744073709551616) (rest : Bytes) :
    readNumber (decimal n ++ 32 :: rest) = .ok (n, rest) := by
  simp only [readNumber, takeRun_decimal, decimal_isEmpty, Bool.false_eq_true, if_false,
    expectByte, if_true, decimal_value, hn]

theorem readString_encode (s rest : Bytes) :
    readString (decimal s.length ++ 32 :: (s ++ 32 :: rest)) = .ok (s, rest) := by
  simp only [readString, takeRun_decimal, decimal_isEmpty, Bool.false_eq_true, if_false,
    expectByte, if_true, decimal_value]
  simp [expectByte]

theorem readWord_encode (w rest : Bytes) (hne : w.isEmpty = false)
    (hw : w.all isWordChar = true) :
    readWord (w ++ 32 :: rest) = .ok (w, rest) := by
  have hrun : takeRun isWordChar (w ++ 32 :: rest) = (w, 32 :: rest) :=
    takeRun_append isWordChar w (32 :: rest) (by simpa using hw)
      (by intro c hc; simp only [List.head?_cons, Option.some.injEq] at hc; subst hc; decide)
  simp only [readWord, hrun, hne, Bool.false_eq_true, if_false, expectByte, if_true]

mutual
theorem decodeAs_encode : ∀ (v : Item), validItem v = true → ∀ rest : Bytes,
    decodeAs (shapeOf v) (encode v ++ rest) = .ok (v, rest)
  | .number n, hv, rest => by
    simp only [validItem, decide_eq_true_eq] at hv
    simp only [shapeOf, encode, decodeAs, List.append_assoc, List.singleton_append,
      readNumber_encode n hv]
  | .string s, _, rest => by
    simp only [shapeOf, encode, decodeAs, List.append_assoc, List.singleton_append,
      List.cons_append, List.nil_append, readString_encode]
  | .word w, hv, rest => by
    simp only [validItem, Bool.and_eq_true, Bool.not_eq_true'] at hv
    simp only [shapeOf, encode, decodeAs, List.append_assoc, List.singleton_append,
      readWord_encode w rest hv.1 hv.2]
  | .list xs, hv, rest => by
    simp only [validItem] at hv
    have ih := decodeSeq_encodeAll xs hv (41 :: 32 :: rest)
    simp only [shapeOf, encode, decodeAs, List.append_assoc, List.cons_append, List.nil_append,
      expectByte, if_true, ih]
  | .tuple xs, hv, rest => by
    simp only [validItem] at hv
    have ih := decodeSeq_encodeAll xs hv (41 :: 32 :: rest)
    simp only [shapeOf, encode, decodeAs, List.append_assoc, List.cons_append, List.nil_append,
      expectByte, if_true, ih]
theorem decodeSeq_encodeAll : ∀ (xs : List Item), validItems xs = true → ∀ rest : Bytes,
    decodeSeq (shapesOf xs) (encodeAll xs ++ rest) = .ok (xs, rest)
  | [], _, rest => by simp [shapesOf, encodeAll, decodeSeq]
  | x :: xs, hv, rest => by
    simp only [validItems, Bool.and_eq_true] at hv
    have h1 := decodeAs_encode x hv.1 (encodeAll xs ++ rest)
    have h2 := decodeSeq_encodeAll xs hv.2 rest
    simp only [shapesOf, encodeAll, decodeSeq, List.append_assoc, h1, h2]
end

theorem head_of_run (p : Nat → Bool) (l rest : Bytes) (hne : l ≠ [])
    (hall : ∀ c ∈ l, p c = true) (hp : p 41 = false) : (l ++ rest).head? ≠ some 41 := by
  cases l with
  | nil => exact absurd rfl hne
  | cons c cs =>
    simp only [List.cons_append, List.head?_cons, ne_eq, Option.some.injEq]
    intro hc
    have := hall c (by simp)
    rw [hc, hp] at this
    exact Bool.false_ne_true this

theorem encode_head (v : Item) (hv : validItem v = true) (rest : Bytes) :
    (encode v ++ rest).head? ≠ some 41 := by
  cases v with
  | number n =>
    simp only [encode, List.append_assoc]
    exact head_of_run isDigit _ _ (decimal_ne_nil n) (decimal_digits n) (by decide)
  | string s =>
    simp only [encode, List.append_assoc]
    exact head_of_run isDigit _ _ (decimal_ne_nil _) (decimal_digits _) (by decide)
  | word w =>
    simp only [validItem, Bool.and_eq_true, Bool.not_eq_true'] at hv
    simp only [encode, List.append_assoc]
    refine head_of_run isWordChar _ _ ?_ (by simpa using hv.2) (by decide)
    intro h
    rw [h] at hv
    simp at hv
  | list xs => simp [encode]
  | tuple xs => simp [encode]

theorem encode_length_pos (v : Item) : 0 < (encode v).length := by
  cases v <;> simp [encode]

theorem encodeAll_length (xs : List Item) : xs.length ≤ (encodeAll xs).length := by
  induction xs with
  | nil => simp
  | cons x xs ih =>
    have := encode_length_pos x
    simp only [encodeAll, List.length_cons, List.length_append]
    omega

mutual
theorem conforms_shapeOf : ∀ (v : Item), conforms (shapeOf v) v = true
  | .number _ => by simp [shapeOf, conforms]
  | .string _ => by simp [shapeOf, conforms]
  | .word _ => by simp [shapeOf, conforms]
  | .list xs => by simp only [shapeOf, conforms]; exact conformsAll_shapesOf xs
  | .tuple xs => by simp only [shapeOf, conforms]; exact conformsAll_shapesOf xs
theorem conformsAll_shapesOf : ∀ (xs : List Item), conformsAll (shapesOf xs) xs = true
  | [] => by simp [shapesOf, conformsAll]
  | x :: xs => by
    simp only [shapesOf, conformsAll, Bool.and_eq_true]
    exact ⟨conforms_shapeOf x, conformsAll_shapesOf xs⟩
end

mutual
theorem decodeAs_conforms : ∀ (v : Item) (sh : Shape), validItem v = true →
    conforms sh v = true → ∀ rest : Bytes, decodeAs sh (encode v ++ rest) = .ok (v, rest)
  | .number n, sh, hv, hc, rest => by
    cases sh <;> simp only [conforms, Bool.false_eq_true] at hc
    simp only [validItem, decide_eq_true_eq] at hv
    simp only [encode, decodeAs, List.append_assoc, List.singleton_append,
      readNumber_encode n hv]
  | .string s, sh, _, hc, rest => by
    cases sh <;> simp only [conforms, Bool.false_eq_true] at hc
    simp only [encode, decodeAs, List.append_assoc, List.singleton_append,
      List.cons_append, List.nil_append, readString_encode]
  | .word w, sh, hv, hc, rest => by
    cases sh <;> simp only [conforms, Bool.false_eq_true] at hc
    simp only [validItem, Bool.and_eq_true, Bool.not_eq_true'] at hv
    simp only [encode, decodeAs, List.append_assoc, List.singleton_append,
      readWord_encode w rest hv.1 hv.2]
  | .list xs, sh, hv, hc, rest => by
    simp only [validItem] at hv
    cases sh with
    | list elts =>
      simp only [conforms] at hc
      have ih := decodeSeq_conformsAll xs elts hv hc (41 :: 32 :: rest)
      simp only [encode, decodeAs, List.append_assoc, List.cons_append, List.nil_append,
        expectByte, if_true, ih]
    | listOf elt =>
      simp only [conforms] at hc
      have hlen := encodeAll_length xs
      have ih := decodeMany_conformsEach xs elt hv hc
        ((encodeAll xs ++ 41 :: 32 :: rest).length + 1) (32 :: rest)
        (by simp only [List.length_append]; omega)
      simp only [encode, decodeAs, List.append_assoc, List.cons_append, List.nil_append,
        expectByte, if_true, ih]
    | number => simp [conforms] at hc
    | string => simp [conforms] at hc
    | word => simp [conforms] at hc
    | tuple elts => simp [conforms] at hc
  | .tuple xs, sh, hv, hc, rest => by
    simp only [validItem] at hv
    cases sh with
    | tuple elts =>
      simp only [conforms] at hc
      have ih := decodeSeq_conformsAll xs elts hv hc (41 :: 32 :: rest)
      simp only [encode, decodeAs, List.append_assoc, List.cons_append, List.nil_append,
        expectByte, if_true, ih]
    | number => simp [conforms] at hc
    | string => simp [conforms] at hc
    | word => simp [conforms] at hc
    | list elts => simp [conforms] at hc
    | listOf elt => simp [conforms] at hc
theorem decodeSeq_conformsAll : ∀ (xs : List Item) (ss : List Shape),
    validItems xs = true → conformsAll ss xs = true → ∀ rest : Bytes,
    decodeSeq ss (encodeAll xs ++ rest) = .ok (xs, rest)
  | [], ss, _, hc, rest => by
    cases ss with
    | nil => simp [encodeAll, decodeSeq]
    | cons s ss => simp [conformsAll] at hc
  | x :: xs, ss, hv, hc, rest => by
    cases ss with
    | nil => simp [conformsAll] at hc
    | cons s ss =>
      simp only [validItems, Bool.and_eq_true] at hv
      simp only [conformsAll, Bool.and_eq_true] at hc
      have h1 := decodeAs_conforms x s hv.1 hc.1 (encodeAll xs ++ rest)
      have h2 := decodeSeq_conformsAll xs ss hv.2 hc.2 rest
      simp only [encodeAll, decodeSeq, List.append_assoc, h1, h2]
theorem decodeMany_conformsEach : ∀ (xs : List Item) (elt : Shape),
    validItems xs = true → conformsEach elt xs = true → ∀ (fuel : Nat) (rest : Bytes),
    xs.length < fuel →
    decodeMany (fun i => decodeAs elt i) fuel (encodeAll xs ++ 41 :: rest)
      = .ok (xs, 41 :: rest)
  | [], elt, _, _, fuel, rest, hf => by
    cases fuel with
    | zero => simp at hf
    | succ fuel => simp [encodeAll, decodeMany]
  | x :: xs, elt, hv, hc, fuel, rest, hf => by
    cases fuel with
    | zero => simp at hf
    | succ fuel =>
      simp only [validItems, Bool.and_eq_true] at hv
      simp only [conformsEach, Bool.and_eq_true] at hc
      have hhead := encode_head x hv.1 (encodeAll xs ++ 41 :: rest)
      have h1 := decodeAs_conforms x elt hv.1 hc.1 (encodeAll xs ++ 41 :: rest)
      have h2 := decodeMany_conformsEach xs elt hv.2 hc.2 fuel rest
        (by simp only [List.length_cons] at hf; omega)
      simp only [encodeAll, decodeMany, List.append_assoc, hhead, if_false, h1, h2]
end

/-- C1, as stated, fails: the bytes do not determine the value.  A tuple has
the "same bracket syntax" as a list, and a string is written as its length, a
space and its bytes, which is how a number followed by a word is written.  So
distinct valid items have the same encoding, and no decoder, whatever it does,
gives back every valid item from the bytes of its encoding alone. -/
theorem encode_not_injective :
    encode (.tuple []) = encode (.list []) ∧ Item.tuple [] ≠ Item.list []
      ∧ validItem (.tuple []) = true ∧ validItem (.list []) = true
      ∧ encode (.list [.string [97, 98, 99]]) = encode (.list [.number 3, .word [97, 98, 99]])
      ∧ Item.list [.string [97, 98, 99]] ≠ Item.list [.number 3, .word [97, 98, 99]]
      ∧ validItem (.list [.string [97, 98, 99]]) = true
      ∧ validItem (.list [.number 3, .word [97, 98, 99]]) = true
      ∧ ∀ decode : Bytes → Except ProtoError (Item × Bytes),
          ¬ ∀ v : Item, validItem v = true → decode (encode v) = .ok (v, []) := by
  refine ⟨by decide, ?_, by decide, by decide, by decide, ?_, by decide, by decide, ?_⟩
  · intro h; cases h
  · intro h; cases h
  · intro decode hall
    have h1 := hall (.tuple []) (by decide)
    have h2 := hall (.list []) (by decide)
    have e : encode (.tuple []) = encode (.list []) := by decide
    rw [e, h2] at h1
    simp only [Except.ok.injEq, Prod.mk.injEq, and_true] at h1
    cases h1

/-- C1, amended: every valid Item is of a shape, its own, and for every valid
Item and every expected shape that the item is of, decoding the bytes of its
encoding against that shape yields the item again and leaves the input that
follows untouched.  The shape tells the kind of each item, and for a list it
may give one shape for all elements and leave their number to the input.  This
holds for zero-length strings, nested empty lists and tuples, and numbers up
to the 64-bit boundary. -/
theorem decode_encode_roundtrip (v : Item) (hv : validItem v = true) :
    conforms (shapeOf v) v = true
      ∧ ∀ sh : Shape, conforms sh v = true →
          decodeAs sh (encode v) = .ok (v, [])
            ∧ ∀ rest : Bytes, decodeAs sh (encode v ++ rest) = .ok (v, rest) := by
  refine ⟨conforms_shapeOf v, fun sh hc => ⟨?_, decodeAs_conforms v sh hv hc⟩⟩
  have := decodeAs_conforms v sh hv hc []
  rwa [List.append_nil] at this

/-- C1, amended, at a tuple that holds an empty string, an empty list, a list
of two words and the largest 64-bit number, decoded as a tuple of a string, a
list of numbers, a list of words and a number. -/
theorem decode_encode_roundtrip_witness :
    decodeAs (.tuple [.string, .listOf .number, .listOf .word, .number])
        (encode (.tuple [.string [], .list [], .list [.word [97], .word [98]],
          .number 18446744073709551615]))
      = .ok (.tuple [.string [], .list [], .list [.word [97], .word [98]],
          .number 18446744073709551615], []) :=
  ((decode_encode_roundtrip
    (.tuple [.string [], .list [], .list [.word [97], .word [98]],
      .number 18446744073709551615]) (by decide)).2
    (.tuple [.string, .listOf .number, .listOf .word, .number]) (by decide)).1

/-- C4: from the parameters of a failure reply, one item per error record,
`svn_ra_svn__handle_failure_status` builds an error chain that holds exactly
one error per record, in the order of the records, the first outermost. -/
theorem handle_failure_status_chain (records : List ErrorRecord) :
    ∃ chain : svn_error_t,
      svn_ra_svn__handle_failure_status (records.map recordItem) = .ok chain
        ∧ errorChain chain = records
        ∧ (errorChain chain).length = records.length := by
  induction records with
  | nil => exact ⟨.SVN_NO_ERROR, rfl, rfl, rfl⟩
  | cons r rest ih =>
    obtain ⟨child, h1, h2, _⟩ := ih
    refine ⟨.error r.code r.message r.file r.line child, ?_, ?_, ?_⟩
    · simp only [List.map_cons, svn_ra_svn__handle_failure_status, recordItem,
        parseErrorRecord, h1]
    · simp only [errorChain, h2]
    · simp only [errorChain, h2, List.length_cons]

/-! ### CRAM-MD5 -/

set_option maxRecDepth 1000000 in
/-- C5: for the challenge, user and secret of the example of RFC 2195, the
response of the CRAM-MD5 client is the reference string of the RFC: the user
name tim, a space, and the digest b913a602c7eda7a495b4e6e7334d3890. -/
theorem cram_client_rfc2195 :
    cram_client_response [116, 105, 109]
        [116, 97, 110, 115, 116, 97, 97, 102, 116, 97, 110, 115, 116, 97, 97, 102]
        [60, 49, 56, 57, 54, 46, 54, 57, 55, 49, 55, 48, 57, 53, 50, 64, 112, 111, 115, 116,
         111, 102, 102, 105, 99, 101, 46, 114, 101, 115, 116, 111, 110, 46, 109, 99, 105, 46,
         110, 101, 116, 62]
      = [116, 105, 109, 32, 98, 57, 49, 51, 97, 54, 48, 50, 99, 55, 101, 100, 97, 55, 97, 52,
         57, 53, 98, 52, 101, 54, 101, 55, 51, 51, 52, 100, 51, 56, 57, 48] := by
  decide

/-! ### The commit command -/

theorem commitMessage_eq (opt_state : svn_cl__opt_state_t) :
    (match opt_state.filedata with
      | some filedata => some filedata
      | none => opt_state.message) = commitMessage opt_state := by
  unfold commitMessage
  cases opt_state.filedata with
  | none => simp
  | some f => simp

theorem commit_loop_recorded {W E Ed : Type}
    (get_editor : svn_string_t → W → Except E Ed × W)
    (commit : Ed → svn_string_t → Option svn_string_t → Option svn_string_t → Int → W →
      Option E × W)
    (opt_state : svn_cl__opt_state_t) (targets : List svn_string_t) :
    ∀ (w : W) (log : List (CommitCall E)),
      ∃ calls : List (CommitCall E),
        svn_cl__commit_loop (recordingEditor get_editor) (recordingCommit commit)
            (commitMessage opt_state) opt_state targets (w, log)
          = ((svn_cl__commit_loop get_editor commit (commitMessage opt_state) opt_state
                targets w).1,
             ((svn_cl__commit_loop get_editor commit (commitMessage opt_state) opt_state
                targets w).2, log ++ calls))
        ∧ StopsAtFirstFailure opt_state targets
            (svn_cl__commit_loop get_editor commit (commitMessage opt_state) opt_state
              targets w).1 calls := by
  induction targets with
  | nil =>
    intro w log
    exact ⟨[], by simp [svn_cl__commit_loop], Or.inl ⟨rfl, rfl⟩⟩
  | cons t rest ih =>
    intro w log
    simp only [svn_cl__commit_loop, recordingEditor]
    rcases hg : get_editor t w with ⟨r, w1⟩
    cases r with
    | error e =>
      refine ⟨[.get_editor t (some e)], rfl, Or.inr ⟨[], t, rest, e, rfl, rfl, Or.inl rfl⟩⟩
    | ok ed =>
      dsimp only
      simp only [recordingCommit]
      rcases hc : commit ed t (commitMessage opt_state) opt_state.xml_file
        opt_state.revision w1 with ⟨r2, w2⟩
      cases r2 with
      | some e =>
        refine ⟨[.get_editor t none, .commit t (commitMessage opt_state) opt_state.xml_file
          opt_state.revision (some e)], by simp, Or.inr ⟨[], t, rest, e, rfl, rfl, Or.inr rfl⟩⟩
      | none =>
        dsimp only
        obtain ⟨calls, h1, h2⟩ := ih w2 (log ++ [.get_editor t none]
          ++ [.commit t (commitMessage opt_state) opt_state.xml_file opt_state.revision none])
        refine ⟨[.get_editor t none, .commit t (commitMessage opt_state) opt_state.xml_file
          opt_state.revision none] ++ calls, ?_, ?_⟩
        · rw [h1]; simp
        · rcases h2 with ⟨h3, h4⟩ | ⟨before, target, after, e, h3, h4, h5⟩
          · exact Or.inl ⟨h3, by simp [committedCalls, h4]⟩
          · refine Or.inr ⟨t :: before, target, after, e, by simp [h3], h4, ?_⟩
            rcases h5 with h5 | h5
            · exact Or.inl (by simp [committedCalls, h5])
            · exact Or.inr (by simp [committedCalls, h5])

/-- C23: for every behaviour of the functions called, `svn_cl__commit` run with
the calls recorded returns the error and leaves the state that it does
without the record, and the calls it makes are, for the targets of the array in
order, the call for the trace editor and then `svn_client_commit` with the
message `filedata` when that is not NULL and `message` otherwise: either both
calls succeed for every target and the result is no error, or they succeed for
the targets before some target, one of the two calls fails for that target, its
error is the result, and no call follows. -/
theorem svn_cl__commit_stops_at_first_failure {Os W E Ed : Type}
    (args_to_target_array : Os → List svn_string_t)
    (push_implicit_dot_target : List svn_string_t → List svn_string_t)
    (get_editor : svn_string_t → W → Except E Ed × W)
    (commit : Ed → svn_string_t → Option svn_string_t → Option svn_string_t → Int → W →
      Option E × W)
    (os : Os) (opt_state : svn_cl__opt_state_t) (w : W) :
    ∃ calls : List (CommitCall E),
      svn_cl__commit args_to_target_array push_implicit_dot_target
          (recordingEditor get_editor) (recordingCommit commit) os opt_state (w, [])
        = ((svn_cl__commit args_to_target_array push_implicit_dot_target get_editor commit
              os opt_state w).1,
           ((svn_cl__commit args_to_target_array push_implicit_dot_target get_editor commit
              os opt_state w).2, calls))
      ∧ StopsAtFirstFailure opt_state (push_implicit_dot_target (args_to_target_array os))
          (svn_cl__commit args_to_target_array push_implicit_dot_target get_editor commit
            os opt_state w).1 calls := by
  obtain ⟨calls, h1, h2⟩ := commit_loop_recorded get_editor commit opt_state
    (push_implicit_dot_target (args_to_target_array os)) w []
  refine ⟨calls, ?_, ?_⟩
  · simp only [svn_cl__commit, commitMessage_eq]
    rw [h1]
    simp
  · simp only [svn_cl__commit, commitMessage_eq]
    exact h2

/-- An example run: of the targets `a`, `b`, `c` the first is committed, the
editor fails for the second with error 7, and nothing is called for the
third. -/
theorem svn_cl__commit_example :
    svn_cl__commit (fun ( _ : Unit) => [⟨[97], 1⟩, ⟨[98], 1⟩, ⟨[99], 1⟩]) id
        (recordingEditor exampleEditor) (recordingCommit exampleCommit) ()
        { message := some ⟨[109], 1⟩, filedata := none, xml_file := none, revision := 0 }
        (0, [])
      = (some 7, (1,
          [.get_editor ⟨[97], 1⟩ none,
           .commit ⟨[97], 1⟩ (some ⟨[109], 1⟩) none 0 none,
           .get_editor ⟨[98], 1⟩ (some 7)])) := by
  rfl

end Svn
